import Mathlib

/-!
# Propositional-logic parser, CNF pipeline and validity check (`main2.c`)

A shallow embedding of the C program: the `Node` tree, formula evaluation, the
three rewrite passes of `convertToCNF`, clause and literal extraction with the
symbol table, the validity check, the prefix and infix parsers and printers,
the conversion of a CNF tree to a clause set (`treeToDIMACS`), the evaluation
of a clause set (`evaluateDIMACS`), and the DIMACS writer and reader.

Conventions of the embedding.

* A `Node*` is a `Tree`; the `NULL` pointer is `Tree.nil`.
* A C `int` is an `Int` (the numbers computed by the program stay within the
  range of `int`); the truth values of `evaluateFormula` are the integers the C
  code returns (`-1`, `0`, `1`).  A number read from text by `atoi` or `%d` is
  converted as the C library does, through a `long` of 64 bits into an `int` of
  32 bits (`toCInt`); theorems about text that is read say where the numbers
  are values of the type `int`.
* A C string is the list of its characters; the terminating NUL is the end of
  the list, and reading the current character yields NUL there.  Text that is
  printed or written to a file is the list of the characters written.
* Functions whose recursion is not structural (`moveNegationsInward`,
  `distributeOrOverAnd`, the parsers) take a recursion budget `fuel` and return
  `none` when it is used up; theorems show that enough fuel always gives a
  result and that more fuel never changes it.
* Fixed-size arrays that the C code fills without a bounds check
  (`literals[50]`, `varMap[100]`, `literals[100]` in `readDIMACS`) are lists
  together with their capacity; a write past the end is undefined behaviour
  and is modelled by the result `none`.

The definitions come first, the lemmas and the theorems on the claims after
them.
-/

namespace LogicSSPP

/-! ## Data model -/

/-- The `Node` structure of the parse tree; `nil` stands for the `NULL` pointer. -/
inductive Tree where
  | nil : Tree
  | node (value : Char) (left right : Tree) : Tree
  deriving DecidableEq, Repr

open Tree

/-- The function `createNode`: a node with both children `NULL`. -/
def createNode (value : Char) : Tree := node value nil nil

/-- The function `isOperator`. -/
def isOperator (c : Char) : Bool := c == '~' || c == '+' || c == '*' || c == '>'

/-- The function `isBinaryOperator`. -/
def isBinaryOperator (c : Char) : Bool := c == '+' || c == '*' || c == '>'

/-- The test `root == NULL`. -/
def isNil : Tree → Bool
  | nil => true
  | node _ _ _ => false

/-- The test `root->value == c` on a possibly `NULL` pointer guarded by `root != NULL`. -/
def hasValue (c : Char) : Tree → Bool
  | nil => false
  | node v _ _ => v == c

/-- The field access `root->value` (used only under a non-`NULL` guard; NUL on `NULL`). -/
def valueOf : Tree → Char
  | nil => '\x00'
  | node v _ _ => v

/-- The field access `root->left` (`NULL` stays `NULL`, used only under a non-`NULL` guard). -/
def leftOf : Tree → Tree
  | nil => nil
  | node _ l _ => l

/-- The field access `root->right`. -/
def rightOf : Tree → Tree
  | nil => nil
  | node _ _ r => r

/-! ## Evaluation -/

/-- The array of `TruthAssignment` records: `(variable, value)` pairs. -/
abbrev Assignment := List (Char × Int)

/-- The function `getTruthValue`: the value of the first record for `var`, else `-1`. -/
def getTruthValue (var : Char) : Assignment → Int
  | [] => -1
  | (c, v) :: rest => if c == var then v else getTruthValue var rest

/-- The C operator `!` on an `int`. -/
def cNot (a : Int) : Int := if a = 0 then 1 else 0

/-- The C operator `||` on two already evaluated `int`s. -/
def cOr (a b : Int) : Int := if a ≠ 0 ∨ b ≠ 0 then 1 else 0

/-- The C operator `&&` on two already evaluated `int`s. -/
def cAnd (a b : Int) : Int := if a ≠ 0 ∧ b ≠ 0 then 1 else 0

/-- The function `evaluateFormula`. -/
def evaluateFormula : Tree → Assignment → Int
  | nil, _ => -1
  | node v l r, assignments =>
    if !isOperator v then getTruthValue v assignments
    else
      let leftVal := evaluateFormula l assignments
      let rightVal := if isNil r then 0 else evaluateFormula r assignments
      if v == '~' then cNot leftVal
      else if v == '+' then cOr leftVal rightVal
      else if v == '*' then cAnd leftVal rightVal
      else if v == '>' then cOr (cNot leftVal) rightVal
      else -1

/-! ## The CNF pipeline -/

/-- The function `cloneTree`. -/
def cloneTree : Tree → Tree
  | nil => nil
  | node v l r => node v (cloneTree l) (cloneTree r)

/-- The function `eliminateImplications`. -/
def eliminateImplications : Tree → Tree
  | nil => nil
  | node v l r =>
    let l1 := eliminateImplications l
    let r1 := eliminateImplications r
    if v == '>' then node '+' (node '~' l1 nil) r1
    else node v l1 r1

/-- The function `moveNegationsInward`, with a recursion budget. -/
def moveNegationsInward : Nat → Tree → Option Tree
  | 0, _ => none
  | _ + 1, nil => some nil
  | fuel + 1, node v l r =>
    if v != '~' then
      match moveNegationsInward fuel l, moveNegationsInward fuel r with
      | some l1, some r1 => some (node v l1 r1)
      | _, _ => none
    else if hasValue '~' l then
      moveNegationsInward fuel (leftOf l)
    else if hasValue '*' l then
      match moveNegationsInward fuel (node '~' (leftOf l) nil),
            moveNegationsInward fuel (node '~' (rightOf l) nil) with
      | some a, some b => some (node '+' a b)
      | _, _ => none
    else if hasValue '+' l then
      match moveNegationsInward fuel (node '~' (leftOf l) nil),
            moveNegationsInward fuel (node '~' (rightOf l) nil) with
      | some a, some b => some (node '*' a b)
      | _, _ => none
    else some (node v l r)

/-- The function `distributeOrOverAnd`, with a recursion budget. -/
def distributeOrOverAnd : Nat → Tree → Option Tree
  | 0, _ => none
  | _ + 1, nil => some nil
  | fuel + 1, node v l r =>
    match distributeOrOverAnd fuel l, distributeOrOverAnd fuel r with
    | some l1, some r1 =>
      if v == '+' then
        if hasValue '*' l1 then
          match distributeOrOverAnd fuel (node '+' (leftOf l1) (cloneTree r1)),
                distributeOrOverAnd fuel (node '+' (rightOf l1) r1) with
          | some a, some b => some (node '*' a b)
          | _, _ => none
        else if hasValue '*' r1 then
          match distributeOrOverAnd fuel (node '+' (cloneTree l1) (leftOf r1)),
                distributeOrOverAnd fuel (node '+' l1 (rightOf r1)) with
          | some a, some b => some (node '*' a b)
          | _, _ => none
        else some (node v l1 r1)
      else some (node v l1 r1)
    | _, _ => none

/-- The function `convertToCNF`: the three passes in order. -/
def convertToCNF (fuel : Nat) (root : Tree) : Option Tree :=
  match root with
  | nil => some nil
  | node _ _ _ =>
    match moveNegationsInward fuel (eliminateImplications root) with
    | some r2 => distributeOrOverAnd fuel r2
    | none => none

/-! ## Shape predicates on trees -/

/-- A variable leaf: a node whose value is no operator and whose children are `NULL`. -/
def isVarLeaf : Tree → Bool
  | nil => false
  | node v l r => !isOperator v && isNil l && isNil r

/-- Well-formed formula tree: variable leaves have no children, a `~` node has
exactly a left child, and `+`, `*`, `>` nodes have both children. -/
def wellFormed : Tree → Bool
  | nil => false
  | node v l r =>
    if !isOperator v then isNil l && isNil r
    else if v == '~' then wellFormed l && isNil r
    else wellFormed l && wellFormed r

/-- No node of the tree is an implication `>`. -/
def noImplies : Tree → Bool
  | nil => true
  | node v l r => v != '>' && noImplies l && noImplies r

/-- The child of every `~` node is a variable leaf. -/
def negOnVars : Tree → Bool
  | nil => true
  | node v l r => (v != '~' || isVarLeaf l) && negOnVars l && negOnVars r

/-- No node of the tree is a conjunction `*`. -/
def noAnd : Tree → Bool
  | nil => true
  | node v l r => v != '*' && noAnd l && noAnd r

/-- No `*` node occurs below a `+` node or below a `~` node. -/
def noAndBelowOrNot : Tree → Bool
  | nil => true
  | node v l r =>
    ((v != '+' && v != '~') || (noAnd l && noAnd r)) && noAndBelowOrNot l && noAndBelowOrNot r

/-- A literal: a variable leaf or the negation of a variable leaf. -/
def isLiteral (t : Tree) : Bool :=
  isVarLeaf t || (hasValue '~' t && isVarLeaf (leftOf t) && isNil (rightOf t))

/-- A disjunction of literals. -/
def isClause : Tree → Bool
  | nil => false
  | node v l r => if v == '+' then isClause l && isClause r else isLiteral (node v l r)

/-- A conjunction of disjunctions of literals. -/
def isCNF : Tree → Bool
  | nil => false
  | node v l r => if v == '*' then isCNF l && isCNF r else isClause (node v l r)

/-- The assignment gives every variable of the tree the value `0` or `1`. -/
def assignsAll (assignments : Assignment) : Tree → Bool
  | nil => true
  | node v l r =>
    (isOperator v || getTruthValue v assignments == 0 || getTruthValue v assignments == 1)
      && assignsAll assignments l && assignsAll assignments r

/-- Number of nodes of a tree. -/
def size : Tree → Nat
  | nil => 0
  | node _ l r => 1 + size l + size r

/-- A bound on the work of `distributeOrOverAnd`: sums at `*`, products at `+`. -/
def weight : Tree → Nat
  | nil => 2
  | node v l r => if v == '+' then weight l * weight r else weight l + weight r + 1

/-! ## Clause and literal extraction, validity -/

/-- The function `extractClauses`; `clauses` is the array filled so far (its
length is `*count`) and `maxClauses` its capacity. -/
def extractClauses : Tree → List Tree → Nat → List Tree
  | nil, clauses, _ => clauses
  | node v l r, clauses, maxClauses =>
    if clauses.length ≥ maxClauses then clauses
    else if v == '*' then
      extractClauses r (extractClauses l clauses maxClauses) maxClauses
    else clauses ++ [node v l r]

/-- The global table `varMap` with `varMapSize` its length: `(charVar, intVar)` records. -/
abbrev VarMap := List (Char × Int)

/-- The search loop of `getIntVar`: the `intVar` of the first record for `charVar`. -/
def lookupIntVar (charVar : Char) : VarMap → Option Int
  | [] => none
  | (c, i) :: rest => if c == charVar then some i else lookupIntVar charVar rest

/-- The function `getIntVar`: the returned number and the table after the call.
The table is the array `varMap[100]`; a new record written at index 100 is a
write past its end, which is undefined behaviour and modelled by `none`. -/
def getIntVar (charVar : Char) (varMap : VarMap) : Option (Int × VarMap) :=
  match lookupIntVar charVar varMap with
  | some i => some (i, varMap)
  | none =>
    if varMap.length < 100 then
      some ((varMap.length : Int) + 1, varMap ++ [(charVar, (varMap.length : Int) + 1)])
    else none

/-- The statement `literals[(*litCount)++] = lit` on an array of `capacity`
entries; a write past the end is undefined behaviour and modelled by `none`. -/
def pushLiteral (capacity : Nat) (literals : List Int) (lit : Int) : Option (List Int) :=
  if literals.length < capacity then some (literals ++ [lit]) else none

/-- The function `extractLiterals`; the state is the table `varMap` and the
literals written so far (`*litCount` is the length of that list), `capacity`
is the size of the caller's array `literals`. -/
def extractLiterals (capacity : Nat) : Tree → VarMap × List Int → Option (VarMap × List Int)
  | nil, st => some st
  | node v l r, st =>
    if v == '+' then
      match extractLiterals capacity l st with
      | none => none
      | some st1 => extractLiterals capacity r st1
    else if v == '~' then
      if !isNil l && !isOperator (valueOf l) then
        match getIntVar (valueOf l) st.1 with
        | none => none
        | some (varNum, varMap) =>
          match pushLiteral capacity st.2 (-varNum) with
          | none => none
          | some literals => some (varMap, literals)
      else some st
    else if !isOperator v then
      match getIntVar v st.1 with
      | none => none
      | some (varNum, varMap) =>
        match pushLiteral capacity st.2 varNum with
        | none => none
        | some literals => some (varMap, literals)
    else some st

/-- The double loop of `isValidCNF` that looks for a complementary pair. -/
def foundComplementary (literals : List Int) : Bool :=
  (List.range literals.length).any fun j =>
    (List.range literals.length).any fun k =>
      j != k && literals.getD j 0 == -literals.getD k 0

/-- The loop of `isValidCNF` over the extracted clauses: the table is reset and
the array `literals[50]` refilled for each clause, and the first clause without
a complementary pair ends the loop with `false`. -/
def checkClauses : List Tree → Option Bool
  | [] => some true
  | c :: rest =>
    match extractLiterals 50 c ([], []) with
    | none => none
    | some (_, literals) =>
      if foundComplementary literals then checkClauses rest else some false

/-- The function `isValidCNF`; `none` stands for a run with undefined behaviour. -/
def isValidCNF (cnfRoot : Tree) : Option Bool :=
  match cnfRoot with
  | nil => some false
  | node _ _ _ =>
    let clauses := extractClauses cnfRoot [] 100
    if clauses.length == 0 then some false
    else checkClauses clauses

/-- The clauses of a tree in the words of the specification: the maximal
subtrees not rooted at `*` that are reached by descending only through `*`
nodes, from left to right. -/
def clausesOf : Tree → List Tree
  | nil => []
  | node v l r => if v == '*' then clausesOf l ++ clausesOf r else [node v l r]

/-- The literal occurrences of a clause, in the order `extractLiterals` visits
them: the variable symbol and whether it stands under a `~`. -/
def litsOf : Tree → List (Char × Bool)
  | nil => []
  | node v l r =>
    if v == '+' then litsOf l ++ litsOf r
    else if v == '~' then
      if !isNil l && !isOperator (valueOf l) then [(valueOf l, true)] else []
    else if !isOperator v then [(v, false)]
    else []

/-- The number `extractLiterals` writes for a literal occurrence, read off a table. -/
def encodeLit (varMap : VarMap) (x : Char × Bool) : Int :=
  if x.2 then -(lookupIntVar x.1 varMap).getD 0 else (lookupIntVar x.1 varMap).getD 0

/-- Table invariant: the numbers are `1 .. varMapSize` and no number is shared by two symbols. -/
def tableOK (varMap : VarMap) : Prop :=
  (∀ p ∈ varMap, 1 ≤ p.2 ∧ p.2 ≤ (varMap.length : Int)) ∧
  ∀ v w i, lookupIntVar v varMap = some i → lookupIntVar w varMap = some i → v = w

/-- The variable symbols of a tree. -/
def varsOf : Tree → List Char
  | nil => []
  | node v l r => (if isOperator v then [] else [v]) ++ varsOf l ++ varsOf r

/-- The total assignment that makes every literal of the clause false: a
variable of `t` gets `1` when it occurs negated in `clause` and `0` otherwise. -/
def falsifier (clause t : Tree) : Assignment :=
  (varsOf t).map fun v => (v, if (v, true) ∈ litsOf clause then 1 else 0)

/-! ## Prefix text -/

/-- The function `treeToPrefix`; `result` is the text written so far. -/
def treeToPrefix : Tree → List Char → List Char
  | nil, result => result
  | node v l r, result => treeToPrefix r (treeToPrefix l (result ++ [v, ' ']))

/-- The loop `while (prefix[*index] == ' ') (*index)++`. -/
def skipSpaces : List Char → List Char
  | [] => []
  | c :: rest => if c == ' ' then skipSpaces rest else c :: rest

/-- The function `prefixToTree` on the text from `*index` on; it returns the
tree and the text that remains. -/
def prefixToTree : Nat → List Char → Option (Tree × List Char)
  | 0, _ => none
  | fuel + 1, s =>
    match skipSpaces s with
    | [] => some (nil, [])
    | c :: rest =>
      if c == '\x00' then some (nil, c :: rest)
      else if isOperator c then
        match prefixToTree fuel rest with
        | none => none
        | some (l, s1) =>
          if isBinaryOperator c then
            match prefixToTree fuel s1 with
            | none => none
            | some (r, s2) => some (node c l r, s2)
          else some (node c l nil, s1)
      else some (node c nil nil, rest)

/-- The function `buildTreeFromPrefix`. -/
def buildTreeFromPrefix (fuel : Nat) (s : List Char) : Option Tree :=
  (prefixToTree fuel s).map Prod.fst

/-- The trimming step of `infixToPrefix`: one trailing space is dropped. -/
def trimTrailingSpace (s : List Char) : List Char :=
  if s.getLast? == some ' ' then s.dropLast else s

/-! ## Infix text -/

/-- The character `formula[index_pos]` of the text from `index_pos` on; past the
last character this is the terminating NUL. -/
def cur (s : List Char) : Char := s.headD '\x00'

/-- The test `index_pos >= strlen(formula)`. -/
def atEnd (s : List Char) : Bool := cur s == '\x00'

/-- The step `if (index_pos < strlen(formula) && formula[index_pos] == c) index_pos++`. -/
def skipChar (c : Char) (s : List Char) : List Char :=
  if !atEnd s && cur s == c then s.tail else s

mutual

/-- The function `parseOperand` on the text from `index_pos` on; it returns the
tree and the text that remains. -/
def parseOperand : Nat → List Char → Option (Tree × List Char)
  | 0, _ => none
  | fuel + 1, s =>
    if atEnd s then some (nil, s)
    else if cur s == '(' then parseExpression fuel s
    else if cur s == '~' then parseExpression fuel s
    else some (createNode (cur s), s.tail)

/-- The function `parseExpression` on the text from `index_pos` on. -/
def parseExpression : Nat → List Char → Option (Tree × List Char)
  | 0, _ => none
  | fuel + 1, s =>
    let s1 := skipChar '(' s
    if !atEnd s1 && cur s1 == '~' then
      match parseExpression fuel s1.tail with
      | none => none
      | some (sub, s2) => some (node '~' sub nil, skipChar ')' s2)
    else
      match parseOperand fuel s1 with
      | none => none
      | some (left, s2) =>
        if !atEnd s2 && isBinaryOperator (cur s2) then
          match parseOperand fuel s2.tail with
          | none => none
          | some (right, s3) => some (node (cur s2) left right, skipChar ')' s3)
        else some (left, skipChar ')' s2)

end

/-- The function `buildParseTree`. -/
def buildParseTree (fuel : Nat) (infixFormula : List Char) : Option Tree :=
  (parseExpression fuel infixFormula).map Prod.fst

/-- The function `inorderTraversal`; `out` is the text printed so far. -/
def inorderTraversal : Tree → List Char → List Char
  | nil, out => out
  | node v l r, out =>
    let out1 := if isOperator v then out ++ ['('] else out
    let out2 :=
      if v == '~' then inorderTraversal l (out1 ++ ['~'])
      else inorderTraversal r (inorderTraversal l out1 ++ [v])
    if isOperator v then out2 ++ [')'] else out2

/-- The text `s2` is `s1` without some of its leading `)` characters: what the
lenient skipping of closing parentheses may leave of the text after a group. -/
inductive ParenDrop : List Char → List Char → Prop where
  | refl (s : List Char) : ParenDrop s s
  | step {s1 s2 : List Char} : ParenDrop s1 s2 → ParenDrop (')' :: s1) s2

/-! ## DIMACS text -/

/-- The structures `Clause` and `DIMACSFormula`: a clause is the list of its
literals (`size` is its length); `numClauses` is a field of its own, as in C. -/
structure DIMACSFormula where
  clauses : List (List Int)
  numClauses : Int
  numVars : Int
  deriving DecidableEq, Repr

/-- The decimal digit character of a number below ten. -/
def digitChar (d : Nat) : Char := Char.ofNat (48 + d)

/-- The decimal digits of a natural number, most significant first; at most
`fuel` digits are produced (`printf` prints them all, see `natToText`). -/
def natToTextAux : Nat → Nat → List Char
  | 0, _ => []
  | fuel + 1, n =>
    if n < 10 then [digitChar n] else natToTextAux fuel (n / 10) ++ [digitChar (n % 10)]

/-- What `printf("%d")` prints for a non-negative number. -/
def natToText (n : Nat) : List Char := natToTextAux (n + 1) n

/-- What `printf("%d")` prints for an `int`. -/
def intToText (z : Int) : List Char :=
  if z < 0 then '-' :: natToText z.natAbs else natToText z.natAbs

/-- The inner loop of `printDIMACS`: the literals each followed by a space, then `0` and a newline. -/
def clauseLine (literals : List Int) : List Char :=
  literals.flatMap (fun lit => intToText lit ++ [' ']) ++ ['0', '\n']

/-- The line written by `printf("p cnf %d %d\n", numVars, numClauses)`. -/
def headerLine (numVars numClauses : Int) : List Char :=
  ['p', ' ', 'c', 'n', 'f', ' '] ++ intToText numVars ++ [' '] ++ intToText numClauses ++ ['\n']

/-- The function `printDIMACS`: the text it prints. The loop runs over
`clauses[0 .. numClauses-1]`. -/
def printDIMACS (formula : DIMACSFormula) : List Char :=
  "c DIMACS CNF Format\n".toList ++ "c Generated from parse tree\n".toList ++
    headerLine formula.numVars formula.numClauses ++
    (formula.clauses.take formula.numClauses.toNat).flatMap clauseLine

/-- The function `saveDIMACS`: the content of the file it writes (the same text
as `printDIMACS`; the console message and a failing `fopen` are left out). -/
def saveDIMACS (formula : DIMACSFormula) : List Char :=
  "c DIMACS CNF Format\n".toList ++ "c Generated from parse tree\n".toList ++
    headerLine formula.numVars formula.numClauses ++
    (formula.clauses.take formula.numClauses.toNat).flatMap clauseLine

/-- A buffer read as a C string: the characters before the first NUL. -/
def cString (s : List Char) : List Char := s.takeWhile (fun c => c != '\x00')

/-- The successive results of `fgets(line, size, file)` until end of file: each
call takes characters up to and including a newline, at most `size - 1` of them.
`pending` holds the characters of the line being read. -/
def fgetsLines (size : Nat) : List Char → List Char → List (List Char)
  | [], pending => if pending.isEmpty then [] else [pending]
  | c :: rest, pending =>
    if c == '\n' || pending.length + 2 ≥ size then
      (pending ++ [c]) :: fgetsLines size rest []
    else fgetsLines size rest (pending ++ [c])

/-- The C function `isspace`. -/
def isSpace (c : Char) : Bool :=
  c == ' ' || c == '\t' || c == '\n' || c == '\x0b' || c == '\x0c' || c == '\r'

/-- The C function `isdigit`. -/
def isDigit (c : Char) : Bool := decide ('0' ≤ c) && decide (c ≤ '9')

/-- The value of a digit character. -/
def digitVal (c : Char) : Nat := c.toNat - 48

/-- The digit loop of `atoi` and of `%d`: the value of the leading digits, starting
from `acc`, and the text after them. -/
def spanDigits : List Char → Nat → Nat × List Char
  | [], acc => (acc, [])
  | c :: rest, acc =>
    if isDigit c then spanDigits rest (acc * 10 + digitVal c) else (acc, c :: rest)

/-- The value an `int` of 32 bits holds after the integer `z` is stored in it:
`z` modulo `2^32`, in the range `-2^31 .. 2^31 - 1`. -/
def wrapInt (z : Int) : Int := (z + 2147483648) % 4294967296 - 2147483648

/-- The `int` that `atoi` and the conversion `%d` deliver for a sign and the
value of the digits read: the C library converts through a `long` of 64 bits,
where a number out of range is replaced by the nearest bound, and the result is
stored in an `int` of 32 bits. -/
def toCInt (negative : Bool) (n : Nat) : Int :=
  wrapInt
    (if negative then max (-(n : Int)) (-9223372036854775808)
     else min (n : Int) 9223372036854775807)

/-- The integer is a value of the C type `int`. -/
def inIntRange (z : Int) : Bool := decide (-2147483648 ≤ z) && decide (z ≤ 2147483647)

/-- Every number held by the structure is a value of the C type `int`, as the
fields `numVars`, `numClauses` and the literals are in C. -/
def intFields (formula : DIMACSFormula) : Bool :=
  inIntRange formula.numVars && inIntRange formula.numClauses &&
    formula.clauses.all (fun clause => clause.all inIntRange)

/-- The conversion `%d` of `sscanf`: white space is skipped, then an optional
sign and at least one digit are read; `none` when no digit is found. -/
def scanInt (s : List Char) : Option (Int × List Char) :=
  let s1 := s.dropWhile isSpace
  let negative := cur s1 == '-'
  let s2 := if cur s1 == '-' || cur s1 == '+' then s1.tail else s1
  if isDigit (cur s2) then
    let res := spanDigits s2 0
    some (toCInt negative res.1, res.2)
  else none

/-- The C function `atoi`: 0 when the text does not start with a number. -/
def atoi (s : List Char) : Int :=
  match scanInt s with
  | some (z, _) => z
  | none => 0

/-- The call `sscanf(line, "p cnf %d %d", &numVars, &numClauses)` on variables
that hold 0: the pair `(numVars, numClauses)` after the call. -/
def scanHeader (line : List Char) : Int × Int :=
  if cur line == 'p' then
    let r1 := line.tail.dropWhile isSpace
    if r1.take 3 == ['c', 'n', 'f'] then
      match scanInt (r1.drop 3) with
      | none => (0, 0)
      | some (numVars, r2) =>
        match scanInt r2 with
        | none => (numVars, 0)
        | some (numClauses, _) => (numVars, numClauses)
    else (0, 0)
  else (0, 0)

/-- The delimiters `" \t\n"` given to `strtok`. -/
def isDelim (c : Char) : Bool := c == ' ' || c == '\t' || c == '\n'

/-- The tokens that the successive calls of `strtok` return for a line;
`token` holds the characters of the token being read. -/
def strtokAll : List Char → List Char → List (List Char)
  | [], token => if token.isEmpty then [] else [token]
  | c :: rest, token =>
    if isDelim c then
      if token.isEmpty then strtokAll rest [] else token :: strtokAll rest []
    else strtokAll rest (token ++ [c])

/-- The token loop of `readDIMACS`, filling the array `literals[100]`; a write
past its end is undefined behaviour and modelled by `none`. -/
def readLiterals : List (List Char) → List Int → Option (List Int)
  | [], literals => some literals
  | token :: rest, literals =>
    if atoi token == 0 then some literals
    else if literals.length < 100 then readLiterals rest (literals ++ [atoi token])
    else none

/-- The result of `readDIMACS` on an existing file: the formula read, or the
reason why the returned structure is not a defined value. -/
inductive ReadResult where
  | formula (f : DIMACSFormula) : ReadResult
  | noHeader : ReadResult
  | literalOverflow : ReadResult
  deriving DecidableEq, Repr

/-- The header loop of `readDIMACS` over the lines of the file: the numbers of
the first line starting with `p`, and the lines after it. -/
def readHeader : List (List Char) → Option ((Int × Int) × List (List Char))
  | [] => none
  | raw :: rest =>
    if cur (cString raw) == 'c' then readHeader rest
    else if cur (cString raw) == 'p' then some (scanHeader (cString raw), rest)
    else readHeader rest

/-- The clause loop of `readDIMACS`; `clauses` holds the clauses stored so far
(`clauseIndex` is its length). -/
def readClauses (numClauses : Int) : List (List Char) → List (List Int) →
    Option (List (List Int))
  | [], clauses => some clauses
  | raw :: rest, clauses =>
    if !decide ((clauses.length : Int) < numClauses) then some clauses
    else if cur (cString raw) == 'c' || cur (cString raw) == '%' ||
        cur (cString raw) == '0' then
      readClauses numClauses rest clauses
    else
      match readLiterals (strtokAll (cString raw) []) [] with
      | none => none
      | some literals =>
        if literals.length > 0 then readClauses numClauses rest (clauses ++ [literals])
        else readClauses numClauses rest clauses

/-- The function `readDIMACS` on the content of the file. Without a header
line the fields of the returned structure are never written (`noHeader`); the
entries of `clauses` beyond the clauses read are not initialised and are not
part of the list. -/
def readDIMACS (file : List Char) : ReadResult :=
  match readHeader (fgetsLines 1024 file []) with
  | none => ReadResult.noHeader
  | some ((numVars, numClauses), rest) =>
    match readClauses numClauses rest [] with
    | none => ReadResult.literalOverflow
    | some clauses => ReadResult.formula ⟨clauses, numClauses, numVars⟩

/-- Every character is a decimal digit. -/
def allDigits (s : List Char) : Prop := ∀ c ∈ s, ∃ d, d < 10 ∧ c = digitChar d

/-- The text of a clause line before its newline. -/
def clauseBody (literals : List Int) : List Char :=
  literals.flatMap (fun lit => intToText lit ++ [' ']) ++ ['0']

/-! ## Definitions for the shape of the distribution pass and the truth tables -/

/-- The tree is a `*` node, or a `+` node from which a `*` node is reached by
passing only through `+` nodes. -/
def reachesAnd : Tree → Bool
  | nil => false
  | node v l r => v == '*' || (v == '+' && (reachesAnd l || reachesAnd r))

/-- No `+` node has a `*` node as a direct child or as a descendant reached by
passing only through `+` nodes. -/
def noAndUnderOr : Tree → Bool
  | nil => true
  | node v l r =>
    (v != '+' || (!reachesAnd l && !reachesAnd r)) && noAndUnderOr l && noAndUnderOr r

/-- The truth of a formula under the standard truth tables, in the words of the
specification: `~` is negation, `*` conjunction, `+` disjunction, `a>b` is
`!a || b`, and a variable has the truth value `val` gives it. -/
def holds (val : Char → Bool) : Tree → Bool
  | nil => false
  | node v l r =>
    if v == '~' then !holds val l
    else if v == '+' then holds val l || holds val r
    else if v == '*' then holds val l && holds val r
    else if v == '>' then !holds val l || holds val r
    else val v

/-! ## Evaluation of a clause set -/

/-- The inner loop of `evaluateDIMACS` over the literals of one clause: whether
some literal is satisfied. The array `assignment` is a list; reading it at an
index outside is undefined behaviour and modelled by `none`. -/
def clauseSatisfied (assignment : List Int) : List Int → Option Bool
  | [] => some false
  | lit :: rest =>
    if lit.natAbs < assignment.length then
      let value := assignment.getD lit.natAbs 0 != 0
      if (decide (lit > 0) && value) || (decide (lit < 0) && !value) then some true
      else clauseSatisfied assignment rest
    else none

/-- The outer loop of `evaluateDIMACS` over `clauses[0 .. numClauses-1]`: it
returns false at the first clause that is not satisfied; reading a clause beyond
those present is undefined behaviour and modelled by `none`. -/
def evaluateClauses (assignment : List Int) : Nat → List (List Int) → Option Bool
  | 0, _ => some true
  | _ + 1, [] => none
  | numClauses + 1, clause :: rest =>
    match clauseSatisfied assignment clause with
    | none => none
    | some false => some false
    | some true => evaluateClauses assignment numClauses rest

/-- The function `evaluateDIMACS`. -/
def evaluateDIMACS (formula : DIMACSFormula) (assignment : List Int) : Option Bool :=
  evaluateClauses assignment formula.numClauses.toNat formula.clauses

/-! ## The symbol table -/

/-- The function `getCharVar`: the `charVar` of the first record whose `intVar`
is the given number, `'?'` when there is none. -/
def getCharVar (intVar : Int) : VarMap → Char
  | [] => '?'
  | (c, i) :: rest => if i == intVar then c else getCharVar intVar rest

/-- A sequence of `getIntVar` calls, one per symbol, from a given table: the
numbers returned and the table after the last call. -/
def internAll : List Char → VarMap → Option (List Int × VarMap)
  | [], varMap => some ([], varMap)
  | s :: rest, varMap =>
    match getIntVar s varMap with
    | none => none
    | some (i, varMap1) =>
      match internAll rest varMap1 with
      | none => none
      | some (ids, varMap2) => some (i :: ids, varMap2)

/-- The distinct symbols of a sequence in the order in which they are first
seen, after the symbols `seen`. -/
def firstSeenFrom (seen : List Char) : List Char → List Char
  | [] => seen
  | s :: rest =>
    if s ∈ seen then firstSeenFrom seen rest else firstSeenFrom (seen ++ [s]) rest

/-- The distinct symbols of a sequence in first-seen order. -/
def firstSeen (syms : List Char) : List Char := firstSeenFrom [] syms

/-- The numbers `1, 2, ..., n`. -/
def idsFrom1 (n : Nat) : List Int := (List.range n).map fun (k : Nat) => (k : Int) + 1

/-- The bytes `128 .. 128 + n - 1` as symbols: `n` distinct characters. -/
def distinctSymbols (n : Nat) : List Char := (List.range n).map fun k => Char.ofNat (k + 128)

/-! ## From a CNF tree to a clause set -/

/-- The loop of `treeToDIMACS` over the extracted clause nodes: each clause is
written into a fresh array `literals[50]`, the table `varMap` is carried from
one clause to the next. The result is the clauses and the table after the loop. -/
def convertClauses : List Tree → VarMap → Option (List (List Int) × VarMap)
  | [], varMap => some ([], varMap)
  | clause :: rest, varMap =>
    match extractLiterals 50 clause (varMap, []) with
    | none => none
    | some (varMap1, literals) =>
      match convertClauses rest varMap1 with
      | none => none
      | some (clauses, varMap2) => some (literals :: clauses, varMap2)

/-- The function `treeToDIMACS`, with the table `varMap` as it is before the
call (the function resets it) and as it is after; `none` stands for a run with
undefined behaviour. -/
def treeToDIMACS (cnfRoot : Tree) (_varMap : VarMap) : Option (DIMACSFormula × VarMap) :=
  let clauseNodes := extractClauses cnfRoot [] 100
  match convertClauses clauseNodes [] with
  | none => none
  | some (clauses, varMap) =>
    some (⟨clauses, (clauseNodes.length : Int), (varMap.length : Int)⟩, varMap)

/-- The variable symbols of the literal occurrences of a list of clauses, from
left to right. -/
def symbolsOf : List Tree → List Char
  | [] => []
  | c :: rest => (litsOf c).map Prod.fst ++ symbolsOf rest

/-- The disjunction `p + (p + ( ... + p))` with `n + 1` literals. -/
def orChain : Nat → Tree
  | 0 => createNode 'p'
  | n + 1 => node '+' (createNode 'p') (orChain n)

/-! ## The layout of DIMACS text -/

/-- In the words of the specification: the items in order, separated by single spaces. -/
def joinWithSpaces : List (List Char) → List Char
  | [] => []
  | [x] => x
  | x :: y :: rest => x ++ ' ' :: joinWithSpaces (y :: rest)

/-- In the words of the specification: comment lines, then the one header line
`p cnf <numVars> <numClauses>`, then one line per clause holding its decimal
literals in order and a final `0`, separated by single spaces. Every line ends
with a newline. -/
def dimacsText (comments : List (List Char)) (numVars numClauses : Int)
    (clauses : List (List Int)) : List Char :=
  comments.flatMap (fun c => c ++ ['\n']) ++
    (joinWithSpaces [['p'], ['c', 'n', 'f'], intToText numVars, intToText numClauses]
      ++ ['\n']) ++
    clauses.flatMap (fun c => joinWithSpaces (c.map intToText ++ [['0']]) ++ ['\n'])

/-! ## Well-formed DIMACS text -/

/-- A line of a DIMACS text other than the header: a comment or a clause. -/
inductive TextLine where
  | comment (text : List Char) : TextLine
  | clause (literals : List Int) : TextLine
  deriving DecidableEq, Repr

/-- The characters of a line before its newline; a clause line has the layout
written by `printDIMACS`. -/
def lineBody : TextLine → List Char
  | TextLine.comment text => text
  | TextLine.clause literals => clauseBody literals

/-- The text of a sequence of lines, each ended by a newline. -/
def textOf (lines : List TextLine) : List Char :=
  lines.flatMap fun x => lineBody x ++ ['\n']

/-- A line that `readDIMACS` can take in: a comment begins with `c` or `%`, a
clause is non-empty, holds nonzero literals that are values of the type `int`
and at most 100 of them (the array `literals[100]`); a line holds no inner
newline and fits the buffer `line[1024]` together with its newline. -/
def lineOK : TextLine → Bool
  | TextLine.comment text =>
    (cur text == 'c' || cur text == '%') && text.all (fun c => c != '\n') &&
      decide (text.length + 1 ≤ 1023)
  | TextLine.clause literals =>
    !literals.isEmpty && literals.all (fun l => l != 0 && inIntRange l) &&
      decide (literals.length ≤ 100) && decide ((clauseBody literals).length + 1 ≤ 1023)

/-- The clauses among the lines, in order. -/
def clausesIn : List TextLine → List (List Int)
  | [] => []
  | TextLine.comment _ :: rest => clausesIn rest
  | TextLine.clause literals :: rest => literals :: clausesIn rest

/-- A token of a clause line that is not a number: it is not empty, holds no
delimiter of `strtok` and no NUL, and `atoi` maps it to 0. -/
def junkOK (w : List Char) : Bool :=
  !w.isEmpty && w.all (fun c => !isDelim c && c != '\x00') && atoi w == 0

/-- The characters of a clause line in which the literals are followed by the
token `junk` instead of the final `0`, a space, and the rest `rest` of the line. -/
def brokenBody (literals : List Int) (junk rest : List Char) : List Char :=
  literals.flatMap (fun lit => intToText lit ++ [' ']) ++ (junk ++ ' ' :: rest)

/-! ## From infix text to prefix text -/

/-- The function `infixToPrefix`: the text left in `prefixResult`, read as a C
string. The buffer `prefixResult` is the caller's and is taken to hold the whole
text. -/
def infixToPrefix (fuel : Nat) (infixFormula : List Char) : Option (List Char) :=
  match buildParseTree fuel infixFormula with
  | none => none
  | some root => some (cString (trimTrailingSpace (treeToPrefix root [])))

/-- The values of the nodes of a tree in preorder: a node, then its left
subtree, then its right subtree. -/
def preorder : Tree → List Char
  | nil => []
  | node v l r => v :: (preorder l ++ preorder r)

/-! ## The clause-set view and the tree view -/

/-- The truth of a literal occurrence (symbol, negated or not) under `val`. -/
def litHolds (val : Char → Bool) (x : Char × Bool) : Bool :=
  if x.2 then !val x.1 else val x.1

/-- The disjunction `c1 + (c2 + ( ... + cn))` of the variable leaves `c1 .. cn`. -/
def orOfSymbols : List Char → Tree
  | [] => nil
  | [c] => createNode c
  | c :: d :: rest => node '+' (createNode c) (orOfSymbols (d :: rest))

/-- A CNF with three clauses and 101 distinct variable symbols: two clauses of 50
literals each over the bytes `128 .. 227`, and the clause `p`. -/
def manySymbolsCNF : Tree :=
  node '*' (orOfSymbols ((distinctSymbols 100).take 50))
    (node '*' (orOfSymbols ((distinctSymbols 100).drop 50)) (createNode 'p'))

/-! ## Inputs used in the counterexamples -/

/-- The text `p cnf 2 1`, `1 -2 0` with one comment line put in after the
header: `c`, then 1022 times `x`, then `2 0` (1026 characters before its newline). -/
def longCommentText : List Char :=
  "p cnf 2 1\n".toList ++ ('c' :: List.replicate 1022 'x' ++ "2 0\n".toList) ++
    "1 -2 0\n".toList

/-- The prefix text of `p + (p + ( ... + p))` with 51 times `p`: 50 times `+p`,
then `p`; its 101 characters fit the 200-character input buffer of the menu. -/
def longClausePrefix : List Char :=
  "+p+p+p+p+p+p+p+p+p+p+p+p+p+p+p+p+p+p+p+p+p+p+p+p+p+p+p+p+p+p+p+p+p+p+p+p+p+p+p+p+p+p+p+p+p+p+p+p+p+pp".toList

/-- The prefix text of `(p*(p*...*(p*q))) + ((~p)*((~p)*...*(~p)))` with ten `p`
and ten `~p`; it fits the 200-character input buffer of the menu, and its CNF
has 110 clauses: 100 clauses `(p+(~p))` followed by 10 clauses `(q+(~p))`. -/
def overCapacityPrefix : List Char :=
  "+*p*p*p*p*p*p*p*p*p*pq*~p*~p*~p*~p*~p*~p*~p*~p*~p~p".toList

/-! ## Characters and elementary facts -/

theorem char_cases (v : Char) :
    v = '~' ∨ v = '+' ∨ v = '*' ∨ v = '>' ∨ isOperator v = false := by
  by_cases h1 : v = '~'
  · exact Or.inl h1
  by_cases h2 : v = '+'
  · exact Or.inr (Or.inl h2)
  by_cases h3 : v = '*'
  · exact Or.inr (Or.inr (Or.inl h3))
  by_cases h4 : v = '>'
  · exact Or.inr (Or.inr (Or.inr (Or.inl h4)))
  · right; right; right; right
    simp [isOperator, h1, h2, h3, h4]

theorem not_operator_ne {v : Char} (h : isOperator v = false) :
    v ≠ '~' ∧ v ≠ '+' ∧ v ≠ '*' ∧ v ≠ '>' := by
  simp [isOperator] at h
  tauto

@[simp] theorem isNil_nil : isNil nil = true := rfl

@[simp] theorem isNil_node (v : Char) (l r : Tree) : isNil (node v l r) = false := rfl

theorem isNil_iff (t : Tree) : isNil t = true ↔ t = nil := by
  cases t <;> simp [isNil]

/-! ## Implication elimination -/

theorem noImplies_eliminateImplications (t : Tree) :
    noImplies (eliminateImplications t) = true := by
  induction t with
  | nil => rfl
  | node v l r ihl ihr =>
    by_cases hv : v = '>'
    · subst hv
      simp [eliminateImplications, noImplies, ihl, ihr]
    · simp [eliminateImplications, noImplies, hv, ihl, ihr]

theorem isNil_eliminateImplications (t : Tree) :
    isNil (eliminateImplications t) = isNil t := by
  cases t with
  | nil => rfl
  | node v l r =>
    by_cases hv : v = '>' <;> simp [eliminateImplications, isNil, hv]

theorem wellFormed_eliminateImplications (t : Tree) (h : wellFormed t = true) :
    wellFormed (eliminateImplications t) = true := by
  induction t with
  | nil => simp [wellFormed] at h
  | node v l r ihl ihr =>
    rcases char_cases v with rfl | rfl | rfl | rfl | hop
    · simp_all [wellFormed, eliminateImplications, isOperator, isNil_eliminateImplications]
    · simp_all [wellFormed, eliminateImplications, isOperator]
    · simp_all [wellFormed, eliminateImplications, isOperator]
    · simp_all [wellFormed, eliminateImplications, isOperator]
    · obtain ⟨-, -, -, h4⟩ := not_operator_ne hop
      simp_all [wellFormed, eliminateImplications, isNil_eliminateImplications]

theorem evaluateFormula_eliminateImplications (t : Tree) (A : Assignment) :
    evaluateFormula (eliminateImplications t) A = evaluateFormula t A := by
  induction t with
  | nil => rfl
  | node v l r ihl ihr =>
    rcases char_cases v with rfl | rfl | rfl | rfl | hop
    · simp [evaluateFormula, eliminateImplications, isOperator, ihl]
    · simp [evaluateFormula, eliminateImplications, isOperator, ihl, ihr,
        isNil_eliminateImplications]
    · simp [evaluateFormula, eliminateImplications, isOperator, ihl, ihr,
        isNil_eliminateImplications]
    · simp [evaluateFormula, eliminateImplications, isOperator, ihl, ihr,
        isNil_eliminateImplications]
    · obtain ⟨-, -, -, h4⟩ := not_operator_ne hop
      simp [evaluateFormula, eliminateImplications, hop, h4]
/-! ## Negation normal form -/

theorem moveNegationsInward_shape : ∀ (n : Nat) (t r : Tree),
    wellFormed t = true → noImplies t = true → moveNegationsInward n t = some r →
    wellFormed r = true ∧ noImplies r = true ∧ negOnVars r = true := by
  intro n
  induction n with
  | zero => intro t r _ _ h; simp [moveNegationsInward] at h
  | succ n ih =>
    intro t r hwf hni h
    cases t with
    | nil => simp [wellFormed] at hwf
    | node v l rt =>
      rcases char_cases v with rfl | rfl | rfl | rfl | hop
      · -- negation
        simp [wellFormed, isOperator, isNil_iff] at hwf
        obtain ⟨hwl, rfl⟩ := hwf
        simp [noImplies] at hni
        cases l with
        | nil => simp [wellFormed] at hwl
        | node lv ll lr =>
          rcases char_cases lv with rfl | rfl | rfl | rfl | hop
          · simp [wellFormed, isOperator, isNil_iff] at hwl
            simp [noImplies] at hni
            simp [moveNegationsInward, hasValue, leftOf] at h
            exact ih ll r hwl.1 hni.1 h
          · simp [wellFormed, isOperator] at hwl
            simp [noImplies] at hni
            simp [moveNegationsInward, hasValue, leftOf, rightOf] at h
            cases ha : moveNegationsInward n (node '~' ll nil) with
            | none => simp [ha] at h
            | some a =>
              cases hb : moveNegationsInward n (node '~' lr nil) with
              | none => simp [ha, hb] at h
              | some b =>
                simp [ha, hb] at h
                subst h
                have h1 := ih _ a (by simp [wellFormed, isOperator, hwl.1])
                  (by simp [noImplies, hni.1]) ha
                have h2 := ih _ b (by simp [wellFormed, isOperator, hwl.2])
                  (by simp [noImplies, hni.2]) hb
                simp [wellFormed, isOperator, noImplies, negOnVars, h1, h2]
          · simp [wellFormed, isOperator] at hwl
            simp [noImplies] at hni
            simp [moveNegationsInward, hasValue, leftOf, rightOf] at h
            cases ha : moveNegationsInward n (node '~' ll nil) with
            | none => simp [ha] at h
            | some a =>
              cases hb : moveNegationsInward n (node '~' lr nil) with
              | none => simp [ha, hb] at h
              | some b =>
                simp [ha, hb] at h
                subst h
                have h1 := ih _ a (by simp [wellFormed, isOperator, hwl.1])
                  (by simp [noImplies, hni.1]) ha
                have h2 := ih _ b (by simp [wellFormed, isOperator, hwl.2])
                  (by simp [noImplies, hni.2]) hb
                simp [wellFormed, isOperator, noImplies, negOnVars, h1, h2]
          · simp [noImplies] at hni
          · obtain ⟨h1, h2, h3, h4⟩ := not_operator_ne hop
            simp [wellFormed, hop, isNil_iff] at hwl
            obtain ⟨rfl, rfl⟩ := hwl
            simp [moveNegationsInward, hasValue, h1, h2, h3] at h
            subst h
            simp [wellFormed, isOperator, noImplies, negOnVars, isVarLeaf, h1, h2, h3, h4]
      · simp [wellFormed, isOperator] at hwf
        simp [noImplies] at hni
        simp [moveNegationsInward] at h
        cases ha : moveNegationsInward n l with
        | none => simp [ha] at h
        | some a =>
          cases hb : moveNegationsInward n rt with
          | none => simp [ha, hb] at h
          | some b =>
            simp [ha, hb] at h
            subst h
            have h1 := ih _ a hwf.1 hni.1 ha
            have h2 := ih _ b hwf.2 hni.2 hb
            simp [wellFormed, isOperator, noImplies, negOnVars, h1, h2]
      · simp [wellFormed, isOperator] at hwf
        simp [noImplies] at hni
        simp [moveNegationsInward] at h
        cases ha : moveNegationsInward n l with
        | none => simp [ha] at h
        | some a =>
          cases hb : moveNegationsInward n rt with
          | none => simp [ha, hb] at h
          | some b =>
            simp [ha, hb] at h
            subst h
            have h1 := ih _ a hwf.1 hni.1 ha
            have h2 := ih _ b hwf.2 hni.2 hb
            simp [wellFormed, isOperator, noImplies, negOnVars, h1, h2]
      · simp [noImplies] at hni
      · obtain ⟨h1, h2, h3, h4⟩ := not_operator_ne hop
        simp [wellFormed, hop, isNil_iff] at hwf
        obtain ⟨rfl, rfl⟩ := hwf
        simp [moveNegationsInward, h1] at h
        cases n with
        | zero => simp [moveNegationsInward] at h
        | succ m =>
          simp [moveNegationsInward] at h
          subst h
          simp [wellFormed, hop, noImplies, negOnVars, h1, h4]

theorem moveNegationsInward_isSome : ∀ (n : Nat) (t : Tree), size t < n →
    (moveNegationsInward n t).isSome = true := by
  intro n
  induction n with
  | zero => intro t h; omega
  | succ n ih =>
    intro t h
    cases t with
    | nil => rfl
    | node v l rt =>
      simp only [size] at h
      by_cases hv : v = '~'
      · subst hv
        cases l with
        | nil => simp [moveNegationsInward, hasValue]
        | node lv ll lr =>
          simp only [size] at h
          obtain ⟨a, ha⟩ := Option.isSome_iff_exists.1
            (ih (node '~' ll nil) (by simp only [size]; omega))
          obtain ⟨b, hb⟩ := Option.isSome_iff_exists.1
            (ih (node '~' lr nil) (by simp only [size]; omega))
          have hc := ih ll (by omega)
          by_cases h1 : lv = '~'
          · subst h1
            simp [moveNegationsInward, hasValue, leftOf, hc]
          by_cases h2 : lv = '*'
          · subst h2
            simp [moveNegationsInward, hasValue, leftOf, rightOf, ha, hb]
          by_cases h3 : lv = '+'
          · subst h3
            simp [moveNegationsInward, hasValue, leftOf, rightOf, ha, hb]
          · simp [moveNegationsInward, hasValue, h1, h2, h3]
      · obtain ⟨a, ha⟩ := Option.isSome_iff_exists.1 (ih l (by omega))
        obtain ⟨b, hb⟩ := Option.isSome_iff_exists.1 (ih rt (by omega))
        simp [moveNegationsInward, hv, ha, hb]

theorem moveNegationsInward_mono : ∀ (n : Nat) (t r : Tree),
    moveNegationsInward n t = some r → moveNegationsInward (n + 1) t = some r := by
  intro n
  induction n with
  | zero => intro t r h; simp [moveNegationsInward] at h
  | succ n ih =>
    intro t r h
    cases t with
    | nil => simpa [moveNegationsInward] using h
    | node v l rt =>
      rw [moveNegationsInward] at h
      rw [moveNegationsInward]
      by_cases hv : v = '~'
      · subst hv
        simp only [bne_self_eq_false, Bool.false_eq_true, if_false] at h ⊢
        by_cases h1 : hasValue '~' l = true
        · simp only [h1, if_true] at h ⊢
          exact ih _ _ h
        · simp only [h1, if_false] at h ⊢
          by_cases h2 : hasValue '*' l = true
          · simp only [h2, if_true] at h ⊢
            cases ha : moveNegationsInward n (node '~' (leftOf l) nil) with
            | none => simp [ha] at h
            | some a =>
              cases hb : moveNegationsInward n (node '~' (rightOf l) nil) with
              | none => simp [ha, hb] at h
              | some b =>
                simp only [ha, hb] at h
                simp only [ih _ _ ha, ih _ _ hb]
                exact h
          · simp only [h2, if_false] at h ⊢
            by_cases h3 : hasValue '+' l = true
            · simp only [h3, if_true] at h ⊢
              cases ha : moveNegationsInward n (node '~' (leftOf l) nil) with
              | none => simp [ha] at h
              | some a =>
                cases hb : moveNegationsInward n (node '~' (rightOf l) nil) with
                | none => simp [ha, hb] at h
                | some b =>
                  simp only [ha, hb] at h
                  simp only [ih _ _ ha, ih _ _ hb]
                  exact h
            · simp only [h3, if_false] at h ⊢
              exact h
      · have hv2 : (v != '~') = true := by simp [hv]
        simp only [hv2, if_true] at h ⊢
        cases ha : moveNegationsInward n l with
        | none => simp [ha] at h
        | some a =>
          cases hb : moveNegationsInward n rt with
          | none => simp [ha, hb] at h
          | some b =>
            simp only [ha, hb] at h
            simp only [ih _ _ ha, ih _ _ hb]
            exact h

theorem moveNegationsInward_mono_le (n m : Nat) (t r : Tree) (hnm : n ≤ m)
    (h : moveNegationsInward n t = some r) : moveNegationsInward m t = some r := by
  induction hnm with
  | refl => exact h
  | step _ ih => exact moveNegationsInward_mono _ _ _ ih


/-! ## Evaluation is preserved by the passes -/

theorem cNot_bool (a : Int) : cNot a = 0 ∨ cNot a = 1 := by
  unfold cNot; split <;> simp

theorem cOr_bool (a b : Int) : cOr a b = 0 ∨ cOr a b = 1 := by
  unfold cOr; split <;> simp

theorem cAnd_bool (a b : Int) : cAnd a b = 0 ∨ cAnd a b = 1 := by
  unfold cAnd; split <;> simp

theorem cNot_cNot (a : Int) (h : a = 0 ∨ a = 1) : cNot (cNot a) = a := by
  rcases h with rfl | rfl <;> simp [cNot]

theorem cNot_cAnd (a b : Int) : cNot (cAnd a b) = cOr (cNot a) (cNot b) := by
  by_cases ha : a = 0 <;> by_cases hb : b = 0 <;> simp [cNot, cAnd, cOr, ha, hb]

theorem cNot_cOr (a b : Int) : cNot (cOr a b) = cAnd (cNot a) (cNot b) := by
  by_cases ha : a = 0 <;> by_cases hb : b = 0 <;> simp [cNot, cAnd, cOr, ha, hb]

theorem cOr_cAnd_left (p q r : Int) :
    cOr (cAnd p q) r = cAnd (cOr p r) (cOr q r) := by
  by_cases hp : p = 0 <;> by_cases hq : q = 0 <;> by_cases hr : r = 0 <;>
    simp [cAnd, cOr, hp, hq, hr]

theorem cOr_cAnd_right (p q r : Int) :
    cOr p (cAnd q r) = cAnd (cOr p q) (cOr p r) := by
  by_cases hp : p = 0 <;> by_cases hq : q = 0 <;> by_cases hr : r = 0 <;>
    simp [cAnd, cOr, hp, hq, hr]

theorem wellFormed_not_nil {t : Tree} (h : wellFormed t = true) : isNil t = false := by
  cases t with
  | nil => simp [wellFormed] at h
  | node v l r => rfl

theorem evaluateFormula_bool (t : Tree) (A : Assignment) (hwf : wellFormed t = true)
    (hA : assignsAll A t = true) :
    evaluateFormula t A = 0 ∨ evaluateFormula t A = 1 := by
  cases t with
  | nil => simp [wellFormed] at hwf
  | node v l r =>
    rcases char_cases v with rfl | rfl | rfl | rfl | hop
    · simp [evaluateFormula, isOperator]; exact cNot_bool _
    · simp [evaluateFormula, isOperator]; exact cOr_bool _ _
    · simp [evaluateFormula, isOperator]; exact cAnd_bool _ _
    · simp [evaluateFormula, isOperator]; exact cOr_bool _ _
    · simp [assignsAll, hop] at hA
      simp [evaluateFormula, hop]
      exact hA.1.1

theorem evaluateFormula_moveNegationsInward (A : Assignment) : ∀ (n : Nat) (t r : Tree),
    wellFormed t = true → noImplies t = true → assignsAll A t = true →
    moveNegationsInward n t = some r → evaluateFormula r A = evaluateFormula t A := by
  intro n
  induction n with
  | zero => intro t r _ _ _ h; simp [moveNegationsInward] at h
  | succ n ih =>
    intro t r hwf hni hA h
    cases t with
    | nil => simp [wellFormed] at hwf
    | node v l rt =>
      rcases char_cases v with rfl | rfl | rfl | rfl | hop
      · simp [wellFormed, isOperator, isNil_iff] at hwf
        obtain ⟨hwl, rfl⟩ := hwf
        simp [noImplies] at hni
        simp [assignsAll, isOperator] at hA
        cases l with
        | nil => simp [wellFormed] at hwl
        | node lv ll lr =>
          rcases char_cases lv with rfl | rfl | rfl | rfl | hop
          · simp [wellFormed, isOperator, isNil_iff] at hwl
            simp [noImplies] at hni
            simp [assignsAll, isOperator] at hA
            simp [moveNegationsInward, hasValue, leftOf] at h
            have e := ih ll r hwl.1 hni.1 hA.1 h
            have hb := evaluateFormula_bool ll A hwl.1 hA.1
            simp [evaluateFormula, isOperator, e, cNot_cNot _ hb]
          · simp [wellFormed, isOperator] at hwl
            simp [noImplies] at hni
            simp [assignsAll, isOperator] at hA
            simp [moveNegationsInward, hasValue, leftOf, rightOf] at h
            cases ha : moveNegationsInward n (node '~' ll nil) with
            | none => simp [ha] at h
            | some a =>
              cases hb : moveNegationsInward n (node '~' lr nil) with
              | none => simp [ha, hb] at h
              | some b =>
                simp [ha, hb] at h
                subst h
                have h1 := ih _ a (by simp [wellFormed, isOperator, hwl.1])
                  (by simp [noImplies, hni.1]) (by simp [assignsAll, isOperator, hA.1]) ha
                have h2 := ih _ b (by simp [wellFormed, isOperator, hwl.2])
                  (by simp [noImplies, hni.2]) (by simp [assignsAll, isOperator, hA.2]) hb
                have s2 := moveNegationsInward_shape _ _ b
                  (by simp [wellFormed, isOperator, hwl.2]) (by simp [noImplies, hni.2]) hb
                simp [evaluateFormula, isOperator, h1, h2, wellFormed_not_nil s2.1,
                  wellFormed_not_nil hwl.2, cNot_cOr]
          · simp [wellFormed, isOperator] at hwl
            simp [noImplies] at hni
            simp [assignsAll, isOperator] at hA
            simp [moveNegationsInward, hasValue, leftOf, rightOf] at h
            cases ha : moveNegationsInward n (node '~' ll nil) with
            | none => simp [ha] at h
            | some a =>
              cases hb : moveNegationsInward n (node '~' lr nil) with
              | none => simp [ha, hb] at h
              | some b =>
                simp [ha, hb] at h
                subst h
                have h1 := ih _ a (by simp [wellFormed, isOperator, hwl.1])
                  (by simp [noImplies, hni.1]) (by simp [assignsAll, isOperator, hA.1]) ha
                have h2 := ih _ b (by simp [wellFormed, isOperator, hwl.2])
                  (by simp [noImplies, hni.2]) (by simp [assignsAll, isOperator, hA.2]) hb
                have s2 := moveNegationsInward_shape _ _ b
                  (by simp [wellFormed, isOperator, hwl.2]) (by simp [noImplies, hni.2]) hb
                simp [evaluateFormula, isOperator, h1, h2, wellFormed_not_nil s2.1,
                  wellFormed_not_nil hwl.2, cNot_cAnd]
          · simp [noImplies] at hni
          · obtain ⟨h1, h2, h3, h4⟩ := not_operator_ne hop
            simp [moveNegationsInward, hasValue, h1, h2, h3] at h
            subst h
            rfl
      · simp [wellFormed, isOperator] at hwf
        simp [noImplies] at hni
        simp [assignsAll, isOperator] at hA
        simp [moveNegationsInward] at h
        cases ha : moveNegationsInward n l with
        | none => simp [ha] at h
        | some a =>
          cases hb : moveNegationsInward n rt with
          | none => simp [ha, hb] at h
          | some b =>
            simp [ha, hb] at h
            subst h
            have h1 := ih _ a hwf.1 hni.1 hA.1 ha
            have h2 := ih _ b hwf.2 hni.2 hA.2 hb
            have s2 := moveNegationsInward_shape _ _ b hwf.2 hni.2 hb
            simp [evaluateFormula, isOperator, h1, h2, wellFormed_not_nil s2.1,
              wellFormed_not_nil hwf.2]
      · simp [wellFormed, isOperator] at hwf
        simp [noImplies] at hni
        simp [assignsAll, isOperator] at hA
        simp [moveNegationsInward] at h
        cases ha : moveNegationsInward n l with
        | none => simp [ha] at h
        | some a =>
          cases hb : moveNegationsInward n rt with
          | none => simp [ha, hb] at h
          | some b =>
            simp [ha, hb] at h
            subst h
            have h1 := ih _ a hwf.1 hni.1 hA.1 ha
            have h2 := ih _ b hwf.2 hni.2 hA.2 hb
            have s2 := moveNegationsInward_shape _ _ b hwf.2 hni.2 hb
            simp [evaluateFormula, isOperator, h1, h2, wellFormed_not_nil s2.1,
              wellFormed_not_nil hwf.2]
      · simp [noImplies] at hni
      · obtain ⟨h1, h2, h3, h4⟩ := not_operator_ne hop
        simp [wellFormed, hop, isNil_iff] at hwf
        obtain ⟨rfl, rfl⟩ := hwf
        simp [moveNegationsInward, h1] at h
        cases n with
        | zero => simp [moveNegationsInward] at h
        | succ m =>
          simp [moveNegationsInward] at h
          subst h
          rfl


/-! ## Distribution of `+` over `*` -/

@[simp] theorem hasValue_nil (c : Char) : hasValue c nil = false := rfl

@[simp] theorem hasValue_node (c v : Char) (l r : Tree) :
    hasValue c (node v l r) = (v == c) := rfl

@[simp] theorem leftOf_node (v : Char) (l r : Tree) : leftOf (node v l r) = l := rfl

@[simp] theorem rightOf_node (v : Char) (l r : Tree) : rightOf (node v l r) = r := rfl

@[simp] theorem cloneTree_eq (t : Tree) : cloneTree t = t := by
  induction t with
  | nil => rfl
  | node v l r ihl ihr => simp [cloneTree, ihl, ihr]

theorem two_le_weight (t : Tree) : 2 ≤ weight t := by
  induction t with
  | nil => simp [weight]
  | node v l r ihl ihr =>
    simp only [weight]
    split
    · calc 2 ≤ 2 * 2 := by omega
        _ ≤ weight l * weight r := Nat.mul_le_mul ihl ihr
    · omega

theorem hasValue_true_iff (c : Char) (t : Tree) :
    hasValue c t = true ↔ ∃ l r, t = node c l r := by
  cases t with
  | nil => simp
  | node v l r =>
    simp only [hasValue_node, beq_iff_eq]
    constructor
    · rintro rfl; exact ⟨l, r, rfl⟩
    · rintro ⟨_, _, h⟩; injection h

theorem weight_plus (l r : Tree) : weight (node '+' l r) = weight l * weight r := by
  simp [weight]

theorem weight_star (l r : Tree) : weight (node '*' l r) = weight l + weight r + 1 := by
  simp [weight]

theorem weight_arith_left (p q r m : Nat) (hp : 2 ≤ p) (hq : 2 ≤ q) (hr : 2 ≤ r)
    (h : (p + q + 1) * r ≤ m + 1) : p * r ≤ m ∧ q * r ≤ m := by
  have e : (p + q + 1) * r = p * r + q * r + r := by ring
  have h1 : 2 * 2 ≤ p * r := Nat.mul_le_mul hp hr
  have h2 : 2 * 2 ≤ q * r := Nat.mul_le_mul hq hr
  rw [e] at h
  omega

theorem weight_arith_sum (p q r a b : Nat) (hr : 2 ≤ r) (ha : a ≤ p * r) (hb : b ≤ q * r) :
    a + b + 1 ≤ (p + q + 1) * r := by
  have e : (p + q + 1) * r = p * r + q * r + r := by ring
  rw [e]
  omega

theorem distributeOrOverAnd_total : ∀ (n : Nat) (t : Tree), weight t ≤ n →
    ∃ r, distributeOrOverAnd n t = some r ∧ weight r ≤ weight t := by
  intro n
  induction n with
  | zero => intro t h; have := two_le_weight t; omega
  | succ n ih =>
    intro t h
    cases t with
    | nil => exact ⟨nil, rfl, le_refl _⟩
    | node v l rt =>
      have hl2 := two_le_weight l
      have hr2 := two_le_weight rt
      have hlt : weight l ≤ n ∧ weight rt ≤ n := by
        simp only [weight] at h
        split at h
        · have h1 : weight l * 2 ≤ weight l * weight rt := Nat.mul_le_mul_left _ hr2
          have h2 : 2 * weight rt ≤ weight l * weight rt := Nat.mul_le_mul_right _ hl2
          omega
        · omega
      obtain ⟨l1, hl1, wl1⟩ := ih l hlt.1
      obtain ⟨r1, hr1, wr1⟩ := ih rt hlt.2
      have hl12 := two_le_weight l1
      have hr12 := two_le_weight r1
      by_cases hv : v = '+'
      · subst hv
        rw [weight_plus] at h ⊢
        have hprod : weight l1 * weight r1 ≤ weight l * weight rt := Nat.mul_le_mul wl1 wr1
        by_cases c1 : hasValue '*' l1 = true
        · obtain ⟨p, q, rfl⟩ := (hasValue_true_iff _ _).1 c1
          rw [weight_star] at hprod
          have hp2 := two_le_weight p
          have hq2 := two_le_weight q
          have hb := weight_arith_left _ _ _ n hp2 hq2 hr12 (le_trans hprod h)
          obtain ⟨a, ha, wa⟩ := ih (node '+' p (cloneTree r1)) (by
            rw [weight_plus, cloneTree_eq]; exact hb.1)
          obtain ⟨b, hb, wb⟩ := ih (node '+' q r1) (by
            rw [weight_plus]; exact hb.2)
          refine ⟨node '*' a b, ?_, ?_⟩
          · simp [distributeOrOverAnd, hl1, hr1]
            simp at ha
            simp [ha, hb]
          · rw [weight_plus] at wb
            rw [weight_plus, cloneTree_eq] at wa
            rw [weight_star]
            exact le_trans (weight_arith_sum _ _ _ _ _ hr12 wa wb) hprod
        · by_cases c2 : hasValue '*' r1 = true
          · obtain ⟨p, q, rfl⟩ := (hasValue_true_iff _ _).1 c2
            rw [weight_star] at hprod
            have hp2 := two_le_weight p
            have hq2 := two_le_weight q
            rw [Nat.mul_comm] at hprod
            have hb := weight_arith_left _ _ _ n hp2 hq2 hl12 (le_trans hprod h)
            obtain ⟨a, ha, wa⟩ := ih (node '+' (cloneTree l1) p) (by
              rw [weight_plus, cloneTree_eq, Nat.mul_comm]; exact hb.1)
            obtain ⟨b, hb, wb⟩ := ih (node '+' l1 q) (by
              rw [weight_plus, Nat.mul_comm]; exact hb.2)
            refine ⟨node '*' a b, ?_, ?_⟩
            · simp only [Bool.not_eq_true] at c1
              simp [distributeOrOverAnd, hl1, hr1, c1]
              simp at ha
              simp [ha, hb]
            · rw [weight_plus, Nat.mul_comm] at wb
              rw [weight_plus, cloneTree_eq, Nat.mul_comm] at wa
              rw [weight_star]
              exact le_trans (weight_arith_sum _ _ _ _ _ hl12 wa wb) hprod
          · refine ⟨node '+' l1 r1, ?_, ?_⟩
            · simp only [Bool.not_eq_true] at c1 c2
              simp [distributeOrOverAnd, hl1, hr1, c1, c2]
            · rw [weight_plus]; exact hprod
      · refine ⟨node v l1 r1, ?_, ?_⟩
        · simp [distributeOrOverAnd, hl1, hr1, hv]
        · simp only [weight, beq_iff_eq, hv, if_false]
          omega


/-- Inversion of one step of `distributeOrOverAnd` on a node. -/
theorem distributeOrOverAnd_inv {n : Nat} {v : Char} {l r res : Tree}
    (h : distributeOrOverAnd (n + 1) (node v l r) = some res) :
    ∃ l1 r1, distributeOrOverAnd n l = some l1 ∧ distributeOrOverAnd n r = some r1 ∧
      ((v = '+' ∧ ∃ p q a b, l1 = node '*' p q ∧
          distributeOrOverAnd n (node '+' p r1) = some a ∧
          distributeOrOverAnd n (node '+' q r1) = some b ∧ res = node '*' a b) ∨
       (v = '+' ∧ hasValue '*' l1 = false ∧ ∃ p q a b, r1 = node '*' p q ∧
          distributeOrOverAnd n (node '+' l1 p) = some a ∧
          distributeOrOverAnd n (node '+' l1 q) = some b ∧ res = node '*' a b) ∨
       ((v ≠ '+' ∨ (hasValue '*' l1 = false ∧ hasValue '*' r1 = false)) ∧
          res = node v l1 r1)) := by
  rw [distributeOrOverAnd] at h
  cases hl : distributeOrOverAnd n l with
  | none => simp [hl] at h
  | some l1 =>
    cases hr : distributeOrOverAnd n r with
    | none => simp [hl, hr] at h
    | some r1 =>
      refine ⟨l1, r1, rfl, rfl, ?_⟩
      simp only [hl, hr] at h
      by_cases hv : v = '+'
      · subst hv
        simp only [beq_self_eq_true, if_true] at h
        by_cases c1 : hasValue '*' l1 = true
        · obtain ⟨p, q, rfl⟩ := (hasValue_true_iff _ _).1 c1
          simp only [c1, if_true, leftOf_node, rightOf_node, cloneTree_eq] at h
          cases ha : distributeOrOverAnd n (node '+' p r1) with
          | none => simp [ha] at h
          | some a =>
            cases hb : distributeOrOverAnd n (node '+' q r1) with
            | none => simp [ha, hb] at h
            | some b =>
              simp only [ha, hb, Option.some.injEq] at h
              exact Or.inl ⟨rfl, p, q, a, b, rfl, ha, hb, h.symm⟩
        · simp only [Bool.not_eq_true] at c1
          simp only [c1, Bool.false_eq_true, if_false] at h
          by_cases c2 : hasValue '*' r1 = true
          · obtain ⟨p, q, rfl⟩ := (hasValue_true_iff _ _).1 c2
            simp only [c2, if_true, leftOf_node, rightOf_node, cloneTree_eq] at h
            cases ha : distributeOrOverAnd n (node '+' l1 p) with
            | none => simp [ha] at h
            | some a =>
              cases hb : distributeOrOverAnd n (node '+' l1 q) with
              | none => simp [ha, hb] at h
              | some b =>
                simp only [ha, hb, Option.some.injEq] at h
                exact Or.inr (Or.inl ⟨rfl, c1, p, q, a, b, rfl, ha, hb, h.symm⟩)
          · simp only [Bool.not_eq_true] at c2
            simp only [c2, Bool.false_eq_true, if_false, Option.some.injEq] at h
            exact Or.inr (Or.inr ⟨Or.inr ⟨c1, c2⟩, h.symm⟩)
      · have hv2 : (v == '+') = false := by simp [hv]
        simp only [hv2, Bool.false_eq_true, if_false, Option.some.injEq] at h
        exact Or.inr (Or.inr ⟨Or.inl hv, h.symm⟩)

theorem distributeOrOverAnd_mono : ∀ (n : Nat) (t r : Tree),
    distributeOrOverAnd n t = some r → distributeOrOverAnd (n + 1) t = some r := by
  intro n
  induction n with
  | zero => intro t r h; simp [distributeOrOverAnd] at h
  | succ n ih =>
    intro t r h
    cases t with
    | nil => simpa [distributeOrOverAnd] using h
    | node v l rt =>
      obtain ⟨l1, r1, hl, hr, hcase⟩ := distributeOrOverAnd_inv h
      have hl2 := ih _ _ hl
      have hr2 := ih _ _ hr
      rw [distributeOrOverAnd]
      simp only [hl2, hr2]
      rcases hcase with ⟨rfl, p, q, a, b, rfl, ha, hb, rfl⟩ |
        ⟨rfl, c1, p, q, a, b, rfl, ha, hb, rfl⟩ | ⟨hc, rfl⟩
      · simp [ih _ _ ha, ih _ _ hb]
      · simp [c1, ih _ _ ha, ih _ _ hb]
      · rcases hc with hv | ⟨c1, c2⟩
        · simp [hv]
        · simp [c1, c2]

theorem distributeOrOverAnd_mono_le (n m : Nat) (t r : Tree) (hnm : n ≤ m)
    (h : distributeOrOverAnd n t = some r) : distributeOrOverAnd m t = some r := by
  induction hnm with
  | refl => exact h
  | step _ ih => exact distributeOrOverAnd_mono _ _ _ ih

theorem wellFormed_binary {v : Char} (hv : isBinaryOperator v = true) (l r : Tree) :
    wellFormed (node v l r) = (wellFormed l && wellFormed r) := by
  simp [isBinaryOperator] at hv
  rcases hv with (rfl | rfl) | rfl <;> simp [wellFormed, isOperator]

theorem wellFormed_distributeOrOverAnd : ∀ (n : Nat) (t r : Tree),
    wellFormed t = true → distributeOrOverAnd n t = some r → wellFormed r = true := by
  intro n
  induction n with
  | zero => intro t r _ h; simp [distributeOrOverAnd] at h
  | succ n ih =>
    intro t r hwf h
    cases t with
    | nil => simp [wellFormed] at hwf
    | node v l rt =>
      obtain ⟨l1, r1, hl, hr, hcase⟩ := distributeOrOverAnd_inv h
      rcases hcase with ⟨rfl, p, q, a, b, rfl, ha, hb, rfl⟩ |
        ⟨rfl, c1, p, q, a, b, rfl, ha, hb, rfl⟩ | ⟨hc, rfl⟩
      · simp [wellFormed, isOperator] at hwf
        have w1 := ih _ _ hwf.1 hl
        have w2 := ih _ _ hwf.2 hr
        simp [wellFormed, isOperator] at w1
        have wa := ih _ a (by simp [wellFormed, isOperator, w1.1, w2]) ha
        have wb := ih _ b (by simp [wellFormed, isOperator, w1.2, w2]) hb
        simp [wellFormed, isOperator, wa, wb]
      · simp [wellFormed, isOperator] at hwf
        have w1 := ih _ _ hwf.1 hl
        have w2 := ih _ _ hwf.2 hr
        simp [wellFormed, isOperator] at w2
        have wa := ih _ a (by simp [wellFormed, isOperator, w1, w2.1]) ha
        have wb := ih _ b (by simp [wellFormed, isOperator, w1, w2.2]) hb
        simp [wellFormed, isOperator, wa, wb]
      · rcases char_cases v with rfl | rfl | rfl | rfl | hop
        · simp [wellFormed, isOperator, isNil_iff] at hwf
          obtain ⟨hwl, rfl⟩ := hwf
          have w1 := ih _ _ hwl hl
          cases n with
          | zero => simp [distributeOrOverAnd] at hr
          | succ m =>
            simp [distributeOrOverAnd] at hr
            subst hr
            simp [wellFormed, isOperator, w1]
        all_goals first
          | (simp [wellFormed, isOperator] at hwf
             have w1 := ih _ _ hwf.1 hl
             have w2 := ih _ _ hwf.2 hr
             simp [wellFormed, isOperator, w1, w2])
          | (simp [wellFormed, hop, isNil_iff] at hwf
             obtain ⟨rfl, rfl⟩ := hwf
             cases n with
             | zero => simp [distributeOrOverAnd] at hr
             | succ m =>
               simp [distributeOrOverAnd] at hr hl
               subst hr; subst hl
               simp [wellFormed, hop])


theorem evaluateFormula_plus (l r : Tree) (A : Assignment) (hr : wellFormed r = true) :
    evaluateFormula (node '+' l r) A = cOr (evaluateFormula l A) (evaluateFormula r A) := by
  simp [evaluateFormula, isOperator, wellFormed_not_nil hr]

theorem evaluateFormula_star (l r : Tree) (A : Assignment) (hr : wellFormed r = true) :
    evaluateFormula (node '*' l r) A = cAnd (evaluateFormula l A) (evaluateFormula r A) := by
  simp [evaluateFormula, isOperator, wellFormed_not_nil hr]

theorem evaluateFormula_distributeOrOverAnd (A : Assignment) : ∀ (n : Nat) (t r : Tree),
    wellFormed t = true → distributeOrOverAnd n t = some r →
    evaluateFormula r A = evaluateFormula t A := by
  intro n
  induction n with
  | zero => intro t r _ h; simp [distributeOrOverAnd] at h
  | succ n ih =>
    intro t r hwf h
    cases t with
    | nil => simp [wellFormed] at hwf
    | node v l rt =>
      obtain ⟨l1, r1, hl, hr, hcase⟩ := distributeOrOverAnd_inv h
      rcases hcase with ⟨rfl, p, q, a, b, rfl, ha, hb, rfl⟩ |
        ⟨rfl, c1, p, q, a, b, rfl, ha, hb, rfl⟩ | ⟨hc, rfl⟩
      · simp [wellFormed, isOperator] at hwf
        have w1 := wellFormed_distributeOrOverAnd _ _ _ hwf.1 hl
        have w2 := wellFormed_distributeOrOverAnd _ _ _ hwf.2 hr
        simp [wellFormed, isOperator] at w1
        have wa0 : wellFormed (node '+' p r1) = true := by
          simp [wellFormed, isOperator, w1.1, w2]
        have wb0 : wellFormed (node '+' q r1) = true := by
          simp [wellFormed, isOperator, w1.2, w2]
        have wb := wellFormed_distributeOrOverAnd _ _ _ wb0 hb
        rw [evaluateFormula_star _ _ _ wb, ih _ _ wa0 ha, ih _ _ wb0 hb,
          evaluateFormula_plus _ _ _ w2, evaluateFormula_plus _ _ _ w2,
          evaluateFormula_plus _ _ _ hwf.2, ← ih _ _ hwf.1 hl, ← ih _ _ hwf.2 hr,
          evaluateFormula_star _ _ _ w1.2, cOr_cAnd_left]
      · simp [wellFormed, isOperator] at hwf
        have w1 := wellFormed_distributeOrOverAnd _ _ _ hwf.1 hl
        have w2 := wellFormed_distributeOrOverAnd _ _ _ hwf.2 hr
        simp [wellFormed, isOperator] at w2
        have wa0 : wellFormed (node '+' l1 p) = true := by
          simp [wellFormed, isOperator, w1, w2.1]
        have wb0 : wellFormed (node '+' l1 q) = true := by
          simp [wellFormed, isOperator, w1, w2.2]
        have wb := wellFormed_distributeOrOverAnd _ _ _ wb0 hb
        rw [evaluateFormula_star _ _ _ wb, ih _ _ wa0 ha, ih _ _ wb0 hb,
          evaluateFormula_plus _ _ _ w2.1, evaluateFormula_plus _ _ _ w2.2,
          evaluateFormula_plus _ _ _ hwf.2, ← ih _ _ hwf.1 hl, ← ih _ _ hwf.2 hr,
          evaluateFormula_star _ _ _ w2.2, cOr_cAnd_right]
      · rcases char_cases v with rfl | rfl | rfl | rfl | hop
        · simp [wellFormed, isOperator, isNil_iff] at hwf
          obtain ⟨hwl, rfl⟩ := hwf
          simp [evaluateFormula, isOperator, ih _ _ hwl hl]
        · simp [wellFormed, isOperator] at hwf
          have w2 := wellFormed_distributeOrOverAnd _ _ _ hwf.2 hr
          rw [evaluateFormula_plus _ _ _ w2, evaluateFormula_plus _ _ _ hwf.2,
            ih _ _ hwf.1 hl, ih _ _ hwf.2 hr]
        · simp [wellFormed, isOperator] at hwf
          have w2 := wellFormed_distributeOrOverAnd _ _ _ hwf.2 hr
          rw [evaluateFormula_star _ _ _ w2, evaluateFormula_star _ _ _ hwf.2,
            ih _ _ hwf.1 hl, ih _ _ hwf.2 hr]
        · simp [wellFormed, isOperator] at hwf
          have w2 := wellFormed_distributeOrOverAnd _ _ _ hwf.2 hr
          simp [evaluateFormula, isOperator, wellFormed_not_nil w2, wellFormed_not_nil hwf.2,
            ih _ _ hwf.1 hl, ih _ _ hwf.2 hr]
        · simp [evaluateFormula, hop]

/-! ## The CNF shape -/

theorem isCNF_star (l r : Tree) : isCNF (node '*' l r) = (isCNF l && isCNF r) := by
  simp [isCNF]

theorem isCNF_of_isClause {t : Tree} (h : isClause t = true) : isCNF t = true := by
  cases t with
  | nil => simp [isClause] at h
  | node v l r =>
    by_cases hv : v = '*'
    · subst hv
      simp [isClause, isLiteral, isVarLeaf, isOperator] at h
    · simp [isCNF, hv, h]

theorem isClause_of_isCNF {t : Tree} (h : isCNF t = true) (hs : hasValue '*' t = false) :
    isClause t = true := by
  cases t with
  | nil => simp [isCNF] at h
  | node v l r =>
    simp at hs
    simpa [isCNF, hs] using h

theorem isClause_plus (l r : Tree) : isClause (node '+' l r) = (isClause l && isClause r) := by
  simp [isClause]

theorem isVarLeaf_iff (t : Tree) :
    isVarLeaf t = true ↔ ∃ v, isOperator v = false ∧ t = node v nil nil := by
  cases t with
  | nil => simp [isVarLeaf]
  | node v l r =>
    simp only [isVarLeaf, Bool.and_eq_true, Bool.not_eq_true', isNil_iff]
    constructor
    · rintro ⟨⟨h1, rfl⟩, rfl⟩; exact ⟨v, h1, rfl⟩
    · rintro ⟨w, h1, h2⟩
      injection h2 with e1 e2 e3
      subst e1
      exact ⟨⟨h1, e2⟩, e3⟩

theorem isLiteral_spec {t : Tree} (h : isLiteral t = true) :
    wellFormed t = true ∧ noImplies t = true ∧ negOnVars t = true ∧ noAnd t = true ∧
      hasValue '+' t = false ∧ hasValue '*' t = false := by
  simp only [isLiteral, Bool.or_eq_true, Bool.and_eq_true] at h
  rcases h with h | ⟨⟨h1, h2⟩, h3⟩
  · obtain ⟨v, hv, rfl⟩ := (isVarLeaf_iff _).1 h
    obtain ⟨n1, n2, n3, n4⟩ := not_operator_ne hv
    simp [wellFormed, hv, noImplies, negOnVars, noAnd, n1, n2, n3, n4]
  · obtain ⟨l, r, rfl⟩ := (hasValue_true_iff _ _).1 h1
    simp only [leftOf_node, rightOf_node, isNil_iff] at h2 h3
    subst h3
    obtain ⟨v, hv, rfl⟩ := (isVarLeaf_iff _).1 h2
    obtain ⟨n1, n2, n3, n4⟩ := not_operator_ne hv
    simp [wellFormed, isOperator, hv, noImplies, negOnVars, noAnd, n1, n2, n3, n4, isVarLeaf]

theorem noAndBelowOrNot_of_noAnd : ∀ (t : Tree), noAnd t = true →
    noAndBelowOrNot t = true := by
  intro t
  induction t with
  | nil => intro _; rfl
  | node v l r ihl ihr =>
    intro h
    simp only [noAnd, Bool.and_eq_true] at h
    simp [noAndBelowOrNot, h.1.2, h.2, ihl h.1.2, ihr h.2]

theorem isClause_spec : ∀ (t : Tree), isClause t = true →
    wellFormed t = true ∧ noImplies t = true ∧ negOnVars t = true ∧ noAnd t = true ∧
      noAndBelowOrNot t = true ∧ hasValue '*' t = false := by
  intro t
  induction t with
  | nil => intro h; simp [isClause] at h
  | node v l r ihl ihr =>
    intro h
    by_cases hv : v = '+'
    · subst hv
      simp [isClause] at h
      obtain ⟨a1, a2, a3, a4, a5, -⟩ := ihl h.1
      obtain ⟨b1, b2, b3, b4, b5, -⟩ := ihr h.2
      simp [wellFormed, isOperator, noImplies, negOnVars, noAnd, noAndBelowOrNot,
        a1, a2, a3, a4, a5, b1, b2, b3, b4, b5]
    · simp [isClause, hv] at h
      obtain ⟨a1, a2, a3, a4, a5, a6⟩ := isLiteral_spec h
      exact ⟨a1, a2, a3, a4, noAndBelowOrNot_of_noAnd _ a4, a6⟩


theorem isCNF_spec : ∀ (t : Tree), isCNF t = true →
    wellFormed t = true ∧ noImplies t = true ∧ negOnVars t = true ∧
      noAndBelowOrNot t = true := by
  intro t
  induction t with
  | nil => intro h; simp [isCNF] at h
  | node v l r ihl ihr =>
    intro h
    by_cases hv : v = '*'
    · subst hv
      simp [isCNF] at h
      obtain ⟨a1, a2, a3, a4⟩ := ihl h.1
      obtain ⟨b1, b2, b3, b4⟩ := ihr h.2
      simp [wellFormed, isOperator, noImplies, negOnVars, noAndBelowOrNot,
        a1, a2, a3, a4, b1, b2, b3, b4]
    · simp [isCNF, hv] at h
      obtain ⟨a1, a2, a3, -, a5, -⟩ := isClause_spec _ h
      exact ⟨a1, a2, a3, a5⟩

theorem distributeOrOverAnd_nil {n : Nat} {x : Tree}
    (h : distributeOrOverAnd n nil = some x) : x = nil := by
  cases n with
  | zero => simp [distributeOrOverAnd] at h
  | succ m => simp [distributeOrOverAnd] at h; exact h.symm

theorem distributeOrOverAnd_leaf {n : Nat} {v : Char} {x : Tree}
    (h : distributeOrOverAnd n (node v nil nil) = some x) :
    x = node v nil nil := by
  cases n with
  | zero => simp [distributeOrOverAnd] at h
  | succ m =>
    obtain ⟨l1, r1, hl, hr, hcase⟩ := distributeOrOverAnd_inv h
    have e1 := distributeOrOverAnd_nil hl
    have e2 := distributeOrOverAnd_nil hr
    subst e1; subst e2
    rcases hcase with ⟨-, p, q, a, b, hp, -⟩ | ⟨-, -, p, q, a, b, hp, -⟩ | ⟨-, rfl⟩
    · cases hp
    · cases hp
    · rfl

theorem isCNF_distributeOrOverAnd : ∀ (n : Nat) (t r : Tree),
    wellFormed t = true → noImplies t = true → negOnVars t = true →
    distributeOrOverAnd n t = some r → isCNF r = true := by
  intro n
  induction n with
  | zero => intro t r _ _ _ h; simp [distributeOrOverAnd] at h
  | succ n ih =>
    intro t r hwf hni hnv h
    cases t with
    | nil => simp [wellFormed] at hwf
    | node v l rt =>
      obtain ⟨l1, r1, hl, hr, hcase⟩ := distributeOrOverAnd_inv h
      rcases hcase with ⟨rfl, p, q, a, b, rfl, ha, hb, rfl⟩ |
        ⟨rfl, c1, p, q, a, b, rfl, ha, hb, rfl⟩ | ⟨hc, rfl⟩
      · simp [wellFormed, isOperator] at hwf
        simp [noImplies] at hni
        simp [negOnVars] at hnv
        have k1 := ih _ _ hwf.1 hni.1 hnv.1 hl
        have k2 := ih _ _ hwf.2 hni.2 hnv.2 hr
        rw [isCNF_star] at k1
        simp only [Bool.and_eq_true] at k1
        obtain ⟨p1, p2, p3, -⟩ := isCNF_spec _ k1.1
        obtain ⟨q1, q2, q3, -⟩ := isCNF_spec _ k1.2
        obtain ⟨r1w, r2, r3, -⟩ := isCNF_spec _ k2
        have ka := ih _ a (by simp [wellFormed, isOperator, p1, r1w])
          (by simp [noImplies, p2, r2]) (by simp [negOnVars, p3, r3]) ha
        have kb := ih _ b (by simp [wellFormed, isOperator, q1, r1w])
          (by simp [noImplies, q2, r2]) (by simp [negOnVars, q3, r3]) hb
        simp [isCNF_star, ka, kb]
      · simp [wellFormed, isOperator] at hwf
        simp [noImplies] at hni
        simp [negOnVars] at hnv
        have k1 := ih _ _ hwf.1 hni.1 hnv.1 hl
        have k2 := ih _ _ hwf.2 hni.2 hnv.2 hr
        rw [isCNF_star] at k2
        simp only [Bool.and_eq_true] at k2
        obtain ⟨p1, p2, p3, -⟩ := isCNF_spec _ k2.1
        obtain ⟨q1, q2, q3, -⟩ := isCNF_spec _ k2.2
        obtain ⟨r1w, r2, r3, -⟩ := isCNF_spec _ k1
        have ka := ih _ a (by simp [wellFormed, isOperator, p1, r1w])
          (by simp [noImplies, p2, r2]) (by simp [negOnVars, p3, r3]) ha
        have kb := ih _ b (by simp [wellFormed, isOperator, q1, r1w])
          (by simp [noImplies, q2, r2]) (by simp [negOnVars, q3, r3]) hb
        simp [isCNF_star, ka, kb]
      · rcases char_cases v with rfl | rfl | rfl | rfl | hop
        · simp [wellFormed, isOperator, isNil_iff] at hwf
          obtain ⟨hwl, rfl⟩ := hwf
          simp [negOnVars] at hnv
          obtain ⟨lv, hlv, rfl⟩ := (isVarLeaf_iff _).1 hnv.1
          have e1 := distributeOrOverAnd_leaf hl
          have e2 := distributeOrOverAnd_nil hr
          subst e1; subst e2
          simp [isCNF, isClause, isLiteral, isVarLeaf, hlv]
        · simp [wellFormed, isOperator] at hwf
          simp [noImplies] at hni
          simp [negOnVars] at hnv
          have k1 := ih _ _ hwf.1 hni.1 hnv.1 hl
          have k2 := ih _ _ hwf.2 hni.2 hnv.2 hr
          rcases hc with hc | ⟨c1, c2⟩
          · exact absurd rfl hc
          · apply isCNF_of_isClause
            rw [isClause_plus, isClause_of_isCNF k1 c1, isClause_of_isCNF k2 c2]
            rfl
        · simp [wellFormed, isOperator] at hwf
          simp [noImplies] at hni
          simp [negOnVars] at hnv
          have k1 := ih _ _ hwf.1 hni.1 hnv.1 hl
          have k2 := ih _ _ hwf.2 hni.2 hnv.2 hr
          simp [isCNF_star, k1, k2]
        · simp [noImplies] at hni
        · obtain ⟨n1, n2, n3, n4⟩ := not_operator_ne hop
          simp [wellFormed, hop, isNil_iff] at hwf
          obtain ⟨rfl, rfl⟩ := hwf
          have e1 := distributeOrOverAnd_nil hl
          have e2 := distributeOrOverAnd_nil hr
          subst e1; subst e2
          simp [isCNF, isClause, isLiteral, isVarLeaf, hop, n2, n3]


/-! ## The pipeline `convertToCNF` -/

theorem convertToCNF_node_eq (n : Nat) (t : Tree) (h : wellFormed t = true) :
    convertToCNF n t =
      (moveNegationsInward n (eliminateImplications t)).bind (distributeOrOverAnd n) := by
  cases t with
  | nil => simp [wellFormed] at h
  | node v l r =>
    simp only [convertToCNF]
    cases moveNegationsInward n (eliminateImplications (node v l r)) <;> rfl

theorem convertToCNF_some {n : Nat} {t r : Tree} (hwf : wellFormed t = true)
    (h : convertToCNF n t = some r) :
    ∃ r2, moveNegationsInward n (eliminateImplications t) = some r2 ∧
      distributeOrOverAnd n r2 = some r := by
  rw [convertToCNF_node_eq n t hwf] at h
  cases h2 : moveNegationsInward n (eliminateImplications t) with
  | none => simp [h2] at h
  | some r2 => exact ⟨r2, rfl, by simpa [h2] using h⟩

theorem convertToCNF_total (t : Tree) (hwf : wellFormed t = true) :
    ∃ n r, convertToCNF n t = some r := by
  obtain ⟨r2, h2⟩ := Option.isSome_iff_exists.1
    (moveNegationsInward_isSome (size (eliminateImplications t) + 1)
      (eliminateImplications t) (Nat.lt_succ_self _))
  obtain ⟨r3, h3, -⟩ := distributeOrOverAnd_total (weight r2) r2 (le_refl _)
  refine ⟨size (eliminateImplications t) + 1 + weight r2, r3, ?_⟩
  rw [convertToCNF_node_eq _ _ hwf,
    moveNegationsInward_mono_le _ _ _ _ (Nat.le_add_right _ _) h2]
  exact distributeOrOverAnd_mono_le _ _ _ _ (Nat.le_add_left _ _) h3

/-- C1. For every well-formed formula tree, `convertToCNF` returns a result (with
enough recursion budget), and every result it returns is a conjunction of
disjunctions of literals: it has no `>` node, the child of every `~` node is a
variable leaf, and no `*` node lies below a `+` or a `~` node. -/
theorem convertToCNF_is_cnf (t : Tree) (hwf : wellFormed t = true) :
    (∃ n r, convertToCNF n t = some r) ∧
    ∀ n r, convertToCNF n t = some r →
      isCNF r = true ∧ noImplies r = true ∧ negOnVars r = true ∧
        noAndBelowOrNot r = true := by
  refine ⟨convertToCNF_total t hwf, ?_⟩
  intro n r h
  obtain ⟨r2, h2, h3⟩ := convertToCNF_some hwf h
  obtain ⟨w2, i2, v2⟩ := moveNegationsInward_shape n _ r2
    (wellFormed_eliminateImplications t hwf) (noImplies_eliminateImplications t) h2
  have hc := isCNF_distributeOrOverAnd n r2 r w2 i2 v2 h3
  obtain ⟨-, a2, a3, a4⟩ := isCNF_spec r hc
  exact ⟨hc, a2, a3, a4⟩

/-- Witness for C1: the tree of `((p>q)*(~r))`. -/
theorem convertToCNF_is_cnf_witness :
    wellFormed (node '*' (node '>' (createNode 'p') (createNode 'q'))
      (node '~' (createNode 'r') nil)) = true ∧
    ((∃ n r, convertToCNF n (node '*' (node '>' (createNode 'p') (createNode 'q'))
      (node '~' (createNode 'r') nil)) = some r) ∧
    ∀ n r, convertToCNF n (node '*' (node '>' (createNode 'p') (createNode 'q'))
        (node '~' (createNode 'r') nil)) = some r →
      isCNF r = true ∧ noImplies r = true ∧ negOnVars r = true ∧
        noAndBelowOrNot r = true) :=
  ⟨by decide, convertToCNF_is_cnf _ (by decide)⟩

theorem assignsAll_eliminateImplications (A : Assignment) (t : Tree)
    (h : assignsAll A t = true) : assignsAll A (eliminateImplications t) = true := by
  induction t with
  | nil => rfl
  | node v l r ihl ihr =>
    simp only [assignsAll, Bool.and_eq_true] at h
    by_cases hv : v = '>'
    · subst hv
      simp [eliminateImplications, assignsAll, isOperator, ihl h.1.2, ihr h.2]
    · simp only [eliminateImplications, beq_iff_eq, hv, if_false, assignsAll,
        Bool.and_eq_true]
      exact ⟨⟨h.1.1, ihl h.1.2⟩, ihr h.2⟩

/-- C2. `convertToCNF` preserves meaning: for every well-formed tree and every
assignment giving each of its variables the value 0 or 1, the conversion returns
a result, and every result evaluates to the same value as the input. -/
theorem convertToCNF_preserves_eval (t : Tree) (A : Assignment)
    (hwf : wellFormed t = true) (hA : assignsAll A t = true) :
    (∃ n r, convertToCNF n t = some r) ∧
    ∀ n r, convertToCNF n t = some r → evaluateFormula r A = evaluateFormula t A := by
  refine ⟨convertToCNF_total t hwf, ?_⟩
  intro n r h
  obtain ⟨r2, h2, h3⟩ := convertToCNF_some hwf h
  have w1 := wellFormed_eliminateImplications t hwf
  have i1 := noImplies_eliminateImplications t
  obtain ⟨w2, -, -⟩ := moveNegationsInward_shape n _ r2 w1 i1 h2
  rw [evaluateFormula_distributeOrOverAnd A n r2 r w2 h3,
    evaluateFormula_moveNegationsInward A n _ r2 w1 i1
      (assignsAll_eliminateImplications A t hA) h2,
    evaluateFormula_eliminateImplications]

/-- Witness for C2: the tree of `> p q` under the assignment `p = 1`, `q = 0`. -/
theorem convertToCNF_preserves_eval_witness :
    (wellFormed (node '>' (createNode 'p') (createNode 'q')) = true ∧
      assignsAll [('p', 1), ('q', 0)] (node '>' (createNode 'p') (createNode 'q')) = true) ∧
    ((∃ n r, convertToCNF n (node '>' (createNode 'p') (createNode 'q')) = some r) ∧
    ∀ n r, convertToCNF n (node '>' (createNode 'p') (createNode 'q')) = some r →
      evaluateFormula r [('p', 1), ('q', 0)] =
        evaluateFormula (node '>' (createNode 'p') (createNode 'q')) [('p', 1), ('q', 0)]) ∧
    convertToCNF 5 (node '>' (createNode 'p') (createNode 'q')) =
      some (node '+' (node '~' (createNode 'p') nil) (createNode 'q')) :=
  ⟨by decide, convertToCNF_preserves_eval _ _ (by decide) (by decide), by decide⟩


/-- C10, counterexample. `moveNegationsInward` leaves a `~` node above an
implication unchanged, and also a `~` node without child, so the claim fails
for arbitrary input trees: in `~(p>q)` and in a childless `~` the child of the
`~` node is not a variable leaf. -/
theorem moveNegationsInward_not_nnf_in_general :
    (moveNegationsInward 2 (node '~' (node '>' (createNode 'p') (createNode 'q')) nil) =
        some (node '~' (node '>' (createNode 'p') (createNode 'q')) nil) ∧
      negOnVars (node '~' (node '>' (createNode 'p') (createNode 'q')) nil) = false) ∧
    (moveNegationsInward 2 (node '~' nil nil) = some (node '~' nil nil) ∧
      negOnVars (node '~' nil nil) = false) := by
  decide

/-- C10, amended. For every well-formed tree without `>` nodes,
`moveNegationsInward` returns a result (with enough recursion budget), and in
every result the child of every `~` node is a variable leaf. -/
theorem moveNegationsInward_nnf (t : Tree) (hwf : wellFormed t = true)
    (hni : noImplies t = true) :
    (∃ n r, moveNegationsInward n t = some r) ∧
    ∀ n r, moveNegationsInward n t = some r → negOnVars r = true :=
  ⟨⟨size t + 1, Option.isSome_iff_exists.1
      (moveNegationsInward_isSome _ t (Nat.lt_succ_self _))⟩,
    fun n r h => (moveNegationsInward_shape n t r hwf hni h).2.2⟩

/-- Witness for C10: the tree of `~(p*q)`, whose CNF is `(~p)+(~q)`. -/
theorem moveNegationsInward_nnf_witness :
    (wellFormed (node '~' (node '*' (createNode 'p') (createNode 'q')) nil) = true ∧
      noImplies (node '~' (node '*' (createNode 'p') (createNode 'q')) nil) = true) ∧
    ((∃ n r, moveNegationsInward n
        (node '~' (node '*' (createNode 'p') (createNode 'q')) nil) = some r) ∧
      ∀ n r, moveNegationsInward n
        (node '~' (node '*' (createNode 'p') (createNode 'q')) nil) = some r →
        negOnVars r = true) ∧
    convertToCNF 5 (node '~' (node '*' (createNode 'p') (createNode 'q')) nil) =
      some (node '+' (node '~' (createNode 'p') nil) (node '~' (createNode 'q') nil)) :=
  ⟨by decide, moveNegationsInward_nnf _ (by decide) (by decide), by decide⟩


/-! ## Clause extraction and the validity check -/

theorem take_take_append {α : Type} (n : Nat) (xs ys : List α) :
    List.take n (List.take n xs ++ ys) = List.take n (xs ++ ys) := by
  by_cases h : n ≤ xs.length
  · rw [List.take_append_of_le_length (by simp [h]), List.take_take, min_self,
      List.take_append_of_le_length h]
  · have h2 : xs.length ≤ n := by omega
    rw [List.take_of_length_le h2]

theorem extractClauses_eq : ∀ (t : Tree) (clauses : List Tree) (maxClauses : Nat),
    clauses.length ≤ maxClauses →
    extractClauses t clauses maxClauses = List.take maxClauses (clauses ++ clausesOf t) := by
  intro t
  induction t with
  | nil =>
    intro clauses m h
    simp [extractClauses, clausesOf, List.take_of_length_le h]
  | node v l r ihl ihr =>
    intro clauses m h
    rw [extractClauses]
    by_cases hfull : clauses.length ≥ m
    · simp only [hfull, if_true]
      have : clauses.length = m := by omega
      rw [List.take_append_of_le_length (by omega), List.take_of_length_le (by omega)]
    · simp only [hfull, if_false]
      by_cases hv : v = '*'
      · subst hv
        simp only [beq_self_eq_true, if_true, clausesOf]
        rw [ihl clauses m h, ihr _ m (by simp), take_take_append, List.append_assoc]
      · have hv2 : (v == '*') = false := by simp [hv]
        simp only [hv2, Bool.false_eq_true, if_false, clausesOf]
        rw [List.take_of_length_le (by simp; omega)]

theorem extractClauses_within (t : Tree) (h : (clausesOf t).length ≤ 100) :
    extractClauses t [] 100 = clausesOf t := by
  rw [extractClauses_eq t [] 100 (by simp), List.nil_append, List.take_of_length_le h]

theorem foundComplementary_iff (literals : List Int) :
    foundComplementary literals = true ↔
      ∃ j k, j < literals.length ∧ k < literals.length ∧ j ≠ k ∧
        literals.getD j 0 = -literals.getD k 0 := by
  simp only [foundComplementary, List.any_eq_true, List.mem_range, Bool.and_eq_true,
    bne_iff_ne, beq_iff_eq]
  constructor
  · rintro ⟨j, hj, k, hk, hne, he⟩; exact ⟨j, k, hj, hk, hne, he⟩
  · rintro ⟨j, k, hj, hk, hne, he⟩; exact ⟨j, hj, k, hk, hne, he⟩

theorem foundComplementary_of_mem (literals : List Int) (L : Int) (h0 : L ≠ 0)
    (h1 : L ∈ literals) (h2 : -L ∈ literals) : foundComplementary literals = true := by
  rw [foundComplementary_iff]
  obtain ⟨j, hj, ej⟩ := List.getElem_of_mem h1
  obtain ⟨k, hk, ek⟩ := List.getElem_of_mem h2
  refine ⟨j, k, hj, hk, ?_, ?_⟩
  · rintro rfl
    rw [ej] at ek
    omega
  · rw [List.getD_eq_getElem _ _ hj, List.getD_eq_getElem _ _ hk, ej, ek]
    simp

theorem mem_of_foundComplementary (literals : List Int)
    (h : foundComplementary literals = true) : ∃ L, L ∈ literals ∧ -L ∈ literals := by
  rw [foundComplementary_iff] at h
  obtain ⟨j, k, hj, hk, -, he⟩ := h
  rw [List.getD_eq_getElem _ _ hj, List.getD_eq_getElem _ _ hk] at he
  refine ⟨literals[k], List.getElem_mem _, ?_⟩
  rw [← he]
  exact List.getElem_mem _

theorem checkClauses_true_iff (cs : List Tree) :
    checkClauses cs = some true ↔
      ∀ c ∈ cs, ∃ m lits, extractLiterals 50 c ([], []) = some (m, lits) ∧
        foundComplementary lits = true := by
  induction cs with
  | nil => simp [checkClauses]
  | cons c rest ih =>
    rw [checkClauses, List.forall_mem_cons]
    cases he : extractLiterals 50 c ([], []) with
    | none =>
      constructor
      · intro h; cases h
      · rintro ⟨⟨m, lits, h1, -⟩, -⟩; cases h1
    | some st =>
      obtain ⟨m, lits⟩ := st
      by_cases hf : foundComplementary lits = true
      · simp only [hf, if_true, ih]
        constructor
        · intro h; exact ⟨⟨m, lits, rfl, hf⟩, h⟩
        · intro h; exact h.2
      · simp only [hf, Bool.false_eq_true, if_false]
        constructor
        · intro h; cases h
        · rintro ⟨⟨m2, lits2, h1, h2⟩, -⟩
          injection h1 with h1
          injection h1 with e1 e2
          subst e2
          exact absurd h2 hf

theorem checkClauses_false (cs : List Tree) (h : checkClauses cs = some false) :
    ∃ c ∈ cs, ∃ m lits, extractLiterals 50 c ([], []) = some (m, lits) ∧
        foundComplementary lits = false := by
  induction cs with
  | nil => simp [checkClauses] at h
  | cons c rest ih =>
    rw [checkClauses] at h
    cases he : extractLiterals 50 c ([], []) with
    | none => simp [he] at h
    | some st =>
      obtain ⟨m, lits⟩ := st
      simp only [he] at h
      by_cases hf : foundComplementary lits = true
      · simp only [hf, if_true] at h
        obtain ⟨c2, hc2, h2⟩ := ih h
        exact ⟨c2, List.mem_cons_of_mem _ hc2, h2⟩
      · simp only [Bool.not_eq_true] at hf
        exact ⟨c, List.mem_cons_self _ _, m, lits, he, hf⟩


/-! ## Literal extraction and the symbol table -/

theorem lookupIntVar_append (v : Char) (m1 m2 : VarMap) :
    lookupIntVar v (m1 ++ m2) =
      match lookupIntVar v m1 with
      | some i => some i
      | none => lookupIntVar v m2 := by
  induction m1 with
  | nil => simp [lookupIntVar]
  | cons p rest ih =>
    obtain ⟨c, i⟩ := p
    by_cases h : c = v
    · simp [lookupIntVar, h]
    · simp [lookupIntVar, h, ih]

theorem lookupIntVar_pos (v : Char) (m : VarMap) (i : Int)
    (hpos : ∀ p ∈ m, 1 ≤ p.2) (h : lookupIntVar v m = some i) : 1 ≤ i := by
  induction m with
  | nil => simp [lookupIntVar] at h
  | cons p rest ih =>
    obtain ⟨c, j⟩ := p
    by_cases hc : c = v
    · simp [lookupIntVar, hc] at h
      subst h
      exact hpos (c, j) (List.mem_cons_self _ _)
    · simp [lookupIntVar, hc] at h
      exact ih (fun p hp => hpos p (List.mem_cons_of_mem _ hp)) h

theorem getIntVar_spec (v : Char) (m m2 : VarMap) (i : Int)
    (hpos : ∀ p ∈ m, 1 ≤ p.2) (h : getIntVar v m = some (i, m2)) :
    (∀ p ∈ m2, 1 ≤ p.2) ∧ 1 ≤ i ∧ lookupIntVar v m2 = some i ∧
      (∀ w j, lookupIntVar w m = some j → lookupIntVar w m2 = some j) := by
  unfold getIntVar at h
  cases hl : lookupIntVar v m with
  | some j =>
    simp only [hl, Option.some.injEq, Prod.mk.injEq] at h
    obtain ⟨rfl, rfl⟩ := h
    exact ⟨hpos, lookupIntVar_pos v m j hpos hl, hl, fun _ _ hw => hw⟩
  | none =>
    simp only [hl] at h
    by_cases hc : m.length < 100
    · simp only [hc, if_true, Option.some.injEq, Prod.mk.injEq] at h
      obtain ⟨rfl, rfl⟩ := h
      refine ⟨?_, by omega, ?_, ?_⟩
      · intro p hp
        rcases List.mem_append.1 hp with hp | hp
        · exact hpos p hp
        · simp only [List.mem_singleton] at hp
          subst hp
          show (1 : Int) ≤ (m.length : Int) + 1
          omega
      · rw [lookupIntVar_append, hl]
        simp [lookupIntVar]
      · intro w j hw
        rw [lookupIntVar_append, hw]
    · simp [hc] at h

theorem pushLiteral_spec {capacity : Nat} {lits out : List Int} {x : Int}
    (h : pushLiteral capacity lits x = some out) : out = lits ++ [x] := by
  unfold pushLiteral at h
  split at h
  · injection h with h; exact h.symm
  · cases h

theorem map_encodeLit_congr (m1 m2 : VarMap) (xs : List (Char × Bool))
    (hst : ∀ w j, lookupIntVar w m1 = some j → lookupIntVar w m2 = some j)
    (hdef : ∀ x ∈ xs, ∃ i, lookupIntVar x.1 m1 = some i ∧ 1 ≤ i) :
    xs.map (encodeLit m2) = xs.map (encodeLit m1) := by
  apply List.map_congr_left
  intro x hx
  obtain ⟨i, hi, -⟩ := hdef x hx
  simp [encodeLit, hi, hst _ _ hi]

theorem extractLiterals_spec (capacity : Nat) : ∀ (c : Tree) (st st2 : VarMap × List Int),
    (∀ p ∈ st.1, 1 ≤ p.2) → extractLiterals capacity c st = some st2 →
    (∀ p ∈ st2.1, 1 ≤ p.2) ∧
    (∀ w j, lookupIntVar w st.1 = some j → lookupIntVar w st2.1 = some j) ∧
    st2.2 = st.2 ++ (litsOf c).map (encodeLit st2.1) ∧
    (∀ x ∈ litsOf c, ∃ i, lookupIntVar x.1 st2.1 = some i ∧ 1 ≤ i) := by
  intro c
  induction c with
  | nil =>
    intro st st2 hpos h
    simp only [extractLiterals, Option.some.injEq] at h
    subst h
    exact ⟨hpos, fun _ _ hw => hw, by simp [litsOf], by simp [litsOf]⟩
  | node v l r ihl ihr =>
    intro st st2 hpos h
    rw [extractLiterals] at h
    by_cases hp : v = '+'
    · subst hp
      simp only [beq_self_eq_true, if_true] at h
      cases h1 : extractLiterals capacity l st with
      | none => simp [h1] at h
      | some st1 =>
        simp only [h1] at h
        obtain ⟨a1, a2, a3, a4⟩ := ihl st st1 hpos h1
        obtain ⟨b1, b2, b3, b4⟩ := ihr st1 st2 a1 h
        refine ⟨b1, fun w j hw => b2 w j (a2 w j hw), ?_, ?_⟩
        · rw [b3, a3]
          simp only [litsOf, beq_self_eq_true, if_true, List.map_append, List.append_assoc]
          rw [map_encodeLit_congr st1.1 st2.1 (litsOf l) b2 a4]
        · intro x hx
          simp only [litsOf, beq_self_eq_true, if_true, List.mem_append] at hx
          rcases hx with hx | hx
          · obtain ⟨i, hi, hi1⟩ := a4 x hx
            exact ⟨i, b2 _ _ hi, hi1⟩
          · exact b4 x hx
    · have hp2 : (v == '+') = false := by simp [hp]
      simp only [hp2, Bool.false_eq_true, if_false] at h
      by_cases hn : v = '~'
      · subst hn
        simp only [beq_self_eq_true, if_true] at h
        by_cases hg0 : (!isNil l && !isOperator (valueOf l)) = true
        · simp only [hg0, if_true] at h
          cases hg : getIntVar (valueOf l) st.1 with
          | none => simp [hg] at h
          | some res =>
            obtain ⟨i, m2⟩ := res
            simp only [hg] at h
            cases hpu : pushLiteral capacity st.2 (-i) with
            | none => simp [hpu] at h
            | some out =>
              simp only [hpu, Option.some.injEq] at h
              subst h
              obtain ⟨g1, g2, g3, g4⟩ := getIntVar_spec _ st.1 m2 i hpos hg
              refine ⟨g1, g4, ?_, ?_⟩
              · simp [litsOf, hg0, pushLiteral_spec hpu, encodeLit, g3]
              · simp [litsOf, hg0, g3, g2]
        · simp only [hg0, Bool.false_eq_true, if_false, Option.some.injEq] at h
          subst h
          exact ⟨hpos, fun _ _ hw => hw, by simp [litsOf, hg0], by simp [litsOf, hg0]⟩
      · have hn2 : (v == '~') = false := by simp [hn]
        simp only [hn2, Bool.false_eq_true, if_false] at h
        by_cases hop : isOperator v = true
        · simp only [hop, Bool.not_true, Bool.false_eq_true, if_false,
            Option.some.injEq] at h
          subst h
          exact ⟨hpos, fun _ _ hw => hw, by simp [litsOf, hop, hp, hn],
            by simp [litsOf, hop, hp, hn]⟩
        · simp only [Bool.not_eq_true] at hop
          simp only [hop, Bool.not_false, if_true] at h
          cases hg : getIntVar v st.1 with
          | none => simp [hg] at h
          | some res =>
            obtain ⟨i, m2⟩ := res
            simp only [hg] at h
            cases hpu : pushLiteral capacity st.2 i with
            | none => simp [hpu] at h
            | some out =>
              simp only [hpu, Option.some.injEq] at h
              subst h
              obtain ⟨g1, g2, g3, g4⟩ := getIntVar_spec v st.1 m2 i hpos hg
              refine ⟨g1, g4, ?_, ?_⟩
              · simp [litsOf, hop, hp, hn, pushLiteral_spec hpu, encodeLit, g3]
              · simp [litsOf, hop, hp, hn, g3, g2]


theorem extractLiterals_fresh {capacity : Nat} {c : Tree} {m : VarMap} {lits : List Int}
    (h : extractLiterals capacity c ([], []) = some (m, lits)) :
    lits = (litsOf c).map (encodeLit m) ∧
      (∀ x ∈ litsOf c, ∃ i, lookupIntVar x.1 m = some i ∧ 1 ≤ i) := by
  obtain ⟨-, -, h3, h4⟩ := extractLiterals_spec capacity c ([], []) (m, lits) (by simp) h
  exact ⟨by simpa using h3, h4⟩

theorem extractLiterals_ne_zero {capacity : Nat} {c : Tree} {m : VarMap} {lits : List Int}
    (h : extractLiterals capacity c ([], []) = some (m, lits)) : ∀ L ∈ lits, L ≠ 0 := by
  obtain ⟨h1, h2⟩ := extractLiterals_fresh h
  intro L hL
  rw [h1] at hL
  obtain ⟨x, hx, rfl⟩ := List.mem_map.1 hL
  obtain ⟨i, hi, hi1⟩ := h2 x hx
  unfold encodeLit
  rw [hi]
  split <;> simp <;> omega

theorem foundComplementary_extract_iff {capacity : Nat} {c : Tree} {m : VarMap}
    {lits : List Int} (h : extractLiterals capacity c ([], []) = some (m, lits)) :
    foundComplementary lits = true ↔ ∃ L, L ∈ lits ∧ -L ∈ lits := by
  constructor
  · exact mem_of_foundComplementary lits
  · rintro ⟨L, h1, h2⟩
    exact foundComplementary_of_mem lits L (extractLiterals_ne_zero h L h1) h1 h2

theorem foundComplementary_of_both {capacity : Nat} {c : Tree} {m : VarMap}
    {lits : List Int} (h : extractLiterals capacity c ([], []) = some (m, lits)) (v : Char)
    (hp : (v, false) ∈ litsOf c) (hn : (v, true) ∈ litsOf c) :
    foundComplementary lits = true := by
  obtain ⟨h1, h2⟩ := extractLiterals_fresh h
  obtain ⟨i, hi, hi1⟩ := h2 _ hp
  apply foundComplementary_of_mem lits i (by omega)
  · rw [h1]
    exact List.mem_map.2 ⟨(v, false), hp, by simp [encodeLit, hi]⟩
  · rw [h1]
    exact List.mem_map.2 ⟨(v, true), hn, by simp [encodeLit, hi]⟩

/-- C4, counterexample. A `*` node without children is a non-empty tree with no
clause at all, so every clause of it has a complementary pair, yet `isValidCNF`
returns false for it. And for the CNF of the formula `overCapacityPrefix`, which
has 110 clauses, `isValidCNF` returns true although its clause number 101,
`(q+(~p))`, yields the literals `1, -2`, which hold no complementary pair. -/
theorem isValidCNF_not_iff_all_clauses :
    (isValidCNF (node '*' nil nil) = some false ∧ isNil (node '*' nil nil) = false ∧
      ∀ c ∈ clausesOf (node '*' nil nil),
        ∃ m lits, extractLiterals 50 c ([], []) = some (m, lits) ∧
          ∃ L, L ∈ lits ∧ -L ∈ lits) ∧
    ((buildTreeFromPrefix 60 overCapacityPrefix).bind (convertToCNF 60)).map
      (fun cnf => (isValidCNF cnf, (clausesOf cnf).length, (clausesOf cnf).getD 100 nil)) =
      some (some true, 110, node '+' (createNode 'q') (node '~' (createNode 'p') nil)) ∧
    extractLiterals 50 (node '+' (createNode 'q') (node '~' (createNode 'p') nil)) ([], []) =
      some ([('q', 1), ('p', 2)], [1, -2]) := by
  refine ⟨⟨by decide, by decide, ?_⟩, by decide, by decide⟩
  intro c hc
  simp [clausesOf] at hc

theorem isValidCNF_true_iff_extract (t : Tree) (hcap : (clausesOf t).length ≤ 100) :
    isValidCNF t = some true ↔
      clausesOf t ≠ [] ∧
      ∀ c ∈ clausesOf t, ∃ m lits, extractLiterals 50 c ([], []) = some (m, lits) ∧
        ∃ L, L ∈ lits ∧ -L ∈ lits := by
  cases t with
  | nil => simp [isValidCNF, clausesOf]
  | node v l r =>
    simp only [isValidCNF, extractClauses_within _ hcap]
    by_cases he : clausesOf (node v l r) = []
    · simp [he]
    · have hlen : ((clausesOf (node v l r)).length == 0) = false := by
        simp [he]
      simp only [hlen, Bool.false_eq_true, if_false, checkClauses_true_iff, ne_eq, he,
        not_false_eq_true, true_and]
      constructor
      · intro h c hc
        obtain ⟨m, lits, h1, h2⟩ := h c hc
        exact ⟨m, lits, h1, (foundComplementary_extract_iff h1).1 h2⟩
      · intro h c hc
        obtain ⟨m, lits, h1, h2⟩ := h c hc
        exact ⟨m, lits, h1, (foundComplementary_extract_iff h1).2 h2⟩

/-! ## Completeness of the complementary-pair check on CNF-shaped trees -/

theorem getTruthValue_map (f : Char → Int) (vars : List Char) (v : Char) (hv : v ∈ vars) :
    getTruthValue v (vars.map fun x => (x, f x)) = f v := by
  induction vars with
  | nil => simp at hv
  | cons w rest ih =>
    by_cases h : w = v
    · subst h; simp [getTruthValue]
    · have hv2 : v ∈ rest := by
        rcases List.mem_cons.1 hv with h1 | h1
        · exact absurd h1.symm h
        · exact h1
      simp [getTruthValue, h, ih hv2]

theorem assignsAll_of_forall (A : Assignment) : ∀ (t : Tree),
    (∀ v ∈ varsOf t, getTruthValue v A = 0 ∨ getTruthValue v A = 1) →
    assignsAll A t = true := by
  intro t
  induction t with
  | nil => intro _; rfl
  | node v l r ihl ihr =>
    intro h
    simp only [varsOf, List.mem_append] at h
    simp only [assignsAll, Bool.and_eq_true, Bool.or_eq_true, beq_iff_eq]
    refine ⟨⟨?_, ihl (fun w hw => h w (Or.inl (Or.inr hw)))⟩,
      ihr (fun w hw => h w (Or.inr hw))⟩
    by_cases hop : isOperator v = true
    · exact Or.inl (Or.inl hop)
    · have := h v (Or.inl (Or.inl (by simp [hop])))
      rcases this with h0 | h1
      · exact Or.inl (Or.inr h0)
      · exact Or.inr h1

theorem clausesOf_spec : ∀ (t : Tree), isCNF t = true →
    clausesOf t ≠ [] ∧
    ∀ c ∈ clausesOf t, isClause c = true ∧
      (∀ A, evaluateFormula c A = 0 → evaluateFormula t A = 0) ∧
      (∀ v ∈ varsOf c, v ∈ varsOf t) := by
  intro t
  induction t with
  | nil => intro h; simp [isCNF] at h
  | node v l r ihl ihr =>
    intro h
    by_cases hv : v = '*'
    · subst hv
      rw [isCNF_star] at h
      simp only [Bool.and_eq_true] at h
      obtain ⟨a1, a2⟩ := ihl h.1
      obtain ⟨b1, b2⟩ := ihr h.2
      obtain ⟨wr, -⟩ := isCNF_spec r h.2
      refine ⟨by simp [clausesOf, a1], ?_⟩
      intro c hc
      simp only [clausesOf, beq_self_eq_true, if_true, List.mem_append] at hc
      rcases hc with hc | hc
      · obtain ⟨c1, c2, c3⟩ := a2 c hc
        refine ⟨c1, ?_, ?_⟩
        · intro A hA
          rw [evaluateFormula_star _ _ _ wr, c2 A hA]
          simp [cAnd]
        · intro w hw
          simp only [varsOf, List.mem_append]
          exact Or.inl (Or.inr (c3 w hw))
      · obtain ⟨c1, c2, c3⟩ := b2 c hc
        refine ⟨c1, ?_, ?_⟩
        · intro A hA
          rw [evaluateFormula_star _ _ _ wr, c2 A hA]
          simp [cAnd]
        · intro w hw
          simp only [varsOf, List.mem_append]
          exact Or.inr (c3 w hw)
    · have hv2 : (v == '*') = false := by simp [hv]
      simp only [isCNF, hv2, Bool.false_eq_true, if_false] at h
      simp only [clausesOf, hv2, Bool.false_eq_true, if_false]
      refine ⟨by simp, ?_⟩
      intro c hc
      simp only [List.mem_singleton] at hc
      subst hc
      exact ⟨h, fun _ hA => hA, fun _ hw => hw⟩

theorem evaluateFormula_not (l r : Tree) (A : Assignment) :
    evaluateFormula (node '~' l r) A = cNot (evaluateFormula l A) := by
  simp [evaluateFormula, isOperator]

theorem evaluateFormula_var (v : Char) (l r : Tree) (A : Assignment)
    (hv : isOperator v = false) : evaluateFormula (node v l r) A = getTruthValue v A := by
  simp [evaluateFormula, hv]

theorem litsOf_subset_varsOf : ∀ (c : Tree) (w : Char) (b : Bool),
    (w, b) ∈ litsOf c → w ∈ varsOf c := by
  intro c
  induction c with
  | nil => intro w b h; simp [litsOf] at h
  | node v l r ihl ihr =>
    intro w b h
    simp only [varsOf, List.mem_append]
    by_cases hp : v = '+'
    · subst hp
      simp only [litsOf, beq_self_eq_true, if_true, List.mem_append] at h
      rcases h with h | h
      · exact Or.inl (Or.inr (ihl w b h))
      · exact Or.inr (ihr w b h)
    · have hp2 : (v == '+') = false := by simp [hp]
      by_cases hn : v = '~'
      · subst hn
        simp only [litsOf, hp2, Bool.false_eq_true, if_false, beq_self_eq_true, if_true] at h
        cases l with
        | nil => simp at h
        | node lv ll lr =>
          by_cases hop : isOperator lv = true
          · simp [hop, valueOf] at h
          · simp only [Bool.not_eq_true] at hop
            simp [hop, valueOf] at h
            left; right
            simp [varsOf, hop, h.1]
      · have hn2 : (v == '~') = false := by simp [hn]
        simp only [litsOf, hp2, hn2, Bool.false_eq_true, if_false] at h
        by_cases hop : isOperator v = true
        · simp [hop] at h
        · simp only [Bool.not_eq_true] at hop
          simp [hop] at h
          left; left
          simp [hop, h.1]

theorem isClause_evaluates_zero (A : Assignment) : ∀ (d : Tree), isClause d = true →
    (∀ v, (v, false) ∈ litsOf d → getTruthValue v A = 0) →
    (∀ v, (v, true) ∈ litsOf d → getTruthValue v A ≠ 0) →
    evaluateFormula d A = 0 := by
  intro d
  induction d with
  | nil => intro h; simp [isClause] at h
  | node v l r ihl ihr =>
    intro h hp hn
    by_cases hv : v = '+'
    · subst hv
      rw [isClause_plus] at h
      simp only [Bool.and_eq_true] at h
      obtain ⟨wr, -⟩ := isClause_spec r h.2
      simp only [litsOf, beq_self_eq_true, if_true, List.mem_append] at hp hn
      rw [evaluateFormula_plus _ _ _ wr,
        ihl h.1 (fun w hw => hp w (Or.inl hw)) (fun w hw => hn w (Or.inl hw)),
        ihr h.2 (fun w hw => hp w (Or.inr hw)) (fun w hw => hn w (Or.inr hw))]
      simp [cOr]
    · have hv2 : (v == '+') = false := by simp [hv]
      simp only [isClause, hv2, Bool.false_eq_true, if_false] at h
      simp only [isLiteral, Bool.or_eq_true, Bool.and_eq_true] at h
      rcases h with h | ⟨⟨h1, h2⟩, h3⟩
      · obtain ⟨w, hw, e⟩ := (isVarLeaf_iff _).1 h
        injection e with e1 e2 e3
        subst e1; subst e2; subst e3
        obtain ⟨n1, n2, n3, n4⟩ := not_operator_ne hw
        have := hp v (by simp [litsOf, n1, n2, hw])
        simp [evaluateFormula, hw, this]
      · simp only [hasValue_node, beq_iff_eq] at h1
        subst h1
        simp only [leftOf_node] at h2
        obtain ⟨w, hw, rfl⟩ := (isVarLeaf_iff _).1 h2
        have := hn w (by simp [litsOf, valueOf, hw])
        rw [evaluateFormula_not, evaluateFormula_var _ _ _ _ hw]
        simp [cNot, this]

theorem isValidCNF_false_falsifiable (t : Tree) (hc : isCNF t = true)
    (hv : isValidCNF t = some false) :
    ∃ c ∈ clausesOf t, assignsAll (falsifier c t) t = true ∧
      evaluateFormula t (falsifier c t) = 0 := by
  obtain ⟨hne, hcl⟩ := clausesOf_spec t hc
  cases t with
  | nil => simp [isCNF] at hc
  | node v l r =>
    simp only [isValidCNF, extractClauses_eq _ [] 100 (by simp), List.nil_append] at hv
    have hlen : ((List.take 100 (clausesOf (node v l r))).length == 0) = false := by
      cases hcs : clausesOf (node v l r) with
      | nil => exact absurd hcs hne
      | cons a rest => simp
    simp only [hlen, Bool.false_eq_true, if_false] at hv
    obtain ⟨c, hcmem, m, lits, hex, hfound⟩ := checkClauses_false _ hv
    have hcmem2 : c ∈ clausesOf (node v l r) := List.mem_of_mem_take hcmem
    obtain ⟨c1, c2, c3⟩ := hcl c hcmem2
    have hval : ∀ w ∈ varsOf (node v l r),
        getTruthValue w (falsifier c (node v l r)) =
          if (w, true) ∈ litsOf c then 1 else 0 := by
      intro w hw
      exact getTruthValue_map (fun x => if (x, true) ∈ litsOf c then 1 else 0) _ w hw
    have hvars : ∀ w b, (w, b) ∈ litsOf c → w ∈ varsOf (node v l r) := by
      intro w b hwb
      apply c3
      exact litsOf_subset_varsOf c w b hwb
    refine ⟨c, hcmem2, ?_, ?_⟩
    · apply assignsAll_of_forall
      intro w hw
      rw [hval w hw]
      split <;> simp
    · apply c2
      apply isClause_evaluates_zero _ c c1
      · intro w hw
        rw [hval w (hvars w false hw)]
        have : (w, true) ∉ litsOf c := by
          intro hn
          have := foundComplementary_of_both hex w hw hn
          rw [hfound] at this
          cases this
        simp [this]
      · intro w hw
        rw [hval w (hvars w true hw)]
        simp [hw]


/-- C3, at the failing input. The CNF of the formula `overCapacityPrefix` is
CNF-shaped and has 110 clauses; `isValidCNF` looks at the first 100 only and
returns true, although the CNF evaluates to 0 under the total assignment
`p = 1`, `q = 0`. -/
theorem isValidCNF_true_on_falsifiable_cnf :
    ((buildTreeFromPrefix 60 overCapacityPrefix).bind (convertToCNF 60)).map
      (fun cnf => (isCNF cnf, (extractClauses cnf [] 100).length, (clausesOf cnf).length,
        isValidCNF cnf, assignsAll [('p', 1), ('q', 0)] cnf,
        evaluateFormula cnf [('p', 1), ('q', 0)])) =
      some (true, 100, 110, some true, true, 0) := by
  decide

/-! ## Prefix text round trip -/

theorem treeToPrefix_append : ∀ (t : Tree) (acc : List Char),
    treeToPrefix t acc = acc ++ treeToPrefix t [] := by
  intro t
  induction t with
  | nil => intro acc; simp [treeToPrefix]
  | node v l r ihl ihr =>
    intro acc
    simp only [treeToPrefix]
    rw [ihr, ihl, ihr (treeToPrefix l ([] ++ [v, ' '])), ihl ([] ++ [v, ' '])]
    simp

theorem treeToPrefix_node (v : Char) (l r : Tree) :
    treeToPrefix (node v l r) [] = v :: ' ' :: (treeToPrefix l [] ++ treeToPrefix r []) := by
  simp only [treeToPrefix]
  rw [treeToPrefix_append r, treeToPrefix_append l]
  simp

theorem prefixToTree_space (n : Nat) (s : List Char) :
    prefixToTree n (' ' :: s) = prefixToTree n s := by
  cases n with
  | zero => rfl
  | succ m => simp [prefixToTree, skipSpaces]

theorem skipSpaces_cons {c : Char} (hc : c ≠ ' ') (s : List Char) :
    skipSpaces (c :: s) = c :: s := by
  simp [skipSpaces, hc]

theorem operator_ne_misc {v : Char} (h : isOperator v = true) :
    v ≠ ' ' ∧ v ≠ '\x00' ∧ v ≠ '(' ∧ v ≠ ')' := by
  simp only [isOperator, Bool.or_eq_true, beq_iff_eq] at h
  rcases h with ((rfl | rfl) | rfl) | rfl <;> decide

theorem isBinaryOperator_of {v : Char} (h : isOperator v = true) (hn : v ≠ '~') :
    isBinaryOperator v = true := by
  simp only [isOperator, Bool.or_eq_true, beq_iff_eq] at h
  simp only [isBinaryOperator, Bool.or_eq_true, beq_iff_eq]
  tauto

theorem wellFormed_of_binary {v : Char} {l r : Tree} (h : isOperator v = true)
    (hn : v ≠ '~') (hwf : wellFormed (node v l r) = true) :
    wellFormed l = true ∧ wellFormed r = true := by
  simpa [wellFormed, h, hn] using hwf

theorem prefixToTree_text : ∀ (t : Tree), wellFormed t = true →
    (∀ v ∈ varsOf t, v ≠ ' ' ∧ v ≠ '\x00') →
    ∃ s, treeToPrefix t [] = s ++ [' '] ∧
      ∀ n rest, size t < n → prefixToTree n (s ++ rest) = some (t, rest) := by
  intro t
  induction t with
  | nil => intro h; simp [wellFormed] at h
  | node v l r ihl ihr =>
    intro hwf hvars
    simp only [varsOf, List.mem_append] at hvars
    by_cases hn : v = '~'
    · subst hn
      simp [wellFormed, isOperator, isNil_iff] at hwf
      obtain ⟨hwl, rfl⟩ := hwf
      obtain ⟨sl, el, pl⟩ := ihl hwl (fun w hw => hvars w (Or.inl (Or.inr hw)))
      refine ⟨'~' :: ' ' :: sl, ?_, ?_⟩
      · rw [treeToPrefix_node, el]; simp [treeToPrefix]
      · intro n rest hn
        cases n with
        | zero => omega
        | succ m =>
          simp only [size] at hn
          have := pl m rest (by omega)
          simp [prefixToTree, skipSpaces, isOperator, isBinaryOperator, prefixToTree_space,
            this]
    · by_cases hop : isOperator v = true
      · obtain ⟨hw1, hw2⟩ := wellFormed_of_binary hop hn hwf
        obtain ⟨m1, m2, -, -⟩ := operator_ne_misc hop
        have hb := isBinaryOperator_of hop hn
        obtain ⟨sl, el, pl⟩ := ihl hw1 (fun w hw => hvars w (Or.inl (Or.inr hw)))
        obtain ⟨sr, er, pr⟩ := ihr hw2 (fun w hw => hvars w (Or.inr hw))
        refine ⟨v :: ' ' :: (sl ++ ' ' :: sr), ?_, ?_⟩
        · rw [treeToPrefix_node, el, er]; simp
        · intro n rest hn
          cases n with
          | zero => omega
          | succ m =>
            simp only [size] at hn
            have h1 := pl m (' ' :: (sr ++ rest)) (by omega)
            have h2 := pr m rest (by omega)
            simp only [List.cons_append, List.append_assoc] at h1 ⊢
            simp [prefixToTree, skipSpaces, m1, m2, hop, hb, prefixToTree_space, h1, h2]
      · simp only [Bool.not_eq_true] at hop
        simp [wellFormed, hop, isNil_iff] at hwf
        obtain ⟨rfl, rfl⟩ := hwf
        have hv := hvars v (Or.inl (Or.inl (by simp [hop])))
        refine ⟨[v], ?_, ?_⟩
        · simp [treeToPrefix]
        · intro n rest hn
          cases n with
          | zero => omega
          | succ m =>
            simp [prefixToTree, skipSpaces, hv.1, hv.2, hop]


theorem prefixToTree_mono : ∀ (n : Nat) (s : List Char) (x : Tree × List Char),
    prefixToTree n s = some x → prefixToTree (n + 1) s = some x := by
  intro n
  induction n with
  | zero => intro s x h; simp [prefixToTree] at h
  | succ n ih =>
    intro s x h
    rw [prefixToTree] at h
    rw [prefixToTree]
    cases hs : skipSpaces s with
    | nil => simpa [hs] using h
    | cons c rest =>
      simp only [hs] at h ⊢
      by_cases h0 : (c == '\x00') = true
      · simpa [h0] using h
      · simp only [h0, Bool.false_eq_true, if_false] at h ⊢
        by_cases hop : isOperator c = true
        · simp only [hop, if_true] at h ⊢
          cases h1 : prefixToTree n rest with
          | none => simp [h1] at h
          | some y =>
            obtain ⟨l, s1⟩ := y
            simp only [h1] at h
            simp only [ih _ _ h1]
            by_cases hb : isBinaryOperator c = true
            · simp only [hb, if_true] at h ⊢
              cases h2 : prefixToTree n s1 with
              | none => simp [h2] at h
              | some z =>
                obtain ⟨r, s2⟩ := z
                simp only [h2] at h
                simp only [ih _ _ h2]
                exact h
            · simpa [hb] using h
        · simpa [hop] using h

theorem prefixToTree_mono_le (n m : Nat) (s : List Char) (x : Tree × List Char)
    (hnm : n ≤ m) (h : prefixToTree n s = some x) : prefixToTree m s = some x := by
  induction hnm with
  | refl => exact h
  | step _ ih => exact prefixToTree_mono _ _ _ ih

theorem buildTreeFromPrefix_unique {n m : Nat} {s : List Char} {r t : Tree}
    (h1 : buildTreeFromPrefix n s = some r) (h2 : buildTreeFromPrefix m s = some t) :
    r = t := by
  unfold buildTreeFromPrefix at h1 h2
  cases e1 : prefixToTree n s with
  | none => simp [e1] at h1
  | some x =>
    cases e2 : prefixToTree m s with
    | none => simp [e2] at h2
    | some y =>
      simp only [e1, e2, Option.map_some', Option.some.injEq] at h1 h2
      have a := prefixToTree_mono_le n (max n m) s x (le_max_left _ _) e1
      have b := prefixToTree_mono_le m (max n m) s y (le_max_right _ _) e2
      rw [a] at b
      injection b with b
      rw [← h1, ← h2, b]

theorem trimTrailingSpace_append_space (s : List Char) :
    trimTrailingSpace (s ++ [' ']) = s := by
  simp [trimTrailingSpace]

/-- C6. Prefix round trip: for every well-formed tree whose variable symbols are
neither space nor NUL (nor operators), `buildTreeFromPrefix` applied to the text
written by `treeToPrefix`, with or without its trailing space, returns the tree
itself as soon as the recursion budget exceeds the size of the tree, and never
returns anything else. -/
theorem prefix_round_trip (t : Tree) (hwf : wellFormed t = true)
    (hvars : ∀ v ∈ varsOf t, v ≠ ' ' ∧ v ≠ '\x00') (n : Nat) :
    (size t < n →
      buildTreeFromPrefix n (treeToPrefix t []) = some t ∧
      buildTreeFromPrefix n (trimTrailingSpace (treeToPrefix t [])) = some t) ∧
    (∀ r, buildTreeFromPrefix n (treeToPrefix t []) = some r → r = t) ∧
    (∀ r, buildTreeFromPrefix n (trimTrailingSpace (treeToPrefix t [])) = some r →
      r = t) := by
  obtain ⟨s, hs, hp⟩ := prefixToTree_text t hwf hvars
  have full : ∀ k, size t < k → buildTreeFromPrefix k (treeToPrefix t []) = some t := by
    intro k hk
    rw [hs]
    simp [buildTreeFromPrefix, hp k [' '] hk]
  have trimmed : ∀ k, size t < k →
      buildTreeFromPrefix k (trimTrailingSpace (treeToPrefix t [])) = some t := by
    intro k hk
    rw [hs, trimTrailingSpace_append_space]
    have := hp k [] hk
    simp only [List.append_nil] at this
    simp [buildTreeFromPrefix, this]
  refine ⟨fun hn => ⟨full n hn, trimmed n hn⟩, ?_, ?_⟩
  · intro r hr
    exact buildTreeFromPrefix_unique hr (full (size t + 1) (Nat.lt_succ_self _))
  · intro r hr
    exact buildTreeFromPrefix_unique hr (trimmed (size t + 1) (Nat.lt_succ_self _))

/-- Witness for C6: the tree of `((p>q)*(~r))` with budget 10. -/
theorem prefix_round_trip_witness :
    (wellFormed (node '*' (node '>' (createNode 'p') (createNode 'q'))
        (node '~' (createNode 'r') nil)) = true ∧
      ∀ v ∈ varsOf (node '*' (node '>' (createNode 'p') (createNode 'q'))
        (node '~' (createNode 'r') nil)), v ≠ ' ' ∧ v ≠ '\x00') ∧
    ((size (node '*' (node '>' (createNode 'p') (createNode 'q'))
        (node '~' (createNode 'r') nil)) < 10 →
      buildTreeFromPrefix 10 (treeToPrefix (node '*' (node '>' (createNode 'p')
        (createNode 'q')) (node '~' (createNode 'r') nil)) []) =
        some (node '*' (node '>' (createNode 'p') (createNode 'q'))
          (node '~' (createNode 'r') nil)) ∧
      buildTreeFromPrefix 10 (trimTrailingSpace (treeToPrefix (node '*' (node '>'
        (createNode 'p') (createNode 'q')) (node '~' (createNode 'r') nil)) [])) =
        some (node '*' (node '>' (createNode 'p') (createNode 'q'))
          (node '~' (createNode 'r') nil))) ∧
    (∀ r, buildTreeFromPrefix 10 (treeToPrefix (node '*' (node '>' (createNode 'p')
        (createNode 'q')) (node '~' (createNode 'r') nil)) []) = some r →
      r = node '*' (node '>' (createNode 'p') (createNode 'q'))
        (node '~' (createNode 'r') nil)) ∧
    (∀ r, buildTreeFromPrefix 10 (trimTrailingSpace (treeToPrefix (node '*' (node '>'
        (createNode 'p') (createNode 'q')) (node '~' (createNode 'r') nil)) [])) = some r →
      r = node '*' (node '>' (createNode 'p') (createNode 'q'))
        (node '~' (createNode 'r') nil))) ∧
    treeToPrefix (node '*' (node '>' (createNode 'p') (createNode 'q'))
      (node '~' (createNode 'r') nil)) [] = "* > p q ~ r ".toList :=
  ⟨⟨by decide, by decide⟩, prefix_round_trip _ (by decide) (by decide) 10, by decide⟩


/-! ## Infix text round trip -/

theorem inorderTraversal_append : ∀ (t : Tree) (out : List Char),
    inorderTraversal t out = out ++ inorderTraversal t [] := by
  intro t
  induction t with
  | nil => intro out; simp [inorderTraversal]
  | node v l r ihl ihr =>
    intro out
    by_cases hn : v = '~'
    · subst hn
      simp only [inorderTraversal, isOperator, beq_self_eq_true, Bool.or_true, Bool.true_or,
        if_true]
      rw [ihl (out ++ ['('] ++ ['~']), ihl ([] ++ ['('] ++ ['~'])]
      simp
    · have hn2 : (v == '~') = false := by simp [hn]
      by_cases hop : isOperator v = true
      · simp only [inorderTraversal, hop, if_true, hn2, Bool.false_eq_true, if_false]
        rw [ihr, ihl (out ++ ['(']), ihr (inorderTraversal l ([] ++ ['(']) ++ [v]),
          ihl ([] ++ ['('])]
        simp
      · simp only [inorderTraversal, hop, Bool.false_eq_true, if_false, hn2]
        rw [ihr, ihl out, ihr (inorderTraversal l [] ++ [v])]
        simp

theorem inorderTraversal_leaf {v : Char} (hop : isOperator v = false) :
    inorderTraversal (node v nil nil) [] = [v] := by
  obtain ⟨n1, -, -, -⟩ := not_operator_ne hop
  simp [inorderTraversal, hop, n1]

theorem inorderTraversal_not (l : Tree) :
    inorderTraversal (node '~' l nil) [] = '(' :: '~' :: (inorderTraversal l [] ++ [')']) := by
  simp only [inorderTraversal, isOperator, beq_self_eq_true, Bool.or_true, Bool.true_or,
    if_true]
  rw [inorderTraversal_append]
  simp

theorem inorderTraversal_binary {v : Char} (hop : isOperator v = true) (hn : v ≠ '~')
    (l r : Tree) :
    inorderTraversal (node v l r) [] =
      '(' :: (inorderTraversal l [] ++ v :: (inorderTraversal r [] ++ [')'])) := by
  have hn2 : (v == '~') = false := by simp [hn]
  simp only [inorderTraversal, hop, if_true, hn2, Bool.false_eq_true, if_false]
  rw [inorderTraversal_append r, inorderTraversal_append l]
  simp

theorem ParenDrop.of_cons {a b : List Char} (h : ParenDrop a (')' :: b)) : ParenDrop a b := by
  generalize hb : ')' :: b = b1 at h
  induction h with
  | refl s => subst hb; exact ParenDrop.step (ParenDrop.refl _)
  | step _ ih => exact ParenDrop.step (ih hb)

theorem skipChar_cons_self (c : Char) (hc : c ≠ '\x00') (s : List Char) :
    skipChar c (c :: s) = s := by
  simp [skipChar, atEnd, cur, hc]

theorem skipChar_of_ne (c : Char) (s : List Char) (h : cur s ≠ c) : skipChar c s = s := by
  simp [skipChar, h]

theorem ParenDrop.skip {a b : List Char} (h : ParenDrop a b) :
    ParenDrop a (skipChar ')' b) := by
  cases b with
  | nil => simpa [skipChar, atEnd, cur] using h
  | cons c rest =>
    by_cases hc : c = ')'
    · subst hc
      rw [skipChar_cons_self _ (by decide)]
      exact h.of_cons
    · rw [skipChar_of_ne _ _ (by simpa [cur] using hc)]
      exact h

theorem ParenDrop.skip_cons {a b : List Char} (h : ParenDrop (')' :: a) b) :
    ParenDrop a (skipChar ')' b) := by
  cases h with
  | refl => rw [skipChar_cons_self _ (by decide)]; exact ParenDrop.refl _
  | step h2 => exact h2.skip

theorem ParenDrop.eq_of_ne {a b : List Char} (h : ParenDrop a b) (hc : cur a ≠ ')') :
    b = a := by
  cases h with
  | refl => rfl
  | step _ => simp [cur] at hc


theorem parse_leaf_operand {v : Char} (hop : isOperator v = false) (h0 : v ≠ '\x00')
    (h1 : v ≠ '(') (n : Nat) (rest : List Char) :
    parseOperand (n + 1) (v :: rest) = some (node v nil nil, rest) := by
  obtain ⟨n1, -, -, -⟩ := not_operator_ne hop
  simp [parseOperand, atEnd, cur, h0, h1, n1, createNode]

theorem parse_leaf_expression {v : Char} (hop : isOperator v = false) (h0 : v ≠ '\x00')
    (h1 : v ≠ '(') (n : Nat) (rest : List Char)
    (hrest : isBinaryOperator (cur rest) = false) :
    parseExpression (n + 2) (v :: rest) = some (node v nil nil, skipChar ')' rest) := by
  obtain ⟨n1, -, -, -⟩ := not_operator_ne hop
  rw [parseExpression]
  have hs : skipChar '(' (v :: rest) = v :: rest := skipChar_of_ne _ _ (by simpa [cur] using h1)
  simp only [hs]
  have hc : (!atEnd (v :: rest) && cur (v :: rest) == '~') = false := by
    simp [cur, n1]
  simp only [hc, Bool.false_eq_true, if_false, parse_leaf_operand hop h0 h1, hrest,
    Bool.and_false]

theorem parse_not_expression (n : Nat) (s rest2 : List Char) (sub : Tree)
    (h : parseExpression n s = some (sub, rest2)) :
    parseExpression (n + 1) ('(' :: '~' :: s) = some (node '~' sub nil, skipChar ')' rest2) := by
  rw [parseExpression]
  have hs : skipChar '(' ('(' :: '~' :: s) = '~' :: s := skipChar_cons_self _ (by decide) _
  simp only [hs]
  have hc : (!atEnd ('~' :: s) && cur ('~' :: s) == '~') = true := by
    simp [atEnd, cur]
  simp only [hc, if_true, List.tail_cons, h]

theorem parse_binary_expression (n : Nat) {v : Char} (hop : isOperator v = true)
    (hn : v ≠ '~') (s1 s2 rest3 : List Char) (c : Char) (tl : List Char)
    (hs1 : s1 = c :: tl) (hc1 : c ≠ '~') (left right : Tree)
    (hl : parseOperand n (s1 ++ v :: s2) = some (left, v :: s2))
    (hr : parseOperand n s2 = some (right, rest3)) :
    parseExpression (n + 1) ('(' :: (s1 ++ v :: s2)) =
      some (node v left right, skipChar ')' rest3) := by
  obtain ⟨-, m2, -, -⟩ := operator_ne_misc hop
  have hb := isBinaryOperator_of hop hn
  rw [parseExpression]
  have hs : skipChar '(' ('(' :: (s1 ++ v :: s2)) = s1 ++ v :: s2 :=
    skipChar_cons_self _ (by decide) _
  simp only [hs]
  have hc : (!atEnd (s1 ++ v :: s2) && cur (s1 ++ v :: s2) == '~') = false := by
    subst hs1
    simp [cur, hc1]
  have hc2 : (!atEnd (v :: s2) && isBinaryOperator (cur (v :: s2))) = true := by
    simp [atEnd, cur, m2, hb]
  simp only [hc, Bool.false_eq_true, if_false, hl, hc2, if_true, List.tail_cons, hr]
  simp [cur]

theorem parse_group_operand (n : Nat) (s : List Char) (x : Tree × List Char)
    (h : parseExpression n ('(' :: s) = some x) :
    parseOperand (n + 1) ('(' :: s) = some x := by
  rw [parseOperand]
  have h1 : atEnd ('(' :: s) = false := by simp [atEnd, cur]
  simp [h1, cur, h]

theorem inorderTraversal_head : ∀ (t : Tree), wellFormed t = true →
    (∀ v ∈ varsOf t, v ≠ '(' ∧ v ≠ ')' ∧ v ≠ '\x00') →
    ∃ c tl, inorderTraversal t [] = c :: tl ∧ c ≠ '~' := by
  intro t hwf hvars
  cases t with
  | nil => simp [wellFormed] at hwf
  | node v l r =>
    by_cases hn : v = '~'
    · subst hn
      simp [wellFormed, isOperator, isNil_iff] at hwf
      obtain ⟨-, rfl⟩ := hwf
      exact ⟨'(', _, inorderTraversal_not l, by decide⟩
    · by_cases hop : isOperator v = true
      · exact ⟨'(', _, inorderTraversal_binary hop hn l r, by decide⟩
      · simp only [Bool.not_eq_true] at hop
        simp [wellFormed, hop, isNil_iff] at hwf
        obtain ⟨rfl, rfl⟩ := hwf
        exact ⟨v, [], inorderTraversal_leaf hop, hn⟩

theorem parse_inorder : ∀ (t : Tree), wellFormed t = true →
    (∀ v ∈ varsOf t, v ≠ '(' ∧ v ≠ ')' ∧ v ≠ '\x00') →
    (∀ n rest, 2 * size t ≤ n →
      (isOperator (valueOf t) = true ∨ isBinaryOperator (cur rest) = false) →
      ∃ rest2, parseExpression n (inorderTraversal t [] ++ rest) = some (t, rest2) ∧
        ParenDrop rest rest2) ∧
    (∀ n rest, 2 * size t + 1 ≤ n →
      ∃ rest2, parseOperand n (inorderTraversal t [] ++ rest) = some (t, rest2) ∧
        ParenDrop rest rest2) := by
  intro t
  induction t with
  | nil => intro h; simp [wellFormed] at h
  | node v l r ihl ihr =>
    intro hwf hvars
    simp only [varsOf, List.mem_append] at hvars
    by_cases hn : v = '~'
    · subst hn
      simp [wellFormed, isOperator, isNil_iff] at hwf
      obtain ⟨hwl, rfl⟩ := hwf
      obtain ⟨el, -⟩ := ihl hwl (fun w hw => hvars w (Or.inl (Or.inr hw)))
      have hE : ∀ n rest, 2 * size (node '~' l nil) ≤ n →
          ∃ rest2, parseExpression n (inorderTraversal (node '~' l nil) [] ++ rest) =
            some (node '~' l nil, rest2) ∧ ParenDrop rest rest2 := by
        intro n rest hfuel
        simp only [size] at hfuel
        obtain ⟨m, rfl⟩ : ∃ m, n = m + 1 := ⟨n - 1, by omega⟩
        obtain ⟨r2, h2, pd⟩ := el m (')' :: rest) (by omega)
          (Or.inr (by simp [cur, isBinaryOperator]))
        refine ⟨skipChar ')' r2, ?_, pd.skip_cons⟩
        rw [inorderTraversal_not]
        simp only [List.cons_append, List.append_assoc, List.singleton_append]
        exact parse_not_expression m _ r2 l h2
      refine ⟨fun n rest hfuel _ => hE n rest hfuel, ?_⟩
      intro n rest hfuel
      obtain ⟨m, rfl⟩ : ∃ m, n = m + 1 := ⟨n - 1, by omega⟩
      obtain ⟨r2, h2, pd⟩ := hE m rest (by omega)
      refine ⟨r2, ?_, pd⟩
      rw [inorderTraversal_not] at h2 ⊢
      exact parse_group_operand m _ _ h2
    · by_cases hop : isOperator v = true
      · obtain ⟨hw1, hw2⟩ := wellFormed_of_binary hop hn hwf
        obtain ⟨-, ol⟩ := ihl hw1 (fun w hw => hvars w (Or.inl (Or.inr hw)))
        obtain ⟨-, or⟩ := ihr hw2 (fun w hw => hvars w (Or.inr hw))
        obtain ⟨-, -, -, m4⟩ := operator_ne_misc hop
        obtain ⟨c, tl, hc, hc1⟩ := inorderTraversal_head l hw1
          (fun w hw => hvars w (Or.inl (Or.inr hw)))
        have hE : ∀ n rest, 2 * size (node v l r) ≤ n →
            ∃ rest2, parseExpression n (inorderTraversal (node v l r) [] ++ rest) =
              some (node v l r, rest2) ∧ ParenDrop rest rest2 := by
          intro n rest hfuel
          simp only [size] at hfuel
          obtain ⟨m, rfl⟩ : ∃ m, n = m + 1 := ⟨n - 1, by omega⟩
          obtain ⟨r1, h1, pd1⟩ := ol m (v :: (inorderTraversal r [] ++ ')' :: rest))
            (by omega)
          have e1 := pd1.eq_of_ne (by simpa [cur] using m4)
          subst e1
          obtain ⟨r3, h3, pd3⟩ := or m (')' :: rest) (by omega)
          refine ⟨skipChar ')' r3, ?_, pd3.skip_cons⟩
          rw [inorderTraversal_binary hop hn]
          simp only [List.cons_append, List.append_assoc, List.singleton_append]
          exact parse_binary_expression m hop hn _ _ r3 c tl hc hc1 l r h1 h3
        refine ⟨fun n rest hfuel _ => hE n rest hfuel, ?_⟩
        intro n rest hfuel
        obtain ⟨m, rfl⟩ : ∃ m, n = m + 1 := ⟨n - 1, by omega⟩
        obtain ⟨r2, h2, pd⟩ := hE m rest (by omega)
        refine ⟨r2, ?_, pd⟩
        rw [inorderTraversal_binary hop hn] at h2 ⊢
        exact parse_group_operand m _ _ h2
      · simp only [Bool.not_eq_true] at hop
        simp [wellFormed, hop, isNil_iff] at hwf
        obtain ⟨rfl, rfl⟩ := hwf
        obtain ⟨g1, g2, g3⟩ := hvars v (Or.inl (Or.inl (by simp [hop])))
        rw [inorderTraversal_leaf hop]
        constructor
        · intro n rest hfuel hrest
          simp only [size] at hfuel
          obtain ⟨m, rfl⟩ : ∃ m, n = m + 2 := ⟨n - 2, by omega⟩
          rcases hrest with hrest | hrest
          · simp [valueOf, hop] at hrest
          · exact ⟨_, parse_leaf_expression hop g3 g1 m rest hrest,
              (ParenDrop.refl rest).skip⟩
        · intro n rest hfuel
          obtain ⟨m, rfl⟩ : ∃ m, n = m + 1 := ⟨n - 1, by omega⟩
          exact ⟨rest, parse_leaf_operand hop g3 g1 m rest, ParenDrop.refl rest⟩


theorem parse_mono : ∀ (n : Nat),
    (∀ s x, parseOperand n s = some x → parseOperand (n + 1) s = some x) ∧
    (∀ s x, parseExpression n s = some x → parseExpression (n + 1) s = some x) := by
  intro n
  induction n with
  | zero =>
    constructor
    · intro s x h; simp [parseOperand] at h
    · intro s x h; simp [parseExpression] at h
  | succ n ih =>
    obtain ⟨ihO, ihE⟩ := ih
    constructor
    · intro s x h
      rw [parseOperand] at h
      rw [parseOperand]
      by_cases h1 : atEnd s = true
      · simpa [h1] using h
      · simp only [h1, Bool.false_eq_true, if_false] at h ⊢
        by_cases h2 : (cur s == '(') = true
        · simp only [h2, if_true] at h ⊢
          exact ihE _ _ h
        · simp only [h2, Bool.false_eq_true, if_false] at h ⊢
          by_cases h3 : (cur s == '~') = true
          · simp only [h3, if_true] at h ⊢
            exact ihE _ _ h
          · simpa [h3] using h
    · intro s x h
      rw [parseExpression] at h
      rw [parseExpression]
      by_cases h1 : (!atEnd (skipChar '(' s) && cur (skipChar '(' s) == '~') = true
      · simp only [h1, if_true] at h ⊢
        cases h2 : parseExpression n (skipChar '(' s).tail with
        | none => simp [h2] at h
        | some y =>
          obtain ⟨sub, s2⟩ := y
          simp only [h2] at h
          simp only [ihE _ _ h2]
          exact h
      · simp only [h1, Bool.false_eq_true, if_false] at h ⊢
        cases h2 : parseOperand n (skipChar '(' s) with
        | none => simp [h2] at h
        | some y =>
          obtain ⟨left, s2⟩ := y
          simp only [h2] at h
          simp only [ihO _ _ h2]
          by_cases h3 : (!atEnd s2 && isBinaryOperator (cur s2)) = true
          · simp only [h3, if_true] at h ⊢
            cases h4 : parseOperand n s2.tail with
            | none => simp [h4] at h
            | some z =>
              obtain ⟨right, s3⟩ := z
              simp only [h4] at h
              simp only [ihO _ _ h4]
              exact h
          · simp only [h3, Bool.false_eq_true, if_false] at h ⊢
            exact h

theorem parseExpression_mono_le (n m : Nat) (s : List Char) (x : Tree × List Char)
    (hnm : n ≤ m) (h : parseExpression n s = some x) : parseExpression m s = some x := by
  induction hnm with
  | refl => exact h
  | step _ ih => exact (parse_mono _).2 _ _ ih

theorem buildParseTree_unique {n m : Nat} {s : List Char} {r t : Tree}
    (h1 : buildParseTree n s = some r) (h2 : buildParseTree m s = some t) : r = t := by
  unfold buildParseTree at h1 h2
  cases e1 : parseExpression n s with
  | none => simp [e1] at h1
  | some x =>
    cases e2 : parseExpression m s with
    | none => simp [e2] at h2
    | some y =>
      simp only [e1, e2, Option.map_some', Option.some.injEq] at h1 h2
      have a := parseExpression_mono_le n (max n m) s x (le_max_left _ _) e1
      have b := parseExpression_mono_le m (max n m) s y (le_max_right _ _) e2
      rw [a] at b
      injection b with b
      rw [← h1, ← h2, b]

/-- C8. Infix round trip: for every well-formed tree whose variable symbols are
none of `(`, `)`, NUL (nor operators), `buildParseTree` applied to the fully
parenthesized text printed by `inorderTraversal` returns the tree itself as soon
as the recursion budget is at least twice the size of the tree, and never
returns anything else. -/
theorem infix_round_trip (t : Tree) (hwf : wellFormed t = true)
    (hvars : ∀ v ∈ varsOf t, v ≠ '(' ∧ v ≠ ')' ∧ v ≠ '\x00') (n : Nat) :
    (2 * size t ≤ n → buildParseTree n (inorderTraversal t []) = some t) ∧
    (∀ r, buildParseTree n (inorderTraversal t []) = some r → r = t) := by
  have full : ∀ k, 2 * size t ≤ k → buildParseTree k (inorderTraversal t []) = some t := by
    intro k hk
    obtain ⟨r2, h2, -⟩ := (parse_inorder t hwf hvars).1 k [] hk
      (Or.inr (by simp [cur, isBinaryOperator]))
    simp only [List.append_nil] at h2
    simp [buildParseTree, h2]
  exact ⟨full n, fun r hr => buildParseTree_unique hr (full (2 * size t) (le_refl _))⟩

/-- Witness for C8: the tree of `((~(~p))+(q*(~r)))` with budget 20. -/
theorem infix_round_trip_witness :
    (wellFormed (node '+' (node '~' (node '~' (createNode 'p') nil) nil)
        (node '*' (createNode 'q') (node '~' (createNode 'r') nil))) = true ∧
      ∀ v ∈ varsOf (node '+' (node '~' (node '~' (createNode 'p') nil) nil)
        (node '*' (createNode 'q') (node '~' (createNode 'r') nil))),
        v ≠ '(' ∧ v ≠ ')' ∧ v ≠ '\x00') ∧
    ((2 * size (node '+' (node '~' (node '~' (createNode 'p') nil) nil)
        (node '*' (createNode 'q') (node '~' (createNode 'r') nil))) ≤ 20 →
      buildParseTree 20 (inorderTraversal (node '+' (node '~' (node '~' (createNode 'p')
        nil) nil) (node '*' (createNode 'q') (node '~' (createNode 'r') nil))) []) =
        some (node '+' (node '~' (node '~' (createNode 'p') nil) nil)
          (node '*' (createNode 'q') (node '~' (createNode 'r') nil)))) ∧
    (∀ r, buildParseTree 20 (inorderTraversal (node '+' (node '~' (node '~'
        (createNode 'p') nil) nil) (node '*' (createNode 'q') (node '~' (createNode 'r')
        nil))) []) = some r →
      r = node '+' (node '~' (node '~' (createNode 'p') nil) nil)
        (node '*' (createNode 'q') (node '~' (createNode 'r') nil)))) ∧
    inorderTraversal (node '+' (node '~' (node '~' (createNode 'p') nil) nil)
      (node '*' (createNode 'q') (node '~' (createNode 'r') nil))) [] =
      "((~(~p))+(q*(~r)))".toList :=
  ⟨⟨by decide, by decide⟩, infix_round_trip _ (by decide) (by decide) 20, by decide⟩


/-! ## Decimal text of numbers -/

theorem digitChar_facts (d : Nat) (h : d < 10) :
    isDigit (digitChar d) = true ∧ digitVal (digitChar d) = d ∧
    digitChar d ≠ '\x00' ∧ digitChar d ≠ '\n' ∧ isDelim (digitChar d) = false ∧
    isSpace (digitChar d) = false ∧ digitChar d ≠ '-' ∧ digitChar d ≠ '+' ∧
    digitChar d ≠ 'c' ∧ digitChar d ≠ '%' ∧ (1 ≤ d → digitChar d ≠ '0') := by
  interval_cases d <;> decide

theorem spanDigits_append (xs ys : List Char) (hx : allDigits xs) : ∀ (acc : Nat),
    spanDigits (xs ++ ys) acc = spanDigits ys (spanDigits xs acc).1 := by
  induction xs with
  | nil => intro acc; simp [spanDigits]
  | cons c rest ih =>
    intro acc
    obtain ⟨d, hd, rfl⟩ := hx c (List.mem_cons_self _ _)
    have hdig := (digitChar_facts d hd).1
    simp only [List.cons_append, spanDigits, hdig, if_true]
    exact ih (fun c hc => hx c (List.mem_cons_of_mem _ hc)) _

theorem natToTextAux_spec : ∀ (fuel n : Nat), n < fuel →
    allDigits (natToTextAux fuel n) ∧ natToTextAux fuel n ≠ [] ∧
    (spanDigits (natToTextAux fuel n) 0).1 = n ∧
    (1 ≤ n → ∃ d tl, 1 ≤ d ∧ d < 10 ∧ natToTextAux fuel n = digitChar d :: tl) := by
  intro fuel
  induction fuel with
  | zero => intro n h; omega
  | succ fuel ih =>
    intro n h
    rw [natToTextAux]
    by_cases h10 : n < 10
    · simp only [h10, if_true]
      refine ⟨?_, by simp, ?_, ?_⟩
      · intro c hc
        simp only [List.mem_singleton] at hc
        exact ⟨n, h10, hc⟩
      · simp [spanDigits, (digitChar_facts n h10).1, (digitChar_facts n h10).2.1]
      · intro h1
        exact ⟨n, [], h1, h10, rfl⟩
    · simp only [h10, if_false]
      have hdiv : n / 10 < fuel := by omega
      have hmod : n % 10 < 10 := Nat.mod_lt _ (by omega)
      obtain ⟨a1, a2, a3, a4⟩ := ih (n / 10) hdiv
      refine ⟨?_, by simp, ?_, ?_⟩
      · intro c hc
        rcases List.mem_append.1 hc with hc | hc
        · exact a1 c hc
        · simp only [List.mem_singleton] at hc
          exact ⟨n % 10, hmod, hc⟩
      · rw [spanDigits_append _ _ a1, a3]
        simp [spanDigits, (digitChar_facts _ hmod).1, (digitChar_facts _ hmod).2.1]
        omega
      · intro _
        obtain ⟨d, tl, d1, d2, e⟩ := a4 (by omega)
        exact ⟨d, tl ++ [digitChar (n % 10)], d1, d2, by rw [e]; rfl⟩

theorem natToText_spec (n : Nat) :
    allDigits (natToText n) ∧ natToText n ≠ [] ∧ (spanDigits (natToText n) 0).1 = n ∧
    (1 ≤ n → ∃ d tl, 1 ≤ d ∧ d < 10 ∧ natToText n = digitChar d :: tl) :=
  natToTextAux_spec (n + 1) n (Nat.lt_succ_self _)

theorem natToText_head (n : Nat) : ∃ d tl, d < 10 ∧ natToText n = digitChar d :: tl := by
  obtain ⟨a1, a2, -, -⟩ := natToText_spec n
  cases h : natToText n with
  | nil => exact absurd h a2
  | cons c tl =>
    obtain ⟨d, hd, rfl⟩ := a1 c (by rw [h]; exact List.mem_cons_self _ _)
    exact ⟨d, tl, hd, rfl⟩

theorem spanDigits_natToText (n : Nat) (rest : List Char)
    (hrest : isDigit (cur rest) = false) :
    spanDigits (natToText n ++ rest) 0 = (n, rest) := by
  obtain ⟨a1, -, a3, -⟩ := natToText_spec n
  rw [spanDigits_append _ _ a1, a3]
  cases rest with
  | nil => rfl
  | cons c tl =>
    have : isDigit c = false := by simpa [cur] using hrest
    simp [spanDigits, this]

theorem toCInt_of_inIntRange (z : Int) (hz : inIntRange z = true) :
    toCInt (decide (z < 0)) z.natAbs = z := by
  simp only [inIntRange, Bool.and_eq_true, decide_eq_true_eq] at hz
  unfold toCInt wrapInt
  by_cases h : z < 0
  · simp only [h, decide_True, if_true]
    have e : max (-((z.natAbs : Nat) : Int)) (-9223372036854775808) = z := by
      rw [max_eq_left (by omega)]; omega
    rw [e]; omega
  · simp only [h, decide_False, Bool.false_eq_true, if_false]
    have e : min ((z.natAbs : Nat) : Int) 9223372036854775807 = z := by
      rw [min_eq_left (by omega)]; omega
    rw [e]; omega

theorem scanInt_intToText (z : Int) (rest : List Char)
    (hrest : isDigit (cur rest) = false) (hz : inIntRange z = true) :
    scanInt (intToText z ++ rest) = some (z, rest) := by
  have hconv := toCInt_of_inIntRange z hz
  obtain ⟨d, tl, hd, hhead⟩ := natToText_head z.natAbs
  obtain ⟨f1, f2, f3, f4, f5, f6, f7, f8, -⟩ := digitChar_facts d hd
  have hsp := spanDigits_natToText z.natAbs rest hrest
  have hcur : cur (natToText z.natAbs ++ rest) = digitChar d := by
    rw [hhead]; rfl
  have hdrop : List.dropWhile isSpace (natToText z.natAbs ++ rest)
      = natToText z.natAbs ++ rest := by
    rw [hhead]; simp [List.dropWhile, f6]
  unfold intToText
  by_cases hz : z < 0
  · simp only [hz, if_true]
    have e1 : List.dropWhile isSpace ('-' :: natToText z.natAbs ++ rest)
        = '-' :: (natToText z.natAbs ++ rest) := by
      simp [List.dropWhile, isSpace]
    have e2 : cur ('-' :: (natToText z.natAbs ++ rest)) = '-' := rfl
    simp only [hz, decide_True] at hconv
    simp only [scanInt, e1, e2, beq_self_eq_true, Bool.true_or, if_true, List.tail_cons,
      hcur, f1, hsp, hconv]
  · simp only [hz, if_false]
    have g1 : (digitChar d == '-') = false := by simp [f7]
    have g2 : (digitChar d == '+') = false := by simp [f8]
    simp only [hz, decide_False] at hconv
    simp only [scanInt, hdrop, hcur, g1, g2, Bool.or_false, Bool.false_eq_true, if_false, f1,
      if_true, hsp, hconv]

theorem atoi_intToText (z : Int) (hz : inIntRange z = true) : atoi (intToText z) = z := by
  have := scanInt_intToText z [] (by decide) hz
  simp only [List.append_nil] at this
  simp [atoi, this]


theorem intToText_chars (z : Int) :
    ∀ c ∈ intToText z, isDelim c = false ∧ c ≠ '\x00' ∧ c ≠ '\n' := by
  intro c hc
  obtain ⟨a1, -, -, -⟩ := natToText_spec z.natAbs
  have hdig : ∀ c ∈ natToText z.natAbs, isDelim c = false ∧ c ≠ '\x00' ∧ c ≠ '\n' := by
    intro c hc
    obtain ⟨d, hd, rfl⟩ := a1 c hc
    obtain ⟨-, -, f3, f4, f5, -⟩ := digitChar_facts d hd
    exact ⟨f5, f3, f4⟩
  unfold intToText at hc
  split at hc
  · rcases List.mem_cons.1 hc with rfl | hc
    · decide
    · exact hdig c hc
  · exact hdig c hc

theorem intToText_ne_nil (z : Int) : intToText z ≠ [] := by
  obtain ⟨-, a2, -, -⟩ := natToText_spec z.natAbs
  unfold intToText
  split
  · simp
  · exact a2

theorem intToText_head (z : Int) (hz : z ≠ 0) :
    ∃ c tl, intToText z = c :: tl ∧ c ≠ 'c' ∧ c ≠ '%' ∧ c ≠ '0' ∧ c ≠ '\x00' := by
  obtain ⟨-, -, -, a4⟩ := natToText_spec z.natAbs
  obtain ⟨d, tl, d1, d2, e⟩ := a4 (by omega)
  obtain ⟨-, -, f3, -, -, -, -, -, f9, f10, f11⟩ := digitChar_facts d d2
  unfold intToText
  split
  · exact ⟨'-', _, rfl, by decide, by decide, by decide, by decide⟩
  · exact ⟨digitChar d, tl, e, f9, f10, f11 d1, f3⟩

/-! ## Lines and tokens -/

theorem cString_eq_self (s : List Char) (h : ∀ c ∈ s, c ≠ '\x00') : cString s = s := by
  unfold cString
  rw [List.takeWhile_eq_self_iff]
  intro c hc
  simpa using h c hc

theorem fgetsLines_line (body rest : List Char) (hb : ∀ c ∈ body, c ≠ '\n') :
    ∀ (pending : List Char), pending.length + body.length + 1 ≤ 1023 →
    fgetsLines 1024 (body ++ '\n' :: rest) pending =
      (pending ++ body ++ ['\n']) :: fgetsLines 1024 rest [] := by
  induction body with
  | nil =>
    intro pending _
    simp [fgetsLines]
  | cons c tl ih =>
    intro pending hlen
    have hc : c ≠ '\n' := hb c (List.mem_cons_self _ _)
    simp only [List.length_cons] at hlen
    have hnot : ¬ (pending.length + 2 ≥ 1024) := by omega
    rw [List.cons_append, fgetsLines]
    simp only [beq_iff_eq, hc, hnot, decide_False, Bool.or_self, Bool.false_eq_true, if_false]
    rw [ih (fun x hx => hb x (List.mem_cons_of_mem _ hx)) (pending ++ [c])
      (by simp only [List.length_append, List.length_singleton]; omega)]
    simp [hc]

theorem strtokAll_token (w rest : List Char) (d : Char) (hd : isDelim d = true)
    (hw : ∀ c ∈ w, isDelim c = false) :
    ∀ (token : List Char), token ++ w ≠ [] →
    strtokAll (w ++ d :: rest) token = (token ++ w) :: strtokAll rest [] := by
  induction w with
  | nil =>
    intro token hne
    simp only [List.append_nil] at hne
    have : token.isEmpty = false := by
      cases token with
      | nil => exact absurd rfl hne
      | cons _ _ => rfl
    simp [strtokAll, hd, this]
  | cons c tl ih =>
    intro token _
    have hc := hw c (List.mem_cons_self _ _)
    rw [List.cons_append, strtokAll]
    simp only [hc, Bool.false_eq_true, if_false]
    rw [ih (fun x hx => hw x (List.mem_cons_of_mem _ hx)) (token ++ [c]) (by simp)]
    simp

theorem strtokAll_clauseLine (literals : List Int) :
    strtokAll (clauseLine literals) [] = literals.map intToText ++ [['0']] := by
  unfold clauseLine
  induction literals with
  | nil => simp [strtokAll, isDelim]
  | cons l rest ih =>
    simp only [List.flatMap_cons, List.append_assoc, List.singleton_append, List.map_cons,
      List.cons_append]
    rw [strtokAll_token (intToText l) _ ' ' (by decide)
      (fun c hc => (intToText_chars l c hc).1) [] (by simpa using intToText_ne_nil l)]
    simp only [List.nil_append, List.cons.injEq, true_and]
    simpa using ih

theorem readLiterals_tokens (literals : List Int) (hnz : ∀ l ∈ literals, l ≠ 0)
    (hr : ∀ l ∈ literals, inIntRange l = true) :
    ∀ (acc : List Int), acc.length + literals.length ≤ 100 →
    readLiterals (literals.map intToText ++ [['0']]) acc = some (acc ++ literals) := by
  induction literals with
  | nil =>
    intro acc _
    have : atoi ['0'] = 0 := by decide
    simp [readLiterals, this]
  | cons l rest ih =>
    intro acc hlen
    simp only [List.length_cons] at hlen
    have hl : l ≠ 0 := hnz l (List.mem_cons_self _ _)
    rw [List.map_cons, List.cons_append, readLiterals]
    simp only [atoi_intToText l (hr l (List.mem_cons_self _ _)), beq_iff_eq, hl, if_false]
    have hlt : acc.length < 100 := by omega
    simp only [hlt, if_true]
    rw [ih (fun x hx => hnz x (List.mem_cons_of_mem _ hx))
      (fun x hx => hr x (List.mem_cons_of_mem _ hx)) (acc ++ [l])
      (by simp only [List.length_append, List.length_singleton]; omega)]
    simp


/-! ## DIMACS round trip -/

theorem clauseLine_eq (literals : List Int) :
    clauseLine literals = clauseBody literals ++ ['\n'] := by
  simp [clauseLine, clauseBody]

theorem clauseBody_chars (literals : List Int) :
    ∀ c ∈ clauseBody literals, c ≠ '\n' ∧ c ≠ '\x00' := by
  intro c hc
  simp only [clauseBody, List.mem_append, List.mem_flatMap, List.mem_singleton] at hc
  rcases hc with ⟨l, -, hl⟩ | rfl
  · rcases hl with hl | rfl
    · exact ⟨(intToText_chars l c hl).2.2, (intToText_chars l c hl).2.1⟩
    · decide
  · decide

theorem cString_clauseLine (literals : List Int) :
    cString (clauseLine literals) = clauseLine literals := by
  apply cString_eq_self
  intro c hc
  rw [clauseLine_eq] at hc
  rcases List.mem_append.1 hc with hc | hc
  · exact (clauseBody_chars literals c hc).2
  · simp only [List.mem_singleton] at hc
    subst hc
    decide

theorem clauseLine_head (l : Int) (rest : List Int) (hl : l ≠ 0) :
    ∃ c tl, clauseLine (l :: rest) = c :: tl ∧ c ≠ 'c' ∧ c ≠ '%' ∧ c ≠ '0' := by
  obtain ⟨c, tl, e, h1, h2, h3, -⟩ := intToText_head l hl
  refine ⟨c, tl ++ ([' '] ++ (rest.flatMap (fun lit => intToText lit ++ [' ']) ++ ['0', '\n'])),
    ?_, h1, h2, h3⟩
  simp [clauseLine, e]

theorem fgetsLines_clauses (cs : List (List Int))
    (hline : ∀ c ∈ cs, (clauseLine c).length ≤ 1023) :
    fgetsLines 1024 (cs.flatMap clauseLine) [] = cs.map clauseLine := by
  induction cs with
  | nil => simp [fgetsLines]
  | cons c rest ih =>
    have h1 := hline c (List.mem_cons_self _ _)
    rw [clauseLine_eq] at h1
    simp only [List.length_append, List.length_singleton] at h1
    simp only [List.flatMap_cons, List.map_cons]
    rw [clauseLine_eq, List.append_assoc, List.singleton_append,
      fgetsLines_line _ _ (fun x hx => (clauseBody_chars c x hx).1) [] (by simpa using h1),
      ih (fun x hx => hline x (List.mem_cons_of_mem _ hx))]
    simp

theorem readClauses_lines (numClauses : Int) (cs : List (List Int))
    (hne : ∀ c ∈ cs, c ≠ []) (hnz : ∀ c ∈ cs, ∀ l ∈ c, l ≠ 0)
    (hcap : ∀ c ∈ cs, c.length ≤ 100) (hr : ∀ c ∈ cs, ∀ l ∈ c, inIntRange l = true) :
    ∀ (acc : List (List Int)), ((acc.length + cs.length : Nat) : Int) = numClauses →
    readClauses numClauses (cs.map clauseLine) acc = some (acc ++ cs) := by
  induction cs with
  | nil => intro acc _; simp [readClauses]
  | cons c rest ih =>
    intro acc hlen
    have hc0 : c ≠ [] := hne c (List.mem_cons_self _ _)
    have hcz := hnz c (List.mem_cons_self _ _)
    have hcc := hcap c (List.mem_cons_self _ _)
    have hcr := hr c (List.mem_cons_self _ _)
    obtain ⟨l, tl, rfl⟩ : ∃ l tl, c = l :: tl := by
      cases c with
      | nil => exact absurd rfl hc0
      | cons l tl => exact ⟨l, tl, rfl⟩
    obtain ⟨ch, chtl, e, k1, k2, k3⟩ := clauseLine_head l tl (hcz l (List.mem_cons_self _ _))
    have hlt : ((acc.length : Nat) : Int) < numClauses := by
      simp only [List.length_cons] at hlen
      omega
    rw [List.map_cons, readClauses]
    have hcur : cur (cString (clauseLine (l :: tl))) = ch := by
      rw [cString_clauseLine, e]; rfl
    have g1 : (ch == 'c') = false := by simp [k1]
    have g2 : (ch == '%') = false := by simp [k2]
    have g3 : (ch == '0') = false := by simp [k3]
    simp only [hlt, decide_True, Bool.not_true, Bool.false_eq_true, if_false, hcur, g1, g2, g3,
      Bool.or_self]
    rw [cString_clauseLine, strtokAll_clauseLine,
      readLiterals_tokens _ hcz hcr [] (by simpa using hcc)]
    simp only [List.nil_append, List.length_cons, gt_iff_lt, Nat.zero_lt_succ, if_true]
    rw [ih (fun x hx => hne x (List.mem_cons_of_mem _ hx))
      (fun x hx => hnz x (List.mem_cons_of_mem _ hx))
      (fun x hx => hcap x (List.mem_cons_of_mem _ hx))
      (fun x hx => hr x (List.mem_cons_of_mem _ hx)) (acc ++ [l :: tl])
      (by rw [← hlen]
          simp only [List.length_append, List.length_cons, List.length_nil]
          push_cast
          omega)]
    simp


theorem headerLine_eq (numVars numClauses : Int) :
    headerLine numVars numClauses =
      (['p', ' ', 'c', 'n', 'f', ' '] ++ intToText numVars ++ [' '] ++ intToText numClauses)
        ++ ['\n'] := by
  simp [headerLine]

theorem headerBody_chars (numVars numClauses : Int) :
    ∀ c ∈ ['p', ' ', 'c', 'n', 'f', ' '] ++ intToText numVars ++ [' '] ++
      intToText numClauses, c ≠ '\n' ∧ c ≠ '\x00' := by
  intro c hc
  simp only [List.mem_append] at hc
  rcases hc with ((hc | hc) | hc) | hc
  · revert c; decide
  · exact ⟨(intToText_chars _ c hc).2.2, (intToText_chars _ c hc).2.1⟩
  · revert c; decide
  · exact ⟨(intToText_chars _ c hc).2.2, (intToText_chars _ c hc).2.1⟩

theorem cString_headerLine (numVars numClauses : Int) :
    cString (headerLine numVars numClauses) = headerLine numVars numClauses := by
  apply cString_eq_self
  intro c hc
  rw [headerLine_eq] at hc
  rcases List.mem_append.1 hc with hc | hc
  · exact (headerBody_chars _ _ c hc).2
  · simp only [List.mem_singleton] at hc
    subst hc
    decide

theorem scanInt_space (s : List Char) : scanInt (' ' :: s) = scanInt s := by
  simp [scanInt, List.dropWhile, isSpace]

theorem scanHeader_headerLine (numVars numClauses : Int)
    (hnv : inIntRange numVars = true) (hnc : inIntRange numClauses = true) :
    scanHeader (headerLine numVars numClauses) = (numVars, numClauses) := by
  have h1 : scanInt (' ' :: (intToText numVars ++ ' ' :: (intToText numClauses ++ ['\n'])))
      = some (numVars, ' ' :: (intToText numClauses ++ ['\n'])) := by
    rw [scanInt_space]
    exact scanInt_intToText numVars (' ' :: (intToText numClauses ++ ['\n'])) rfl hnv
  have h2 : scanInt (' ' :: (intToText numClauses ++ ['\n'])) = some (numClauses, ['\n']) := by
    rw [scanInt_space]
    exact scanInt_intToText numClauses ['\n'] rfl hnc
  simp [scanHeader, headerLine, cur, List.dropWhile, isSpace, h1, h2]

/-- C7, amended. DIMACS round trip: for every formula (its counts and literals
being values of the C type `int`, as the fields of the structure are) whose
`numClauses` is the number of its clauses, whose clauses are non-empty, hold
only nonzero literals and at most 100 of them, and whose header and clause lines
fit the 1024-byte line buffer, `readDIMACS` applied to the text written by
`saveDIMACS` returns the same `numVars`, `numClauses` and clauses. -/
theorem dimacs_round_trip (f : DIMACSFormula) (hint : intFields f = true)
    (hcount : f.numClauses = (f.clauses.length : Int))
    (hne : ∀ c ∈ f.clauses, c ≠ []) (hnz : ∀ c ∈ f.clauses, ∀ l ∈ c, l ≠ 0)
    (hcap : ∀ c ∈ f.clauses, c.length ≤ 100)
    (hline : ∀ c ∈ f.clauses, (clauseLine c).length ≤ 1023)
    (hhead : (headerLine f.numVars f.numClauses).length ≤ 1023) :
    readDIMACS (saveDIMACS f) = ReadResult.formula f := by
  obtain ⟨cs, nc, nv⟩ := f
  simp only [intFields, Bool.and_eq_true, List.all_eq_true] at hint
  obtain ⟨⟨hnv, hnc⟩, hr⟩ := hint
  simp only at hcount hne hnz hcap hline hhead hnv hnc hr
  subst hcount
  have e1 : "c DIMACS CNF Format\n".toList = "c DIMACS CNF Format".toList ++ ['\n'] := by
    decide
  have e2 : "c Generated from parse tree\n".toList =
      "c Generated from parse tree".toList ++ ['\n'] := by decide
  have htake : List.take ((cs.length : Int)).toNat cs = cs := by simp
  have hlines : fgetsLines 1024 (saveDIMACS ⟨cs, (cs.length : Int), nv⟩) [] =
      "c DIMACS CNF Format\n".toList :: "c Generated from parse tree\n".toList ::
        headerLine nv (cs.length : Int) :: cs.map clauseLine := by
    have hsave : saveDIMACS ⟨cs, (cs.length : Int), nv⟩ =
        "c DIMACS CNF Format".toList ++ '\n' ::
          ("c Generated from parse tree".toList ++ '\n' ::
            ((['p', ' ', 'c', 'n', 'f', ' '] ++ intToText nv ++ [' '] ++
                intToText (cs.length : Int)) ++ '\n' :: cs.flatMap clauseLine)) := by
      simp only [saveDIMACS, htake, e1, e2, headerLine_eq]
      simp only [List.append_assoc, List.singleton_append, List.cons_append, List.nil_append]
    rw [hsave, fgetsLines_line _ _ (by decide) [] (by decide),
      fgetsLines_line _ _ (by decide) [] (by decide)]
    rw [headerLine_eq] at hhead ⊢
    rw [fgetsLines_line _ _ (fun x hx => (headerBody_chars _ _ x hx).1) []
        (by simp only [List.length_append, List.length_cons, List.length_nil] at hhead ⊢
            omega),
      fgetsLines_clauses cs hline, e1, e2]
    simp
  have hhdr : readHeader ("c DIMACS CNF Format\n".toList ::
        "c Generated from parse tree\n".toList ::
        headerLine nv (cs.length : Int) :: cs.map clauseLine) =
      some ((nv, (cs.length : Int)), cs.map clauseLine) := by
    have c1 : (cur (cString "c DIMACS CNF Format\n".toList) == 'c') = true := by decide
    have c2 : (cur (cString "c Generated from parse tree\n".toList) == 'c') = true := by
      decide
    have c3 : cur (headerLine nv (cs.length : Int)) = 'p' := rfl
    rw [readHeader]
    simp only [c1, if_true]
    rw [readHeader]
    simp only [c2, if_true]
    rw [readHeader]
    simp [cString_headerLine, c3, scanHeader_headerLine nv _ hnv hnc]
  simp only [readDIMACS, hlines, hhdr]
  rw [readClauses_lines _ cs hne hnz hcap hr [] (by simp)]
  simp

/-- Witness for C7: the formula of the demonstration, three variables and the
clauses `1 2`, `-1` and `-3`. -/
theorem dimacs_round_trip_witness :
    (intFields ⟨[[1, 2], [-1], [-3]], 3, 3⟩ = true ∧
      (⟨[[1, 2], [-1], [-3]], 3, 3⟩ : DIMACSFormula).numClauses =
        (((⟨[[1, 2], [-1], [-3]], 3, 3⟩ : DIMACSFormula).clauses.length : Nat) : Int) ∧
      (∀ c ∈ (⟨[[1, 2], [-1], [-3]], 3, 3⟩ : DIMACSFormula).clauses, c ≠ []) ∧
      (∀ c ∈ (⟨[[1, 2], [-1], [-3]], 3, 3⟩ : DIMACSFormula).clauses, ∀ l ∈ c, l ≠ 0) ∧
      (∀ c ∈ (⟨[[1, 2], [-1], [-3]], 3, 3⟩ : DIMACSFormula).clauses, c.length ≤ 100) ∧
      (∀ c ∈ (⟨[[1, 2], [-1], [-3]], 3, 3⟩ : DIMACSFormula).clauses,
        (clauseLine c).length ≤ 1023) ∧
      (headerLine 3 3).length ≤ 1023) ∧
    readDIMACS (saveDIMACS ⟨[[1, 2], [-1], [-3]], 3, 3⟩) =
      ReadResult.formula ⟨[[1, 2], [-1], [-3]], 3, 3⟩ ∧
    saveDIMACS ⟨[[1, 2], [-1], [-3]], 3, 3⟩ =
      "c DIMACS CNF Format\nc Generated from parse tree\np cnf 3 3\n1 2 0\n-1 0\n-3 0\n".toList :=
  ⟨by decide,
    dimacs_round_trip ⟨[[1, 2], [-1], [-3]], 3, 3⟩ (by decide) (by decide) (by decide)
      (by decide) (by decide) (by decide) (by decide),
    by decide⟩

set_option maxRecDepth 100000 in
/-- C7, counterexample. The round trip fails for a formula with an empty clause
(its line `0` is skipped on reading, so one clause is lost), for a clause whose
line is longer than the line buffer (100 literals `-1000000000` come back as 85
of them followed by `-10`), and for a clause of 101 literals (the array
`literals[100]` overflows). -/
theorem dimacs_round_trip_fails :
    readDIMACS (saveDIMACS ⟨[[1], []], 2, 1⟩) = ReadResult.formula ⟨[[1]], 2, 1⟩ ∧
    readDIMACS (saveDIMACS ⟨[List.replicate 100 (-1000000000)], 1, 1⟩) =
      ReadResult.formula ⟨[List.replicate 85 (-1000000000) ++ [-10]], 1, 1⟩ ∧
    readDIMACS (saveDIMACS ⟨[List.replicate 101 1], 1, 1⟩) = ReadResult.literalOverflow := by
  decide


/-! ## Soundness of the validity check within the clause capacity -/

theorem lookupIntVar_mem (v : Char) (m : VarMap) (i : Int)
    (h : lookupIntVar v m = some i) : (v, i) ∈ m := by
  induction m with
  | nil => simp [lookupIntVar] at h
  | cons p rest ih =>
    obtain ⟨c, j⟩ := p
    by_cases hc : c = v
    · simp [lookupIntVar, hc] at h
      subst h; subst hc
      exact List.mem_cons_self _ _
    · simp [lookupIntVar, hc] at h
      exact List.mem_cons_of_mem _ (ih h)

theorem getIntVar_tableOK (v : Char) (m m2 : VarMap) (i : Int) (hok : tableOK m)
    (h : getIntVar v m = some (i, m2)) : tableOK m2 := by
  unfold getIntVar at h
  cases hl : lookupIntVar v m with
  | some j =>
    simp only [hl, Option.some.injEq, Prod.mk.injEq] at h
    obtain ⟨-, rfl⟩ := h
    exact hok
  | none =>
    simp only [hl] at h
    by_cases hc : m.length < 100
    · simp only [hc, if_true, Option.some.injEq, Prod.mk.injEq] at h
      obtain ⟨-, rfl⟩ := h
      obtain ⟨hr, hinj⟩ := hok
      have hlook : ∀ w j, lookupIntVar w (m ++ [(v, (m.length : Int) + 1)]) = some j →
          lookupIntVar w m = some j ∨
            (lookupIntVar w m = none ∧ w = v ∧ j = (m.length : Int) + 1) := by
        intro w j hw
        rw [lookupIntVar_append] at hw
        cases hm : lookupIntVar w m with
        | some k => left; simpa [hm] using hw
        | none =>
          right
          simp only [hm, lookupIntVar] at hw
          by_cases hvw : v = w
          · simp [hvw] at hw
            exact ⟨rfl, hvw.symm, hw.symm⟩
          · simp [hvw] at hw
      constructor
      · intro p hp
        simp only [List.length_append, List.length_singleton]
        rcases List.mem_append.1 hp with hp | hp
        · have := hr p hp
          push_cast
          omega
        · simp only [List.mem_singleton] at hp
          subst hp
          push_cast
          simp
      · intro a b j ha hb
        rcases hlook a j ha with ha1 | ⟨-, ha2, ha3⟩
        · rcases hlook b j hb with hb1 | ⟨-, hb2, hb3⟩
          · exact hinj a b j ha1 hb1
          · have := (hr _ (lookupIntVar_mem a m j ha1)).2
            simp only at this
            omega
        · rcases hlook b j hb with hb1 | ⟨-, hb2, hb3⟩
          · have := (hr _ (lookupIntVar_mem b m j hb1)).2
            simp only at this
            omega
          · rw [ha2, hb2]
    · simp [hc] at h

theorem extractLiterals_tableOK (capacity : Nat) : ∀ (c : Tree) (st st2 : VarMap × List Int),
    tableOK st.1 → extractLiterals capacity c st = some st2 → tableOK st2.1 := by
  intro c
  induction c with
  | nil =>
    intro st st2 hok h
    simp only [extractLiterals, Option.some.injEq] at h
    subst h
    exact hok
  | node v l r ihl ihr =>
    intro st st2 hok h
    rw [extractLiterals] at h
    by_cases hp : v = '+'
    · subst hp
      simp only [beq_self_eq_true, if_true] at h
      cases h1 : extractLiterals capacity l st with
      | none => simp [h1] at h
      | some st1 =>
        simp only [h1] at h
        exact ihr st1 st2 (ihl st st1 hok h1) h
    · have hp2 : (v == '+') = false := by simp [hp]
      simp only [hp2, Bool.false_eq_true, if_false] at h
      by_cases hn : v = '~'
      · subst hn
        simp only [beq_self_eq_true, if_true] at h
        by_cases hg0 : (!isNil l && !isOperator (valueOf l)) = true
        · simp only [hg0, if_true] at h
          cases hg : getIntVar (valueOf l) st.1 with
          | none => simp [hg] at h
          | some res =>
            obtain ⟨i, m2⟩ := res
            simp only [hg] at h
            cases hpu : pushLiteral capacity st.2 (-i) with
            | none => simp [hpu] at h
            | some out =>
              simp only [hpu, Option.some.injEq] at h
              subst h
              exact getIntVar_tableOK _ _ _ _ hok hg
        · simp only [hg0, Bool.false_eq_true, if_false, Option.some.injEq] at h
          subst h
          exact hok
      · have hn2 : (v == '~') = false := by simp [hn]
        simp only [hn2, Bool.false_eq_true, if_false] at h
        by_cases hop : isOperator v = true
        · simp only [hop, Bool.not_true, Bool.false_eq_true, if_false,
            Option.some.injEq] at h
          subst h
          exact hok
        · simp only [Bool.not_eq_true] at hop
          simp only [hop, Bool.not_false, if_true] at h
          cases hg : getIntVar v st.1 with
          | none => simp [hg] at h
          | some res =>
            obtain ⟨i, m2⟩ := res
            simp only [hg] at h
            cases hpu : pushLiteral capacity st.2 i with
            | none => simp [hpu] at h
            | some out =>
              simp only [hpu, Option.some.injEq] at h
              subst h
              exact getIntVar_tableOK _ _ _ _ hok hg

theorem both_of_foundComplementary {capacity : Nat} {c : Tree} {m : VarMap}
    {lits : List Int} (h : extractLiterals capacity c ([], []) = some (m, lits))
    (hf : foundComplementary lits = true) :
    ∃ v, (v, false) ∈ litsOf c ∧ (v, true) ∈ litsOf c := by
  obtain ⟨h1, h2⟩ := extractLiterals_fresh h
  have hok : tableOK m :=
    extractLiterals_tableOK capacity c ([], []) (m, lits) (by simp [tableOK, lookupIntVar]) h
  obtain ⟨L, hL1, hL2⟩ := mem_of_foundComplementary lits hf
  rw [h1] at hL1 hL2
  obtain ⟨x, hx, ex⟩ := List.mem_map.1 hL1
  obtain ⟨y, hy, ey⟩ := List.mem_map.1 hL2
  obtain ⟨i, hi, hi1⟩ := h2 x hx
  obtain ⟨j, hj, hj1⟩ := h2 y hy
  obtain ⟨xv, xb⟩ := x
  obtain ⟨yv, yb⟩ := y
  simp only [encodeLit] at ex ey hi hj
  rw [hi] at ex
  rw [hj] at ey
  simp only [Option.getD_some] at ex ey
  cases xb <;> cases yb <;> simp only [Bool.false_eq_true, if_false, if_true] at ex ey
  · omega
  · have hij : i = j := by omega
    subst hij
    have := hok.2 xv yv i hi hj
    subst this
    exact ⟨xv, hx, hy⟩
  · have hij : i = j := by omega
    subst hij
    have := hok.2 xv yv i hi hj
    subst this
    exact ⟨xv, hy, hx⟩
  · omega

theorem isClause_evaluates_nonzero (A : Assignment) (w : Char) : ∀ (d : Tree),
    isClause d = true →
    (((w, false) ∈ litsOf d ∧ getTruthValue w A ≠ 0) ∨
      ((w, true) ∈ litsOf d ∧ getTruthValue w A = 0)) →
    evaluateFormula d A ≠ 0 := by
  intro d
  induction d with
  | nil => intro h; simp [isClause] at h
  | node v l r ihl ihr =>
    intro h hw
    by_cases hv : v = '+'
    · subst hv
      rw [isClause_plus] at h
      simp only [Bool.and_eq_true] at h
      obtain ⟨wr, -⟩ := isClause_spec r h.2
      rw [evaluateFormula_plus _ _ _ wr]
      simp only [litsOf, beq_self_eq_true, if_true, List.mem_append] at hw
      have : evaluateFormula l A ≠ 0 ∨ evaluateFormula r A ≠ 0 := by
        rcases hw with ⟨h1 | h1, h2⟩ | ⟨h1 | h1, h2⟩
        · exact Or.inl (ihl h.1 (Or.inl ⟨h1, h2⟩))
        · exact Or.inr (ihr h.2 (Or.inl ⟨h1, h2⟩))
        · exact Or.inl (ihl h.1 (Or.inr ⟨h1, h2⟩))
        · exact Or.inr (ihr h.2 (Or.inr ⟨h1, h2⟩))
      simp [cOr, this]
    · have hv2 : (v == '+') = false := by simp [hv]
      simp only [isClause, hv2, Bool.false_eq_true, if_false] at h
      simp only [isLiteral, Bool.or_eq_true, Bool.and_eq_true] at h
      rcases h with h | ⟨⟨h1, h2⟩, h3⟩
      · obtain ⟨u, hu, e⟩ := (isVarLeaf_iff _).1 h
        injection e with e1 e2 e3
        subst e1; subst e2; subst e3
        obtain ⟨n1, n2, n3, n4⟩ := not_operator_ne hu
        rw [evaluateFormula_var _ _ _ _ hu]
        simp [litsOf, n1, n2, hu] at hw
        obtain ⟨rfl, hw2⟩ := hw
        exact hw2
      · simp only [hasValue_node, beq_iff_eq] at h1
        subst h1
        simp only [leftOf_node] at h2
        obtain ⟨u, hu, rfl⟩ := (isVarLeaf_iff _).1 h2
        rw [evaluateFormula_not, evaluateFormula_var _ _ _ _ hu]
        simp [litsOf, valueOf, hu] at hw
        obtain ⟨rfl, hw2⟩ := hw
        simp [cNot, hw2]

theorem evaluateFormula_ne_zero_of_clauses : ∀ (t : Tree) (A : Assignment),
    isCNF t = true → (∀ c ∈ clausesOf t, evaluateFormula c A ≠ 0) →
    evaluateFormula t A ≠ 0 := by
  intro t
  induction t with
  | nil => intro A h; simp [isCNF] at h
  | node v l r ihl ihr =>
    intro A h hall
    by_cases hv : v = '*'
    · subst hv
      rw [isCNF_star] at h
      simp only [Bool.and_eq_true] at h
      obtain ⟨wr, -⟩ := isCNF_spec r h.2
      simp only [clausesOf, beq_self_eq_true, if_true, List.mem_append] at hall
      have hl := ihl A h.1 (fun c hc => hall c (Or.inl hc))
      have hr := ihr A h.2 (fun c hc => hall c (Or.inr hc))
      rw [evaluateFormula_star _ _ _ wr]
      simp [cAnd, hl, hr]
    · have hv2 : (v == '*') = false := by simp [hv]
      simp only [clausesOf, hv2, Bool.false_eq_true, if_false, List.mem_singleton] at hall
      exact hall _ rfl

theorem assignsAll_iff_forall (A : Assignment) : ∀ (t : Tree), assignsAll A t = true →
    ∀ v ∈ varsOf t, getTruthValue v A = 0 ∨ getTruthValue v A = 1 := by
  intro t
  induction t with
  | nil => intro _ v hv; simp [varsOf] at hv
  | node u l r ihl ihr =>
    intro h v hv
    simp only [assignsAll, Bool.and_eq_true, Bool.or_eq_true, beq_iff_eq] at h
    simp only [varsOf, List.mem_append] at hv
    rcases hv with (hv | hv) | hv
    · by_cases hop : isOperator u = true
      · simp [hop] at hv
      · simp [hop] at hv
        subst hv
        rcases h.1.1 with (h1 | h1) | h1
        · exact absurd h1 hop
        · exact Or.inl h1
        · exact Or.inr h1
    · exact ihl h.1.2 v hv
    · exact ihr h.2 v hv

/-- Within the clause capacity the validity check is sound: if a CNF-shaped tree
has at most 100 clauses and `isValidCNF` returns true, the tree evaluates to a
nonzero value under every assignment that gives its variables 0 or 1. -/
theorem isValidCNF_sound_within_capacity (t : Tree) (A : Assignment)
    (hc : isCNF t = true) (hcap : (clausesOf t).length ≤ 100)
    (hv : isValidCNF t = some true) (hA : assignsAll A t = true) :
    evaluateFormula t A ≠ 0 := by
  obtain ⟨-, hcl⟩ := clausesOf_spec t hc
  have hall : ∀ c ∈ clausesOf t, ∃ m lits, extractLiterals 50 c ([], []) = some (m, lits) ∧
      foundComplementary lits = true := by
    cases t with
    | nil => simp [isCNF] at hc
    | node v l r =>
      simp only [isValidCNF, extractClauses_within _ hcap] at hv
      by_cases he : ((clausesOf (node v l r)).length == 0) = true
      · simp [he] at hv
      · simp only [he, Bool.false_eq_true, if_false] at hv
        exact (checkClauses_true_iff _).1 hv
  apply evaluateFormula_ne_zero_of_clauses t A hc
  intro c hcm
  obtain ⟨m, lits, hex, hfound⟩ := hall c hcm
  obtain ⟨c1, -, c3⟩ := hcl c hcm
  obtain ⟨w, hw1, hw2⟩ := both_of_foundComplementary hex hfound
  have hwv : w ∈ varsOf t := c3 w (litsOf_subset_varsOf c w false hw1)
  apply isClause_evaluates_nonzero A w c c1
  rcases assignsAll_iff_forall A t hA w hwv with h0 | h1
  · exact Or.inr ⟨hw2, h0⟩
  · exact Or.inl ⟨hw1, by rw [h1]; decide⟩


/-! ## The shape produced by the distribution pass, for every input tree -/

theorem reachesAnd_of_noAndUnderOr {t : Tree} (h : noAndUnderOr t = true)
    (hs : hasValue '*' t = false) : reachesAnd t = false := by
  cases t with
  | nil => rfl
  | node v l r =>
    simp only [hasValue_node, beq_eq_false_iff_ne, ne_eq] at hs
    simp only [noAndUnderOr, Bool.and_eq_true, Bool.or_eq_true, bne_iff_ne, ne_eq,
      Bool.not_eq_true'] at h
    by_cases hv : v = '+'
    · subst hv
      rcases h.1.1 with h1 | h1
      · exact absurd rfl h1
      · simp [reachesAnd, h1.1, h1.2]
    · simp [reachesAnd, hs, hv]

theorem noAndUnderOr_distributeOrOverAnd : ∀ (n : Nat) (t r : Tree),
    distributeOrOverAnd n t = some r → noAndUnderOr r = true := by
  intro n
  induction n with
  | zero => intro t r h; simp [distributeOrOverAnd] at h
  | succ n ih =>
    intro t r h
    cases t with
    | nil =>
      simp [distributeOrOverAnd] at h
      subst h
      rfl
    | node v l rt =>
      obtain ⟨l1, r1, hl, hr, hcase⟩ := distributeOrOverAnd_inv h
      have k1 := ih _ _ hl
      have k2 := ih _ _ hr
      rcases hcase with ⟨rfl, p, q, a, b, rfl, ha, hb, rfl⟩ |
        ⟨rfl, c1, p, q, a, b, rfl, ha, hb, rfl⟩ | ⟨hc, rfl⟩
      · simp [noAndUnderOr, ih _ _ ha, ih _ _ hb]
      · simp [noAndUnderOr, ih _ _ ha, ih _ _ hb]
      · rcases hc with hv | ⟨c1, c2⟩
        · simp [noAndUnderOr, hv, k1, k2]
        · simp [noAndUnderOr, k1, k2, reachesAnd_of_noAndUnderOr k1 c1,
            reachesAnd_of_noAndUnderOr k2 c2]

/-- C11. For every input tree, `distributeOrOverAnd` returns a result (with
enough recursion budget), and in every result no `+` node has a `*` node as a
direct child or as a descendant reached by passing only through `+` nodes. -/
theorem distributeOrOverAnd_no_and_under_or (t : Tree) :
    (∃ n r, distributeOrOverAnd n t = some r) ∧
    ∀ n r, distributeOrOverAnd n t = some r → noAndUnderOr r = true := by
  refine ⟨?_, fun n r h => noAndUnderOr_distributeOrOverAnd n t r h⟩
  obtain ⟨r, hr, -⟩ := distributeOrOverAnd_total (weight t) t (le_refl _)
  exact ⟨weight t, r, hr⟩

/-! ## Evaluation and the truth tables -/

theorem evaluateFormula_eq_holds (A : Assignment) : ∀ (t : Tree),
    wellFormed t = true → assignsAll A t = true →
    evaluateFormula t A = if holds (fun v => getTruthValue v A == 1) t then 1 else 0 := by
  intro t
  induction t with
  | nil => intro h; simp [wellFormed] at h
  | node v l r ihl ihr =>
    intro hwf hA
    simp only [assignsAll, Bool.and_eq_true] at hA
    rcases char_cases v with rfl | rfl | rfl | rfl | hop
    · simp [wellFormed, isOperator, isNil_iff] at hwf
      rw [evaluateFormula_not, ihl hwf.1 hA.1.2]
      by_cases hh : holds (fun v => getTruthValue v A == 1) l = true <;>
        simp [holds, hh, cNot]
    · simp [wellFormed, isOperator] at hwf
      rw [evaluateFormula_plus _ _ _ hwf.2, ihl hwf.1 hA.1.2, ihr hwf.2 hA.2]
      by_cases h1 : holds (fun v => getTruthValue v A == 1) l = true <;>
        by_cases h2 : holds (fun v => getTruthValue v A == 1) r = true <;>
        simp [holds, h1, h2, cOr]
    · simp [wellFormed, isOperator] at hwf
      rw [evaluateFormula_star _ _ _ hwf.2, ihl hwf.1 hA.1.2, ihr hwf.2 hA.2]
      by_cases h1 : holds (fun v => getTruthValue v A == 1) l = true <;>
        by_cases h2 : holds (fun v => getTruthValue v A == 1) r = true <;>
        simp [holds, h1, h2, cAnd]
    · simp [wellFormed, isOperator] at hwf
      have e : evaluateFormula (node '>' l r) A =
          cOr (cNot (evaluateFormula l A)) (evaluateFormula r A) := by
        simp [evaluateFormula, isOperator, wellFormed_not_nil hwf.2]
      rw [e, ihl hwf.1 hA.1.2, ihr hwf.2 hA.2]
      by_cases h1 : holds (fun v => getTruthValue v A == 1) l = true <;>
        by_cases h2 : holds (fun v => getTruthValue v A == 1) r = true <;>
        simp [holds, h1, h2, cOr, cNot]
    · obtain ⟨n1, n2, n3, n4⟩ := not_operator_ne hop
      rw [evaluateFormula_var _ _ _ _ hop]
      simp only [hop, Bool.false_or, Bool.or_eq_true, beq_iff_eq] at hA
      rcases hA.1.1 with h0 | h1
      · simp [holds, n1, n2, n3, n4, h0]
      · simp [holds, n1, n2, n3, n4, h1]

/-- C12. For every well-formed tree and every assignment that gives each of
its variables 0 or 1, `evaluateFormula` returns 1 when the formula is true under
the standard truth tables (a variable being true when its value is 1) and 0
otherwise. -/
theorem evaluateFormula_truth_tables (t : Tree) (A : Assignment)
    (hwf : wellFormed t = true) (hA : assignsAll A t = true) :
    (holds (fun v => getTruthValue v A == 1) t = true → evaluateFormula t A = 1) ∧
    (holds (fun v => getTruthValue v A == 1) t = false → evaluateFormula t A = 0) := by
  rw [evaluateFormula_eq_holds A t hwf hA]
  constructor <;> intro h <;> simp [h]

/-- Witness for C12: `((p>q)*(~r))` under `p = 1`, `q = 0`, `r = 0`. -/
theorem evaluateFormula_truth_tables_witness :
    (wellFormed (node '*' (node '>' (createNode 'p') (createNode 'q'))
        (node '~' (createNode 'r') nil)) = true ∧
      assignsAll [('p', 1), ('q', 0), ('r', 0)] (node '*' (node '>' (createNode 'p')
        (createNode 'q')) (node '~' (createNode 'r') nil)) = true) ∧
    ((holds (fun v => getTruthValue v [('p', 1), ('q', 0), ('r', 0)] == 1)
        (node '*' (node '>' (createNode 'p') (createNode 'q'))
          (node '~' (createNode 'r') nil)) = true →
      evaluateFormula (node '*' (node '>' (createNode 'p') (createNode 'q'))
        (node '~' (createNode 'r') nil)) [('p', 1), ('q', 0), ('r', 0)] = 1) ∧
    (holds (fun v => getTruthValue v [('p', 1), ('q', 0), ('r', 0)] == 1)
        (node '*' (node '>' (createNode 'p') (createNode 'q'))
          (node '~' (createNode 'r') nil)) = false →
      evaluateFormula (node '*' (node '>' (createNode 'p') (createNode 'q'))
        (node '~' (createNode 'r') nil)) [('p', 1), ('q', 0), ('r', 0)] = 0)) ∧
    evaluateFormula (node '*' (node '>' (createNode 'p') (createNode 'q'))
      (node '~' (createNode 'r') nil)) [('p', 1), ('q', 0), ('r', 0)] = 0 :=
  ⟨by decide, evaluateFormula_truth_tables _ _ (by decide) (by decide), by decide⟩

/-- An operator node never evaluates to the sentinel of an unassigned variable:
`!`, `||` and `&&` turn every operand, `-1` included, into 0 or 1. -/
theorem evaluateFormula_operator_bool (v : Char) (l r : Tree) (A : Assignment)
    (hop : isOperator v = true) :
    evaluateFormula (node v l r) A = 0 ∨ evaluateFormula (node v l r) A = 1 := by
  rcases char_cases v with rfl | rfl | rfl | rfl | h
  · simp [evaluateFormula, isOperator]; exact cNot_bool _
  · simp [evaluateFormula, isOperator]; exact cOr_bool _ _
  · simp [evaluateFormula, isOperator]; exact cAnd_bool _ _
  · simp [evaluateFormula, isOperator]; exact cOr_bool _ _
  · rw [h] at hop; cases hop

/-- C13, at the failing input. With no assignment at all, the leaf `p`
evaluates to the sentinel `-1`, but `~p` evaluates to 0, `(p+q)` to 1 and
`(p*q)` to 1: above a leaf the sentinel is taken for a truth value, and for
every operator node the result is 0 or 1 whatever the assignment holds. -/
theorem evaluateFormula_loses_unassigned :
    evaluateFormula (createNode 'p') [] = -1 ∧
    evaluateFormula (node '~' (createNode 'p') nil) [] = 0 ∧
    evaluateFormula (node '+' (createNode 'p') (createNode 'q')) [] = 1 ∧
    evaluateFormula (node '*' (createNode 'p') (createNode 'q')) [] = 1 ∧
    ∀ (v : Char) (l r : Tree) (A : Assignment), isOperator v = true →
      evaluateFormula (node v l r) A ≠ -1 := by
  refine ⟨by decide, by decide, by decide, by decide, ?_⟩
  intro v l r A hop
  rcases evaluateFormula_operator_bool v l r A hop with h | h <;> rw [h] <;> decide

/-! ## Evaluation of a clause set -/

theorem clauseSatisfied_spec (a : List Int) : ∀ (c : List Int),
    (∀ l ∈ c, l.natAbs < a.length) →
    ∃ b, clauseSatisfied a c = some b ∧
      (b = true ↔ ∃ l ∈ c, (0 < l ∧ a.getD l.natAbs 0 ≠ 0) ∨
        (l < 0 ∧ a.getD l.natAbs 0 = 0)) := by
  intro c
  induction c with
  | nil => intro _; exact ⟨false, rfl, by simp⟩
  | cons l rest ih =>
    intro hr
    have hl := hr l (List.mem_cons_self _ _)
    obtain ⟨b, hb, hiff⟩ := ih (fun x hx => hr x (List.mem_cons_of_mem _ hx))
    rw [clauseSatisfied]
    simp only [hl, if_true]
    by_cases hs : ((decide (l > 0) && (a.getD l.natAbs 0 != 0)) ||
        (decide (l < 0) && !(a.getD l.natAbs 0 != 0))) = true
    · simp only [hs, if_true]
      refine ⟨true, rfl, ?_⟩
      simp only [true_iff]
      refine ⟨l, List.mem_cons_self _ _, ?_⟩
      simp only [Bool.or_eq_true, Bool.and_eq_true, decide_eq_true_eq, bne_iff_ne, ne_eq,
        Bool.not_eq_true', bne_eq_false_iff_eq] at hs
      exact hs
    · simp only [hs, Bool.false_eq_true, if_false]
      refine ⟨b, hb, ?_⟩
      rw [hiff]
      simp only [Bool.or_eq_true, Bool.and_eq_true, decide_eq_true_eq, bne_iff_ne, ne_eq,
        Bool.not_eq_true', bne_eq_false_iff_eq] at hs
      constructor
      · rintro ⟨x, hx, h⟩; exact ⟨x, List.mem_cons_of_mem _ hx, h⟩
      · rintro ⟨x, hx, h⟩
        rcases List.mem_cons.1 hx with rfl | hx
        · exact absurd h hs
        · exact ⟨x, hx, h⟩

theorem evaluateClauses_spec (a : List Int) : ∀ (cs : List (List Int)),
    (∀ c ∈ cs, ∀ l ∈ c, l.natAbs < a.length) →
    ∃ b, evaluateClauses a cs.length cs = some b ∧
      (b = true ↔ ∀ c ∈ cs, ∃ l ∈ c, (0 < l ∧ a.getD l.natAbs 0 ≠ 0) ∨
        (l < 0 ∧ a.getD l.natAbs 0 = 0)) := by
  intro cs
  induction cs with
  | nil => intro _; exact ⟨true, rfl, by simp⟩
  | cons c rest ih =>
    intro hr
    obtain ⟨b1, h1, hiff1⟩ := clauseSatisfied_spec a c (hr c (List.mem_cons_self _ _))
    obtain ⟨b2, h2, hiff2⟩ := ih (fun x hx => hr x (List.mem_cons_of_mem _ hx))
    simp only [List.length_cons, evaluateClauses, h1]
    cases b1 with
    | false =>
      refine ⟨false, rfl, ?_⟩
      simp only [Bool.false_eq_true, false_iff, List.forall_mem_cons, not_and]
      intro hc
      exact absurd (hiff1.2 hc) (by simp)
    | true =>
      refine ⟨b2, h2, ?_⟩
      rw [hiff2, List.forall_mem_cons]
      constructor
      · intro h; exact ⟨hiff1.1 rfl, h⟩
      · intro h; exact h.2

/-- C14. For every clause set whose literals have an absolute value within the
index range of the assignment, `evaluateDIMACS` returns a result, and the result
is true if and only if every clause holds a literal `l` with `assignment[|l|]`
nonzero when `l > 0` and zero when `l < 0`. -/
theorem evaluateDIMACS_iff (f : DIMACSFormula) (a : List Int)
    (hcount : f.numClauses = (f.clauses.length : Int))
    (hrange : ∀ c ∈ f.clauses, ∀ l ∈ c, l.natAbs < a.length) :
    ∃ b, evaluateDIMACS f a = some b ∧
      (b = true ↔ ∀ c ∈ f.clauses, ∃ l ∈ c, (0 < l ∧ a.getD l.natAbs 0 ≠ 0) ∨
        (l < 0 ∧ a.getD l.natAbs 0 = 0)) := by
  unfold evaluateDIMACS
  rw [hcount, Int.toNat_ofNat]
  exact evaluateClauses_spec a f.clauses hrange

/-- Witness for C14: the clauses `1 -2` and `2` under `assignment = [0, 1, 1]`;
an empty clause makes the result false and an empty clause set makes it true. -/
theorem evaluateDIMACS_iff_witness :
    ((⟨[[1, -2], [2]], 2, 2⟩ : DIMACSFormula).numClauses =
        (((⟨[[1, -2], [2]], 2, 2⟩ : DIMACSFormula).clauses.length : Nat) : Int) ∧
      ∀ c ∈ (⟨[[1, -2], [2]], 2, 2⟩ : DIMACSFormula).clauses, ∀ l ∈ c,
        l.natAbs < ([0, 1, 1] : List Int).length) ∧
    (∃ b, evaluateDIMACS ⟨[[1, -2], [2]], 2, 2⟩ [0, 1, 1] = some b ∧
      (b = true ↔ ∀ c ∈ (⟨[[1, -2], [2]], 2, 2⟩ : DIMACSFormula).clauses, ∃ l ∈ c,
        (0 < l ∧ ([0, 1, 1] : List Int).getD l.natAbs 0 ≠ 0) ∨
        (l < 0 ∧ ([0, 1, 1] : List Int).getD l.natAbs 0 = 0))) ∧
    evaluateDIMACS ⟨[[1, -2], [2]], 2, 2⟩ [0, 1, 1] = some true ∧
    evaluateDIMACS ⟨[[1, -2], [2]], 2, 2⟩ [0, 0, 0] = some false ∧
    evaluateDIMACS ⟨[[1], []], 2, 1⟩ [0, 1] = some false ∧
    evaluateDIMACS ⟨[], 0, 1⟩ [0, 1] = some true :=
  ⟨by decide, evaluateDIMACS_iff ⟨[[1, -2], [2]], 2, 2⟩ [0, 1, 1] (by decide) (by decide),
    by decide, by decide, by decide, by decide⟩

/-! ## The symbol table -/

theorem lookupIntVar_none_of_not_mem (s : Char) : ∀ (m : VarMap),
    s ∉ m.map Prod.fst → lookupIntVar s m = none := by
  intro m
  induction m with
  | nil => intro _; rfl
  | cons p rest ih =>
    obtain ⟨c, i⟩ := p
    intro h
    simp only [List.map_cons, List.mem_cons, not_or] at h
    have hc : (c == s) = false := by
      simp only [beq_eq_false_iff_ne, ne_eq]
      exact fun e => h.1 e.symm
    simp only [lookupIntVar, hc, Bool.false_eq_true, if_false]
    exact ih h.2

theorem lookupIntVar_some_of_mem (s : Char) : ∀ (m : VarMap),
    s ∈ m.map Prod.fst → ∃ i, lookupIntVar s m = some i := by
  intro m
  induction m with
  | nil => intro h; simp at h
  | cons p rest ih =>
    obtain ⟨c, i⟩ := p
    intro h
    by_cases hc : c = s
    · exact ⟨i, by simp [lookupIntVar, hc]⟩
    · simp only [List.map_cons, List.mem_cons] at h
      rcases h with h | h
      · exact absurd h.symm hc
      · obtain ⟨j, hj⟩ := ih h
        exact ⟨j, by simp [lookupIntVar, hc, hj]⟩

theorem getCharVar_of_mem (s : Char) (i : Int) : ∀ (m : VarMap),
    (m.map Prod.snd).Nodup → (s, i) ∈ m → getCharVar i m = s := by
  intro m
  induction m with
  | nil => intro _ h; simp at h
  | cons p rest ih =>
    obtain ⟨c, j⟩ := p
    intro hnd h
    simp only [List.map_cons, List.nodup_cons] at hnd
    by_cases hj : j = i
    · subst hj
      simp only [getCharVar, beq_self_eq_true, if_true]
      rcases List.mem_cons.1 h with e | e
      · exact (Prod.mk.inj e).1.symm
      · exact absurd (List.mem_map_of_mem Prod.snd e) hnd.1
    · have hb : (j == i) = false := by simp [hj]
      simp only [getCharVar, hb, Bool.false_eq_true, if_false]
      rcases List.mem_cons.1 h with e | e
      · exact absurd (Prod.mk.inj e).2.symm hj
      · exact ih hnd.2 e

theorem idsFrom1_nodup (n : Nat) : (idsFrom1 n).Nodup := by
  unfold idsFrom1
  have hinj : Function.Injective (fun k : Nat => (k : Int) + 1) := by
    intro a b h
    simp only at h
    omega
  exact (List.nodup_range n).map hinj

theorem idsFrom1_succ (n : Nat) : idsFrom1 (n + 1) = idsFrom1 n ++ [(n : Int) + 1] := by
  simp [idsFrom1, List.range_succ]

theorem firstSeenFrom_length (syms : List Char) : ∀ (seen : List Char),
    seen.length ≤ (firstSeenFrom seen syms).length := by
  induction syms with
  | nil => intro seen; simp [firstSeenFrom]
  | cons s rest ih =>
    intro seen
    rw [firstSeenFrom]
    by_cases h : s ∈ seen
    · simp only [h, if_true]; exact ih seen
    · simp only [h, if_false]
      have := ih (seen ++ [s])
      simp only [List.length_append, List.length_cons, List.length_nil] at this
      omega

theorem internAll_spec : ∀ (syms : List Char) (m : VarMap),
    m.map Prod.snd = idsFrom1 m.length → (m.map Prod.fst).Nodup →
    (firstSeenFrom (m.map Prod.fst) syms).length ≤ 100 →
    ∃ ids m2, internAll syms m = some (ids, m2) ∧
      m2.map Prod.fst = firstSeenFrom (m.map Prod.fst) syms ∧
      m2.map Prod.snd = idsFrom1 m2.length ∧ (m2.map Prod.fst).Nodup := by
  intro syms
  induction syms with
  | nil => intro m h1 h2 _; exact ⟨[], m, rfl, rfl, h1, h2⟩
  | cons s rest ih =>
    intro m h1 h2 hlen
    rw [firstSeenFrom] at hlen ⊢
    by_cases hs : s ∈ m.map Prod.fst
    · simp only [hs, if_true] at hlen ⊢
      obtain ⟨i, hi⟩ := lookupIntVar_some_of_mem s m hs
      obtain ⟨ids, m2, hrun, hfst, hsnd, hnd⟩ := ih m h1 h2 hlen
      exact ⟨i :: ids, m2, by simp [internAll, getIntVar, hi, hrun], hfst, hsnd, hnd⟩
    · simp only [hs, if_false] at hlen ⊢
      have hnone := lookupIntVar_none_of_not_mem s m hs
      have hlt : m.length < 100 := by
        have := firstSeenFrom_length rest (m.map Prod.fst ++ [s])
        simp only [List.length_append, List.length_map, List.length_cons,
          List.length_nil] at this
        omega
      have hfst : (m ++ [(s, (m.length : Int) + 1)]).map Prod.fst = m.map Prod.fst ++ [s] := by
        simp
      have h1n : (m ++ [(s, (m.length : Int) + 1)]).map Prod.snd =
          idsFrom1 (m ++ [(s, (m.length : Int) + 1)]).length := by
        simp only [List.map_append, List.map_cons, List.map_nil, List.length_append,
          List.length_cons, List.length_nil, idsFrom1_succ, h1]
      have h2n : ((m ++ [(s, (m.length : Int) + 1)]).map Prod.fst).Nodup := by
        rw [hfst]
        refine List.Nodup.append h2 (List.nodup_singleton s) ?_
        intro x hx hx2
        rw [List.mem_singleton] at hx2
        exact hs (hx2 ▸ hx)
      rw [← hfst] at hlen
      obtain ⟨ids, m2, hrun, hf, hsnd, hnd⟩ := ih _ h1n h2n hlen
      refine ⟨((m.length : Int) + 1) :: ids, m2, ?_, ?_, hsnd, hnd⟩
      · simp [internAll, getIntVar, hnone, hlt, hrun]
      · rw [hf, hfst]

set_option maxRecDepth 100000 in
/-- Counterexample for C15: after one hundred calls with distinct symbols the
table `varMap[100]` is full, and a call with a further new symbol writes past
its end instead of returning `101`. -/
theorem getIntVar_overflows_table :
    (firstSeen (distinctSymbols 100)).length = 100 ∧
    'p' ∉ firstSeen (distinctSymbols 100) ∧
    (internAll (distinctSymbols 100) []).map
      (fun r => (r.1 == idsFrom1 100, r.2.length, (getIntVar 'p' r.2).isNone)) =
        some (true, 100, true) ∧
    internAll (distinctSymbols 100 ++ ['p']) [] = none := by
  refine ⟨by decide, by decide, by decide, by decide⟩

/-- C15 (as amended). From a reset table, a sequence of `getIntVar` calls that
introduces at most 100 distinct symbols runs through, and afterwards the table
pairs those symbols, in first-seen order and without repetition, with the
numbers `1 .. N`; `getIntVar` on a symbol already seen returns the number
recorded for it and leaves the table unchanged, `getCharVar` of that number is
the symbol again, and when `N < 100` `getIntVar` on a new symbol returns `N + 1`
and appends its record. -/
theorem symbol_table_invariant (syms : List Char)
    (hcap : (firstSeen syms).length ≤ 100) :
    ∃ ids m, internAll syms [] = some (ids, m) ∧
      m.map Prod.fst = firstSeen syms ∧ (firstSeen syms).Nodup ∧
      m.map Prod.snd = idsFrom1 (firstSeen syms).length ∧
      (∀ s ∈ firstSeen syms, ∃ i, getIntVar s m = some (i, m) ∧ (s, i) ∈ m ∧
        getCharVar i m = s) ∧
      (∀ s, s ∉ firstSeen syms → (firstSeen syms).length < 100 →
        getIntVar s m = some (((firstSeen syms).length : Int) + 1,
          m ++ [(s, ((firstSeen syms).length : Int) + 1)])) := by
  obtain ⟨ids, m, hrun, hfst, hsnd, hnd⟩ :=
    internAll_spec syms [] rfl List.nodup_nil hcap
  have hfst2 : m.map Prod.fst = firstSeen syms := hfst
  have hlen : m.length = (firstSeen syms).length := by
    rw [← hfst2, List.length_map]
  refine ⟨ids, m, hrun, hfst2, hfst2 ▸ hnd, hlen ▸ hsnd, ?_, ?_⟩
  · intro s hs
    rw [← hfst2] at hs
    obtain ⟨i, hi⟩ := lookupIntVar_some_of_mem s m hs
    have hmem := lookupIntVar_mem s m i hi
    refine ⟨i, by simp [getIntVar, hi], hmem, ?_⟩
    exact getCharVar_of_mem s i m (hsnd ▸ idsFrom1_nodup m.length) hmem
  · intro s hs hlt
    rw [← hfst2] at hs
    have hnone := lookupIntVar_none_of_not_mem s m hs
    rw [← hlen] at hlt ⊢
    simp [getIntVar, hnone, hlt]

/-- Witness for C15: the calls for `p`, `q`, `p`, `r`, `q` leave the table
`p:1, q:2, r:3`. -/
theorem symbol_table_invariant_witness :
    (firstSeen "pqprq".toList).length ≤ 100 ∧
    internAll "pqprq".toList [] =
      some ([1, 2, 1, 3, 2], [('p', 1), ('q', 2), ('r', 3)]) ∧
    ∃ ids m, internAll "pqprq".toList [] = some (ids, m) ∧
      m.map Prod.fst = firstSeen "pqprq".toList ∧ (firstSeen "pqprq".toList).Nodup ∧
      m.map Prod.snd = idsFrom1 (firstSeen "pqprq".toList).length ∧
      (∀ s ∈ firstSeen "pqprq".toList, ∃ i, getIntVar s m = some (i, m) ∧ (s, i) ∈ m ∧
        getCharVar i m = s) ∧
      (∀ s, s ∉ firstSeen "pqprq".toList → (firstSeen "pqprq".toList).length < 100 →
        getIntVar s m = some (((firstSeen "pqprq".toList).length : Int) + 1,
          m ++ [(s, ((firstSeen "pqprq".toList).length : Int) + 1)])) :=
  ⟨by decide, by decide, symbol_table_invariant "pqprq".toList (by decide)⟩

/-! ## The clause capacity of `extractClauses` -/

set_option maxRecDepth 100000 in
/-- C16, at the failing input. The CNF of the formula `overCapacityPrefix` has
110 clauses; the call `extractClauses(cnfRoot, clauseNodes, &clauseCount, 100)`
made by `isValidCNF` and `treeToDIMACS` collects the first 100 of them and
leaves out the last ten, each of which is `(q+(~p))`. -/
theorem extractClauses_leaves_clauses_out :
    ((buildTreeFromPrefix 60 overCapacityPrefix).bind (convertToCNF 60)).map
      (fun cnf => ((clausesOf cnf).length, (extractClauses cnf [] 100).length,
        decide (extractClauses cnf [] 100 = (clausesOf cnf).take 100),
        decide ((clausesOf cnf).drop 100 = List.replicate 10
          (node '+' (createNode 'q') (node '~' (createNode 'p') nil))))) =
      some (110, 100, true, true) := by
  decide

/-! ## From a CNF tree to a clause set -/

theorem firstSeenFrom_append (a b : List Char) : ∀ (seen : List Char),
    firstSeenFrom seen (a ++ b) = firstSeenFrom (firstSeenFrom seen a) b := by
  induction a with
  | nil => intro seen; simp [firstSeenFrom]
  | cons s rest ih =>
    intro seen
    rw [List.cons_append, firstSeenFrom, firstSeenFrom]
    by_cases h : s ∈ seen
    · simp only [h, if_true]; exact ih seen
    · simp only [h, if_false]; exact ih _

theorem idsFrom1_mem {n : Nat} {i : Int} (h : i ∈ idsFrom1 n) : 1 ≤ i ∧ i ≤ (n : Int) := by
  unfold idsFrom1 at h
  obtain ⟨k, hk, rfl⟩ := List.mem_map.1 h
  rw [List.mem_range] at hk
  omega

theorem getIntVar_step (s : Char) (m : VarMap)
    (h1 : m.map Prod.snd = idsFrom1 m.length) (h2 : (m.map Prod.fst).Nodup)
    (hlen : (firstSeenFrom (m.map Prod.fst) [s]).length ≤ 100) :
    ∃ i m2, getIntVar s m = some (i, m2) ∧
      m2.map Prod.fst = firstSeenFrom (m.map Prod.fst) [s] ∧
      m2.map Prod.snd = idsFrom1 m2.length ∧ (m2.map Prod.fst).Nodup := by
  obtain ⟨ids, m2, hrun, hf, hs, hnd⟩ := internAll_spec [s] m h1 h2 hlen
  cases hg : getIntVar s m with
  | none => simp [internAll, hg] at hrun
  | some r =>
    obtain ⟨i, m1⟩ := r
    simp only [internAll, hg, Option.some.injEq, Prod.mk.injEq] at hrun
    obtain ⟨-, rfl⟩ := hrun
    exact ⟨i, m1, rfl, hf, hs, hnd⟩

theorem extractLiterals_runs (capacity : Nat) : ∀ (c : Tree) (st : VarMap × List Int),
    st.1.map Prod.snd = idsFrom1 st.1.length → (st.1.map Prod.fst).Nodup →
    st.2.length + (litsOf c).length ≤ capacity →
    (firstSeenFrom (st.1.map Prod.fst) ((litsOf c).map Prod.fst)).length ≤ 100 →
    ∃ st2, extractLiterals capacity c st = some st2 ∧
      st2.1.map Prod.fst = firstSeenFrom (st.1.map Prod.fst) ((litsOf c).map Prod.fst) ∧
      st2.1.map Prod.snd = idsFrom1 st2.1.length ∧ (st2.1.map Prod.fst).Nodup ∧
      st2.2.length = st.2.length + (litsOf c).length := by
  intro c
  induction c with
  | nil =>
    intro st h1 h2 _ _
    exact ⟨st, rfl, by simp [litsOf, firstSeenFrom], h1, h2, by simp [litsOf]⟩
  | node v l r ihl ihr =>
    intro st h1 h2 hcap hlen
    rw [extractLiterals]
    rw [litsOf] at hcap hlen ⊢
    by_cases hp : v = '+'
    · subst hp
      simp only [beq_self_eq_true, if_true, List.length_append, List.map_append] at hcap hlen ⊢
      rw [firstSeenFrom_append] at hlen ⊢
      have hl := firstSeenFrom_length ((litsOf r).map Prod.fst)
        (firstSeenFrom (st.1.map Prod.fst) ((litsOf l).map Prod.fst))
      obtain ⟨st1, e1, f1, s1, n1, c1⟩ := ihl st h1 h2 (by omega) (by omega)
      rw [← f1] at hlen ⊢
      obtain ⟨st2, e2, f2, s2, n2, c2⟩ := ihr st1 s1 n1 (by omega) hlen
      refine ⟨st2, by simp only [e1, e2], f2, s2, n2, by omega⟩
    · have hp2 : (v == '+') = false := by simp [hp]
      simp only [hp2, Bool.false_eq_true, if_false] at hcap hlen ⊢
      by_cases hn : v = '~'
      · subst hn
        simp only [beq_self_eq_true, if_true] at hcap hlen ⊢
        by_cases hg : (!isNil l && !isOperator (valueOf l)) = true
        · simp only [hg, if_true, List.length_cons, List.length_nil, List.map_cons,
            List.map_nil] at hcap hlen ⊢
          obtain ⟨i, m2, e, f, s, n⟩ := getIntVar_step (valueOf l) st.1 h1 h2 hlen
          have hc : st.2.length < capacity := by omega
          exact ⟨(m2, st.2 ++ [-i]), by simp [e, pushLiteral, hc], f, s, n, by simp⟩
        · simp only [hg, Bool.false_eq_true, if_false, List.map_nil, List.length_nil] at hcap hlen ⊢
          exact ⟨st, rfl, by simp [firstSeenFrom], h1, h2, by simp⟩
      · have hn2 : (v == '~') = false := by simp [hn]
        simp only [hn2, Bool.false_eq_true, if_false] at hcap hlen ⊢
        by_cases hg : (!isOperator v) = true
        · simp only [hg, if_true, List.length_cons, List.length_nil, List.map_cons,
            List.map_nil] at hcap hlen ⊢
          obtain ⟨i, m2, e, f, s, n⟩ := getIntVar_step v st.1 h1 h2 hlen
          have hc : st.2.length < capacity := by omega
          exact ⟨(m2, st.2 ++ [i]), by simp [e, pushLiteral, hc], f, s, n, by simp⟩
        · simp only [hg, Bool.false_eq_true, if_false, List.map_nil, List.length_nil] at hcap hlen ⊢
          exact ⟨st, rfl, by simp [firstSeenFrom], h1, h2, by simp⟩

theorem table_range (m : VarMap) (h1 : m.map Prod.snd = idsFrom1 m.length) :
    ∀ p ∈ m, 1 ≤ p.2 ∧ p.2 ≤ (m.length : Int) := by
  intro p hp
  have hmem : p.2 ∈ m.map Prod.snd := List.mem_map_of_mem _ hp
  rw [h1] at hmem
  exact idsFrom1_mem hmem

theorem convertClauses_spec : ∀ (cs : List Tree) (m : VarMap),
    m.map Prod.snd = idsFrom1 m.length → (m.map Prod.fst).Nodup →
    (∀ c ∈ cs, (litsOf c).length ≤ 50) →
    (firstSeenFrom (m.map Prod.fst) (symbolsOf cs)).length ≤ 100 →
    ∃ cls m2, convertClauses cs m = some (cls, m2) ∧
      m2.map Prod.fst = firstSeenFrom (m.map Prod.fst) (symbolsOf cs) ∧
      m2.map Prod.snd = idsFrom1 m2.length ∧ (m2.map Prod.fst).Nodup ∧
      (∀ w j, lookupIntVar w m = some j → lookupIntVar w m2 = some j) ∧
      cls = cs.map (fun c => (litsOf c).map (encodeLit m2)) ∧
      (∀ c ∈ cs, ∀ x ∈ litsOf c, ∃ i, lookupIntVar x.1 m2 = some i ∧ 1 ≤ i) := by
  intro cs
  induction cs with
  | nil =>
    intro m h1 h2 _ _
    exact ⟨[], m, rfl, by simp [symbolsOf, firstSeenFrom], h1, h2, fun _ _ h => h, rfl,
      by simp⟩
  | cons c rest ih =>
    intro m h1 h2 hlit hlen
    rw [symbolsOf, firstSeenFrom_append] at hlen ⊢
    have hl := firstSeenFrom_length (symbolsOf rest)
      (firstSeenFrom (m.map Prod.fst) ((litsOf c).map Prod.fst))
    have hc50 := hlit c (List.mem_cons_self _ _)
    obtain ⟨st1, e1, f1, s1, n1, -⟩ := extractLiterals_runs 50 c (m, []) h1 h2
      (by simpa using hc50) (by simp only; omega)
    obtain ⟨-, hst1, hl1, hd1⟩ := extractLiterals_spec 50 c (m, []) st1
      (fun p hp => (table_range m h1 p hp).1) e1
    simp only [List.nil_append] at hl1 hst1 f1
    rw [← f1] at hlen ⊢
    obtain ⟨cls, m2, e2, f2, s2, n2, hst2, hcls, hd2⟩ := ih st1.1 s1 n1
      (fun x hx => hlit x (List.mem_cons_of_mem _ hx)) hlen
    obtain ⟨m1, lits⟩ := st1
    simp only at hl1 hst1 hd1 e2 hst2
    refine ⟨lits :: cls, m2, by simp [convertClauses, e1, e2], f2, s2, n2,
      fun w j h => hst2 w j (hst1 w j h), ?_, ?_⟩
    · rw [List.map_cons, ← hcls, hl1, map_encodeLit_congr m1 m2 (litsOf c) hst2 hd1]
    · intro x hx y hy
      rcases List.mem_cons.1 hx with rfl | hx
      · obtain ⟨i, hi, hi1⟩ := hd1 y hy
        exact ⟨i, hst2 _ _ hi, hi1⟩
      · exact hd2 x hx y hy

theorem litsOf_eq_varsOf : ∀ (c : Tree), isClause c = true →
    (litsOf c).map Prod.fst = varsOf c := by
  intro c
  induction c with
  | nil => intro h; simp [isClause] at h
  | node v l r ihl ihr =>
    intro h
    by_cases hp : v = '+'
    · subst hp
      simp only [isClause, beq_self_eq_true, if_true, Bool.and_eq_true] at h
      simp [litsOf, varsOf, isOperator, ihl h.1, ihr h.2]
    · have hp2 : (v == '+') = false := by simp [hp]
      simp only [isClause, hp2, Bool.false_eq_true, if_false, isLiteral, Bool.or_eq_true,
        Bool.and_eq_true] at h
      rcases h with h | ⟨⟨ha, hb⟩, hc⟩
      · obtain ⟨w, hw, e⟩ := (isVarLeaf_iff _).1 h
        cases e
        obtain ⟨n1, n2, -, -⟩ := not_operator_ne hw
        simp [litsOf, varsOf, hw, n1, n2]
      · simp only [hasValue_node, beq_iff_eq] at ha
        subst ha
        simp only [leftOf_node, rightOf_node, isNil_iff] at hb hc
        subst hc
        obtain ⟨w, hw, rfl⟩ := (isVarLeaf_iff _).1 hb
        have ht : isOperator '~' = true := by decide
        simp [litsOf, varsOf, ht, hw, valueOf, isNil]

theorem symbolsOf_append (a b : List Tree) :
    symbolsOf (a ++ b) = symbolsOf a ++ symbolsOf b := by
  induction a with
  | nil => simp [symbolsOf]
  | cons c rest ih => simp [symbolsOf, ih]

theorem symbolsOf_clausesOf : ∀ (t : Tree), isCNF t = true →
    symbolsOf (clausesOf t) = varsOf t := by
  intro t
  induction t with
  | nil => intro h; simp [isCNF] at h
  | node v l r ihl ihr =>
    intro h
    by_cases hs : v = '*'
    · subst hs
      simp only [isCNF, beq_self_eq_true, if_true, Bool.and_eq_true] at h
      simp [clausesOf, symbolsOf_append, varsOf, isOperator, ihl h.1, ihr h.2]
    · have hs2 : (v == '*') = false := by simp [hs]
      simp only [isCNF, hs2, Bool.false_eq_true, if_false] at h
      simp only [clausesOf, hs2, Bool.false_eq_true, if_false, symbolsOf, List.append_nil]
      exact litsOf_eq_varsOf _ h

set_option maxRecDepth 100000 in
/-- C17, at the failing input. The prefix text `longClausePrefix` is read to the
single clause `p + (p + ... + p)` with 51 literals, which is CNF-shaped and is
returned unchanged by `convertToCNF`; `treeToDIMACS` collects the literals of a
clause in the array `literals[50]`, and the 51st literal is written past its
end, so that no clause set is returned (with room for 51 literals the clause
would hold 51 times the literal `1`). And for the CNF of the formula
`overCapacityPrefix`, whose variables are `p` and `q`, `treeToDIMACS` returns
100 of the 110 clauses and `numVars = 1`. -/
theorem treeToDIMACS_outside_capacity :
    longClausePrefix.length = 101 ∧
    buildTreeFromPrefix 120 longClausePrefix = some (orChain 50) ∧
    convertToCNF 120 (orChain 50) = some (orChain 50) ∧
    isCNF (orChain 50) = true ∧ (clausesOf (orChain 50)).length = 1 ∧
    (litsOf (orChain 50)).length = 51 ∧
    (treeToDIMACS (orChain 50) []).isNone = true ∧
    (extractLiterals 51 (orChain 50) ([], [])).map (fun st => decide (st.2 = List.replicate 51 1))
      = some true ∧
    ((buildTreeFromPrefix 60 overCapacityPrefix).bind (convertToCNF 60)).map
      (fun cnf => (isCNF cnf, firstSeen (varsOf cnf), (clausesOf cnf).length,
        (treeToDIMACS cnf []).map (fun r => (r.1.numClauses, r.1.numVars)))) =
      some (true, ['p', 'q'], 110, some (100, 1)) := by
  refine ⟨by decide, by decide, by decide, by decide, by decide, by decide, by decide,
    by decide, by decide⟩

/-- Within the capacities of the arrays the encoding is as described: for every
CNF-shaped tree with at most 100 clauses, at
most 50 literals in each clause and at most 100 distinct variable symbols, and
whatever the table held before the call, `treeToDIMACS` returns a formula with
one clause per clause of the tree, each the left-to-right list of its literals
with a variable encoded as its number and a negated variable as minus its
number, the numbers being `1, 2, ...` in the order of first occurrence in the
tree; `numVars` is the number of distinct variable symbols and every literal is
nonzero with absolute value in `1 .. numVars`. -/
theorem treeToDIMACS_encoding (t : Tree) (before : VarMap) (hcnf : isCNF t = true)
    (hcl : (clausesOf t).length ≤ 100)
    (hlit : ∀ c ∈ clausesOf t, (litsOf c).length ≤ 50)
    (hvar : (firstSeen (varsOf t)).length ≤ 100) :
    ∃ f m, treeToDIMACS t before = some (f, m) ∧
      m.map Prod.fst = firstSeen (varsOf t) ∧
      m.map Prod.snd = idsFrom1 (firstSeen (varsOf t)).length ∧
      f.clauses = (clausesOf t).map (fun c => (litsOf c).map (encodeLit m)) ∧
      f.numClauses = ((clausesOf t).length : Int) ∧
      f.numVars = ((firstSeen (varsOf t)).length : Int) ∧
      ∀ c ∈ f.clauses, ∀ l ∈ c, l ≠ 0 ∧ 1 ≤ l.natAbs ∧ (l.natAbs : Int) ≤ f.numVars := by
  have hsym := symbolsOf_clausesOf t hcnf
  have hlen : (firstSeenFrom (([] : VarMap).map Prod.fst) (symbolsOf (clausesOf t))).length
      ≤ 100 := by
    rw [hsym]; exact hvar
  obtain ⟨cls, m, e, f1, s1, -, -, hcls, hdef⟩ :=
    convertClauses_spec (clausesOf t) [] rfl List.nodup_nil hlit hlen
  rw [hsym] at f1
  have f2 : m.map Prod.fst = firstSeen (varsOf t) := f1
  have hml : m.length = (firstSeen (varsOf t)).length := by
    rw [← f2, List.length_map]
  refine ⟨⟨cls, ((clausesOf t).length : Int), (m.length : Int)⟩, m, ?_, f2, hml ▸ s1, hcls,
    rfl, by simp only [hml], ?_⟩
  · simp [treeToDIMACS, extractClauses_within t hcl, e]
  · intro c hc l hl
    simp only at hc
    rw [hcls] at hc
    obtain ⟨c0, hc0, rfl⟩ := List.mem_map.1 hc
    obtain ⟨x, hx, rfl⟩ := List.mem_map.1 hl
    obtain ⟨i, hi, -⟩ := hdef c0 hc0 x hx
    obtain ⟨r1, r2⟩ := table_range m s1 (x.1, i) (lookupIntVar_mem x.1 m i hi)
    simp only at r1 r2
    unfold encodeLit
    rw [hi]
    simp only [Option.getD_some]
    by_cases hb : x.2 = true
    · simp only [hb, if_true]
      omega
    · simp only [hb, Bool.false_eq_true, if_false]
      omega

/-- An instance of the encoding: `(p+q)` gives `numVars = 2` and the single
clause `1 2`, also from a table that held other records before the call. -/
theorem treeToDIMACS_encoding_witness :
    (isCNF (node '+' (createNode 'p') (createNode 'q')) = true ∧
      (clausesOf (node '+' (createNode 'p') (createNode 'q'))).length ≤ 100 ∧
      (∀ c ∈ clausesOf (node '+' (createNode 'p') (createNode 'q')),
        (litsOf c).length ≤ 50) ∧
      (firstSeen (varsOf (node '+' (createNode 'p') (createNode 'q')))).length ≤ 100) ∧
    treeToDIMACS (node '+' (createNode 'p') (createNode 'q')) [('q', 1), ('z', 2)] =
      some (⟨[[1, 2]], 1, 2⟩, [('p', 1), ('q', 2)]) ∧
    ∃ f m, treeToDIMACS (node '+' (createNode 'p') (createNode 'q')) [('q', 1), ('z', 2)] =
        some (f, m) ∧
      m.map Prod.fst = firstSeen (varsOf (node '+' (createNode 'p') (createNode 'q'))) ∧
      m.map Prod.snd =
        idsFrom1 (firstSeen (varsOf (node '+' (createNode 'p') (createNode 'q')))).length ∧
      f.clauses = (clausesOf (node '+' (createNode 'p') (createNode 'q'))).map
        (fun c => (litsOf c).map (encodeLit m)) ∧
      f.numClauses = ((clausesOf (node '+' (createNode 'p') (createNode 'q'))).length : Int) ∧
      f.numVars =
        ((firstSeen (varsOf (node '+' (createNode 'p') (createNode 'q')))).length : Int) ∧
      ∀ c ∈ f.clauses, ∀ l ∈ c, l ≠ 0 ∧ 1 ≤ l.natAbs ∧ (l.natAbs : Int) ≤ f.numVars :=
  ⟨⟨by decide, by decide, by decide, by decide⟩, by decide,
    treeToDIMACS_encoding (node '+' (createNode 'p') (createNode 'q')) [('q', 1), ('z', 2)]
      (by decide) (by decide) (by decide) (by decide)⟩

/-! ## The layout of the text written by `printDIMACS` and `saveDIMACS` -/

theorem clauseBody_eq_join : ∀ (literals : List Int),
    clauseBody literals = joinWithSpaces (literals.map intToText ++ [['0']]) := by
  intro literals
  induction literals with
  | nil => rfl
  | cons l rest ih =>
    have hstep : clauseBody (l :: rest) = intToText l ++ ' ' :: clauseBody rest := by
      simp [clauseBody]
    rw [hstep, ih]
    cases rest with
    | nil => rfl
    | cons l2 rest2 => rfl

/-- C18. For every DIMACS formula whose `numClauses` counts clauses that are
there, `printDIMACS` and `saveDIMACS` write the same text: comment lines that
start with `c`, then the one header line `p cnf <numVars> <numClauses>`, then
exactly `numClauses` lines, the i-th holding the decimal literals of clause i in
order, separated by single spaces and ended by `0`. -/
theorem printDIMACS_layout (f : DIMACSFormula) (h0 : 0 ≤ f.numClauses)
    (hle : f.numClauses ≤ (f.clauses.length : Int)) :
    ∃ comments : List (List Char),
      (∀ c ∈ comments, c.head? = some 'c' ∧ '\n' ∉ c) ∧
      printDIMACS f =
        dimacsText comments f.numVars f.numClauses (f.clauses.take f.numClauses.toNat) ∧
      saveDIMACS f = printDIMACS f ∧
      ((f.clauses.take f.numClauses.toNat).length : Int) = f.numClauses ∧
      '\n' ∉ joinWithSpaces [['p'], ['c', 'n', 'f'], intToText f.numVars,
        intToText f.numClauses] ∧
      ∀ c ∈ f.clauses, '\n' ∉ joinWithSpaces (c.map intToText ++ [['0']]) := by
  refine ⟨["c DIMACS CNF Format".toList, "c Generated from parse tree".toList], by decide,
    ?_, rfl, ?_, ?_, ?_⟩
  · have hcl : ∀ c : List Int, clauseLine c =
        joinWithSpaces (c.map intToText ++ [['0']]) ++ ['\n'] := by
      intro c
      rw [clauseLine_eq, clauseBody_eq_join]
    have hfun : clauseLine = fun c => joinWithSpaces (c.map intToText ++ [['0']]) ++ ['\n'] :=
      funext hcl
    unfold printDIMACS dimacsText
    rw [hfun]
    simp [headerLine, joinWithSpaces]
  · rw [List.length_take]
    omega
  · intro hmem
    have hmem2 : '\n' ∈ ['p', ' ', 'c', 'n', 'f', ' '] ++ intToText f.numVars ++ [' '] ++
        intToText f.numClauses := by
      simpa [joinWithSpaces] using hmem
    exact (headerBody_chars _ _ _ hmem2).1 rfl
  · intro c _ hmem
    rw [← clauseBody_eq_join] at hmem
    exact (clauseBody_chars c _ hmem).1 rfl

/-- Witness for C18: the text written for the clauses `1 -2` and `3`. -/
theorem printDIMACS_layout_witness :
    ((0 : Int) ≤ (⟨[[1, -2], [3]], 2, 3⟩ : DIMACSFormula).numClauses ∧
      (⟨[[1, -2], [3]], 2, 3⟩ : DIMACSFormula).numClauses ≤
        (((⟨[[1, -2], [3]], 2, 3⟩ : DIMACSFormula).clauses.length : Nat) : Int)) ∧
    printDIMACS ⟨[[1, -2], [3]], 2, 3⟩ =
      "c DIMACS CNF Format\nc Generated from parse tree\np cnf 3 2\n1 -2 0\n3 0\n".toList ∧
    ∃ comments : List (List Char),
      (∀ c ∈ comments, c.head? = some 'c' ∧ '\n' ∉ c) ∧
      printDIMACS ⟨[[1, -2], [3]], 2, 3⟩ =
        dimacsText comments (⟨[[1, -2], [3]], 2, 3⟩ : DIMACSFormula).numVars
          (⟨[[1, -2], [3]], 2, 3⟩ : DIMACSFormula).numClauses
          ((⟨[[1, -2], [3]], 2, 3⟩ : DIMACSFormula).clauses.take
            (⟨[[1, -2], [3]], 2, 3⟩ : DIMACSFormula).numClauses.toNat) ∧
      saveDIMACS ⟨[[1, -2], [3]], 2, 3⟩ = printDIMACS ⟨[[1, -2], [3]], 2, 3⟩ ∧
      ((((⟨[[1, -2], [3]], 2, 3⟩ : DIMACSFormula).clauses.take
        (⟨[[1, -2], [3]], 2, 3⟩ : DIMACSFormula).numClauses.toNat).length : Nat) : Int) =
          (⟨[[1, -2], [3]], 2, 3⟩ : DIMACSFormula).numClauses ∧
      '\n' ∉ joinWithSpaces [['p'], ['c', 'n', 'f'],
        intToText (⟨[[1, -2], [3]], 2, 3⟩ : DIMACSFormula).numVars,
        intToText (⟨[[1, -2], [3]], 2, 3⟩ : DIMACSFormula).numClauses] ∧
      ∀ c ∈ (⟨[[1, -2], [3]], 2, 3⟩ : DIMACSFormula).clauses,
        '\n' ∉ joinWithSpaces (c.map intToText ++ [['0']]) :=
  ⟨⟨by decide, by decide⟩, by decide,
    printDIMACS_layout ⟨[[1, -2], [3]], 2, 3⟩ (by decide) (by decide)⟩

/-! ## Reading well-formed DIMACS text -/

theorem cur_cString (s : List Char) : cur (cString s) = cur s := by
  cases s with
  | nil => rfl
  | cons c tl =>
    by_cases h : c = '\x00'
    · subst h; rfl
    · have hb : (c != '\x00') = true := by simp [h]
      simp [cString, cur, List.takeWhile, hb]

theorem lineBody_facts (x : TextLine) (h : lineOK x = true) :
    (∀ c ∈ lineBody x, c ≠ '\n') ∧ (lineBody x).length + 1 ≤ 1023 := by
  cases x with
  | comment text =>
    simp only [lineOK, Bool.and_eq_true, List.all_eq_true, bne_iff_ne, ne_eq,
      decide_eq_true_eq] at h
    exact ⟨h.1.2, h.2⟩
  | clause literals =>
    simp only [lineOK, Bool.and_eq_true, decide_eq_true_eq] at h
    exact ⟨fun c hc => (clauseBody_chars literals c hc).1, h.2⟩

theorem fgetsLines_text (rest : List Char) : ∀ (lines : List TextLine),
    (∀ x ∈ lines, lineOK x = true) →
    fgetsLines 1024 (textOf lines ++ rest) [] =
      lines.map (fun x => lineBody x ++ ['\n']) ++ fgetsLines 1024 rest [] := by
  intro lines
  induction lines with
  | nil => intro _; simp [textOf]
  | cons x tl ih =>
    intro h
    obtain ⟨h1, h2⟩ := lineBody_facts x (h x (List.mem_cons_self _ _))
    have e : textOf (x :: tl) ++ rest = lineBody x ++ '\n' :: (textOf tl ++ rest) := by
      simp [textOf]
    rw [e, fgetsLines_line _ _ h1 [] (by simpa using h2),
      ih (fun y hy => h y (List.mem_cons_of_mem _ hy))]
    simp

theorem cur_append_of_ne (s t : List Char) (h : cur s ≠ '\x00') : cur (s ++ t) = cur s := by
  cases s with
  | nil => exact absurd rfl h
  | cons c tl => rfl

theorem readHeader_comments (rest : List (List Char)) : ∀ (pre : List TextLine),
    (∀ x ∈ pre, lineOK x = true) → clausesIn pre = [] →
    readHeader (pre.map (fun x => lineBody x ++ ['\n']) ++ rest) = readHeader rest := by
  intro pre
  induction pre with
  | nil => intro _ _; rfl
  | cons x tl ih =>
    intro h hc
    cases x with
    | clause literals => simp [clausesIn] at hc
    | comment text =>
      have hx := h _ (List.mem_cons_self _ _)
      simp only [lineOK, Bool.and_eq_true, Bool.or_eq_true, beq_iff_eq] at hx
      have hcur : cur (cString (text ++ ['\n'])) = cur text := by
        rw [cur_cString]
        apply cur_append_of_ne
        rcases hx.1.1 with e | e <;> rw [e] <;> decide
      rw [List.map_cons, List.cons_append, readHeader]
      simp only [lineBody, hcur]
      rcases hx.1.1 with e | e
      · simp only [e, beq_self_eq_true, if_true]
        exact ih (fun y hy => h y (List.mem_cons_of_mem _ hy)) hc
      · have g1 : ('%' == 'c') = false := by decide
        have g2 : ('%' == 'p') = false := by decide
        simp only [e, g1, g2, Bool.false_eq_true, if_false]
        exact ih (fun y hy => h y (List.mem_cons_of_mem _ hy)) hc

theorem readClauses_text (numClauses : Int) : ∀ (body : List TextLine),
    (∀ x ∈ body, lineOK x = true) → ∀ (acc : List (List Int)),
    readClauses numClauses (body.map (fun x => lineBody x ++ ['\n'])) acc =
      some (acc ++ (clausesIn body).take (numClauses.toNat - acc.length)) := by
  intro body
  induction body with
  | nil => intro _ acc; simp [readClauses, clausesIn]
  | cons x tl ih =>
    intro h acc
    have hx := h _ (List.mem_cons_self _ _)
    have htl : ∀ y ∈ tl, lineOK y = true := fun y hy => h y (List.mem_cons_of_mem _ hy)
    rw [List.map_cons, readClauses]
    by_cases hlt : ((acc.length : Nat) : Int) < numClauses
    · simp only [hlt, decide_True, Bool.not_true, Bool.false_eq_true, if_false]
      cases x with
      | comment text =>
        simp only [lineOK, Bool.and_eq_true, Bool.or_eq_true, beq_iff_eq] at hx
        have hcur : cur (cString (text ++ ['\n'])) = cur text := by
          rw [cur_cString]
          apply cur_append_of_ne
          rcases hx.1.1 with e | e <;> rw [e] <;> decide
        simp only [lineBody, hcur]
        have hskip : (cur text == 'c' || cur text == '%' || cur text == '0') = true := by
          rcases hx.1.1 with e | e <;> rw [e] <;> decide
        simp only [hskip, if_true, clausesIn]
        exact ih htl acc
      | clause literals =>
        simp only [lineOK, Bool.and_eq_true, decide_eq_true_eq, List.all_eq_true, bne_iff_ne,
          ne_eq, Bool.not_eq_true', List.isEmpty_eq_false] at hx
        obtain ⟨⟨⟨hne, hboth⟩, hcap⟩, -⟩ := hx
        have hnz : ∀ x ∈ literals, x ≠ 0 := fun x hx => (hboth x hx).1
        have hr : ∀ x ∈ literals, inIntRange x = true := fun x hx => (hboth x hx).2
        obtain ⟨l, ls, rfl⟩ : ∃ l ls, literals = l :: ls := by
          cases literals with
          | nil => exact absurd rfl hne
          | cons l ls => exact ⟨l, ls, rfl⟩
        obtain ⟨ch, chtl, e, k1, k2, k3⟩ :=
          clauseLine_head l ls (hnz l (List.mem_cons_self _ _))
        have hb : lineBody (TextLine.clause (l :: ls)) ++ ['\n'] = clauseLine (l :: ls) := by
          rw [clauseLine_eq]; rfl
        simp only [hb]
        have hcur : cur (cString (clauseLine (l :: ls))) = ch := by
          rw [cString_clauseLine, e]; rfl
        have g1 : (ch == 'c') = false := by simp [k1]
        have g2 : (ch == '%') = false := by simp [k2]
        have g3 : (ch == '0') = false := by simp [k3]
        simp only [hcur, g1, g2, g3, Bool.or_self, Bool.false_eq_true, if_false]
        rw [cString_clauseLine, strtokAll_clauseLine,
          readLiterals_tokens _ hnz hr [] (by simpa using hcap)]
        simp only [List.nil_append, List.length_cons, gt_iff_lt, Nat.zero_lt_succ, if_true]
        rw [ih htl (acc ++ [l :: ls])]
        have hk : numClauses.toNat - acc.length =
            (numClauses.toNat - (acc ++ [l :: ls]).length) + 1 := by
          simp only [List.length_append, List.length_cons, List.length_nil]
          omega
        rw [hk, clausesIn, List.take_succ_cons]
        simp
    · simp only [hlt, decide_False, Bool.not_false, if_true]
      have hk : numClauses.toNat - acc.length = 0 := by omega
      rw [hk]
      simp

theorem readDIMACS_lines (pre body : List TextLine) (numVars numClauses : Int)
    (hnv : inIntRange numVars = true) (hnc : inIntRange numClauses = true)
    (hpre : ∀ x ∈ pre, lineOK x = true) (hcom : clausesIn pre = [])
    (hhead : (headerLine numVars numClauses).length ≤ 1023)
    (hbody : ∀ x ∈ body, lineOK x = true) :
    readDIMACS (textOf pre ++ (headerLine numVars numClauses ++ textOf body)) =
      ReadResult.formula
        ⟨(clausesIn body).take numClauses.toNat, numClauses, numVars⟩ := by
  have hlines : fgetsLines 1024
      (textOf pre ++ (headerLine numVars numClauses ++ textOf body)) [] =
      pre.map (fun x => lineBody x ++ ['\n']) ++
        (headerLine numVars numClauses :: body.map (fun x => lineBody x ++ ['\n'])) := by
    rw [fgetsLines_text _ pre hpre]
    rw [headerLine_eq] at hhead ⊢
    rw [List.append_assoc, List.singleton_append,
      fgetsLines_line _ _ (fun x hx => (headerBody_chars _ _ x hx).1) []
        (by simp only [List.length_append, List.length_cons, List.length_nil] at hhead ⊢
            omega)]
    have hb := fgetsLines_text [] body hbody
    simp only [List.append_nil] at hb
    rw [hb]
    simp [fgetsLines]
  have c3 : cur (headerLine numVars numClauses) = 'p' := rfl
  have hhdr : readHeader (headerLine numVars numClauses ::
        body.map (fun x => lineBody x ++ ['\n'])) =
      some ((numVars, numClauses), body.map (fun x => lineBody x ++ ['\n'])) := by
    rw [readHeader]
    simp [cString_headerLine, c3, scanHeader_headerLine numVars numClauses hnv hnc]
  simp only [readDIMACS, hlines, readHeader_comments _ pre hpre hcom, hhdr]
  rw [readClauses_text numClauses body hbody []]
  simp

set_option maxRecDepth 100000 in
/-- Counterexample for C19. The clause line `0` of the text `p cnf 1 2`, `1 0`,
`0` is skipped and not read as a clause without integers, so one clause is
decoded where the header counts two; putting a comment line of 1026 characters
after the header of `p cnf 2 1`, `1 -2 0` changes the decoded clause from `1 -2`
to `2`; and a number that is no value of the type `int` is not read as itself:
the literal `2147483648` is decoded to `-2147483648` and the count `4294967298`
of the header to `2`. -/
theorem readDIMACS_skips_and_splits :
    readDIMACS "p cnf 1 2\n1 0\n0\n".toList = ReadResult.formula ⟨[[1]], 2, 1⟩ ∧
    readDIMACS "p cnf 2 1\n1 -2 0\n".toList = ReadResult.formula ⟨[[1, -2]], 1, 2⟩ ∧
    readDIMACS longCommentText = ReadResult.formula ⟨[[2]], 1, 2⟩ ∧
    readDIMACS "p cnf 1 1\n2147483648 0\n".toList =
      ReadResult.formula ⟨[[-2147483648]], 1, 1⟩ ∧
    readDIMACS "p cnf 4294967298 1\n1 0\n".toList = ReadResult.formula ⟨[[1]], 1, 2⟩ := by
  decide

/-- C19 (as amended). For every text made of comment lines, the header line
`p cnf <numVars> <numClauses>` and after it comment lines and clause lines, where
the two counts are values of the type `int`, `numClauses` is not negative and not
more than the number of clause lines, a comment line begins with `c` or `%`, a
clause line holds a non-empty clause of at most 100 nonzero literals, each a
value of the type `int`, in the layout written by `printDIMACS`, and every line
fits the line buffer, `readDIMACS` returns `numVars` and `numClauses` of the
header and exactly the first `numClauses` clauses of the clause lines, each as
its integers before the final `0`. A second such text with the same header and
the same clause lines, whatever its comment lines, is decoded to the same
formula. -/
theorem readDIMACS_wellFormed (pre body pre2 body2 : List TextLine)
    (numVars numClauses : Int)
    (hnv : inIntRange numVars = true) (hnc : inIntRange numClauses = true)
    (h0 : 0 ≤ numClauses) (hcount : numClauses ≤ ((clausesIn body).length : Int))
    (hhead : (headerLine numVars numClauses).length ≤ 1023)
    (hpre : ∀ x ∈ pre, lineOK x = true) (hcom : clausesIn pre = [])
    (hbody : ∀ x ∈ body, lineOK x = true)
    (hpre2 : ∀ x ∈ pre2, lineOK x = true) (hcom2 : clausesIn pre2 = [])
    (hbody2 : ∀ x ∈ body2, lineOK x = true)
    (hsame : clausesIn body2 = clausesIn body) :
    readDIMACS (textOf pre ++ (headerLine numVars numClauses ++ textOf body)) =
      ReadResult.formula ⟨(clausesIn body).take numClauses.toNat, numClauses, numVars⟩ ∧
    ((((clausesIn body).take numClauses.toNat).length : Nat) : Int) = numClauses ∧
    readDIMACS (textOf pre2 ++ (headerLine numVars numClauses ++ textOf body2)) =
      readDIMACS (textOf pre ++ (headerLine numVars numClauses ++ textOf body)) := by
  rw [readDIMACS_lines pre body numVars numClauses hnv hnc hpre hcom hhead hbody,
    readDIMACS_lines pre2 body2 numVars numClauses hnv hnc hpre2 hcom2 hhead hbody2, hsame]
  refine ⟨rfl, ?_, rfl⟩
  rw [List.length_take]
  omega

/-- Witness for C19: the text `p cnf 2 1`, `1 -2 0` is decoded to `numVars = 2`
and the single clause `1 -2`, also with comment lines before the header, before
the clause and after it. -/
theorem readDIMACS_wellFormed_witness :
    (inIntRange 2 = true ∧ inIntRange 1 = true ∧ (0 : Int) ≤ 1 ∧
      (1 : Int) ≤ (((clausesIn [TextLine.clause [1, -2]]).length : Nat) : Int) ∧
      (headerLine 2 1).length ≤ 1023 ∧
      (∀ x ∈ ([] : List TextLine), lineOK x = true) ∧ clausesIn [] = [] ∧
      (∀ x ∈ [TextLine.clause [1, -2]], lineOK x = true) ∧
      (∀ x ∈ [TextLine.comment "c first".toList], lineOK x = true) ∧
      clausesIn [TextLine.comment "c first".toList] = [] ∧
      (∀ x ∈ [TextLine.comment "% second".toList, TextLine.clause [1, -2],
        TextLine.comment "c third".toList], lineOK x = true) ∧
      clausesIn [TextLine.comment "% second".toList, TextLine.clause [1, -2],
        TextLine.comment "c third".toList] = clausesIn [TextLine.clause [1, -2]]) ∧
    textOf [] ++ (headerLine 2 1 ++ textOf [TextLine.clause [1, -2]]) =
      "p cnf 2 1\n1 -2 0\n".toList ∧
    textOf [TextLine.comment "c first".toList] ++ (headerLine 2 1 ++
        textOf [TextLine.comment "% second".toList, TextLine.clause [1, -2],
          TextLine.comment "c third".toList]) =
      "c first\np cnf 2 1\n% second\n1 -2 0\nc third\n".toList ∧
    (readDIMACS (textOf [] ++ (headerLine 2 1 ++ textOf [TextLine.clause [1, -2]])) =
      ReadResult.formula ⟨(clausesIn [TextLine.clause [1, -2]]).take (1 : Int).toNat, 1, 2⟩ ∧
    ((((clausesIn [TextLine.clause [1, -2]]).take (1 : Int).toNat).length : Nat) : Int) = 1 ∧
    readDIMACS (textOf [TextLine.comment "c first".toList] ++ (headerLine 2 1 ++
        textOf [TextLine.comment "% second".toList, TextLine.clause [1, -2],
          TextLine.comment "c third".toList])) =
      readDIMACS (textOf [] ++ (headerLine 2 1 ++ textOf [TextLine.clause [1, -2]]))) :=
  ⟨⟨by decide, by decide, by decide, by decide, by decide, by decide, by decide, by decide,
      by decide, by decide, by decide, by decide⟩,
    by decide, by decide,
    readDIMACS_wellFormed [] [TextLine.clause [1, -2]] [TextLine.comment "c first".toList]
      [TextLine.comment "% second".toList, TextLine.clause [1, -2],
        TextLine.comment "c third".toList] 2 1
      (by decide) (by decide) (by decide) (by decide) (by decide) (by decide) (by decide)
      (by decide) (by decide) (by decide) (by decide) (by decide)⟩

/-! ## Reading malformed DIMACS text -/

theorem strtokAll_literals (rest : List Char) : ∀ (literals : List Int),
    strtokAll (literals.flatMap (fun lit => intToText lit ++ [' ']) ++ rest) [] =
      literals.map intToText ++ strtokAll rest [] := by
  intro literals
  induction literals with
  | nil => simp
  | cons l tl ih =>
    simp only [List.flatMap_cons, List.append_assoc, List.singleton_append, List.map_cons,
      List.cons_append]
    rw [strtokAll_token (intToText l) _ ' ' (by decide)
      (fun c hc => (intToText_chars l c hc).1) [] (by simpa using intToText_ne_nil l)]
    simp only [List.nil_append, List.cons.injEq, true_and]
    exact ih

theorem readLiterals_stop (w : List Char) (rest : List (List Char)) (hw : atoi w = 0)
    (literals : List Int) (hnz : ∀ l ∈ literals, l ≠ 0)
    (hr : ∀ l ∈ literals, inIntRange l = true) :
    ∀ (acc : List Int), acc.length + literals.length ≤ 100 →
    readLiterals (literals.map intToText ++ w :: rest) acc = some (acc ++ literals) := by
  induction literals with
  | nil =>
    intro acc _
    simp [readLiterals, hw]
  | cons l tl ih =>
    intro acc hlen
    simp only [List.length_cons] at hlen
    have hl : l ≠ 0 := hnz l (List.mem_cons_self _ _)
    rw [List.map_cons, List.cons_append, readLiterals]
    simp only [atoi_intToText l (hr l (List.mem_cons_self _ _)), beq_iff_eq, hl, if_false]
    have hlt : acc.length < 100 := by omega
    simp only [hlt, if_true]
    rw [ih (fun x hx => hnz x (List.mem_cons_of_mem _ hx))
      (fun x hx => hr x (List.mem_cons_of_mem _ hx)) (acc ++ [l])
      (by simp only [List.length_append, List.length_singleton]; omega)]
    simp

theorem junkOK_spec {w : List Char} (h : junkOK w = true) :
    w ≠ [] ∧ (∀ c ∈ w, isDelim c = false ∧ c ≠ '\x00' ∧ c ≠ '\n') ∧ atoi w = 0 := by
  simp only [junkOK, Bool.and_eq_true, Bool.not_eq_true', List.isEmpty_eq_false,
    List.all_eq_true, bne_iff_ne, ne_eq, beq_iff_eq] at h
  obtain ⟨⟨h1, h2⟩, h3⟩ := h
  refine ⟨h1, fun c hc => ⟨(h2 c hc).1, (h2 c hc).2, ?_⟩, h3⟩
  intro e
  have := (h2 c hc).1
  rw [e] at this
  exact absurd this (by decide)

theorem brokenBody_chars (literals : List Int) (junk rest : List Char)
    (hjunk : junkOK junk = true) (hrest : ∀ c ∈ rest, c ≠ '\n' ∧ c ≠ '\x00') :
    ∀ c ∈ brokenBody literals junk rest, c ≠ '\n' ∧ c ≠ '\x00' := by
  intro c hc
  obtain ⟨-, hj, -⟩ := junkOK_spec hjunk
  simp only [brokenBody, List.mem_append, List.mem_flatMap, List.mem_singleton,
    List.mem_cons] at hc
  rcases hc with ⟨l, -, hl⟩ | hc | hc | hc
  · rcases hl with hl | hl
    · exact ⟨(intToText_chars l c hl).2.2, (intToText_chars l c hl).2.1⟩
    · simp only [List.not_mem_nil, or_false] at hl
      subst hl
      decide
  · exact ⟨(hj c hc).2.2, (hj c hc).2.1⟩
  · subst hc; decide
  · exact hrest c hc

theorem readClauses_broken (numClauses : Int) (body : List TextLine)
    (hbody : ∀ x ∈ body, lineOK x = true) (literals : List Int) (junk rest : List Char)
    (hne : literals ≠ []) (hnz : ∀ l ∈ literals, l ≠ 0)
    (hr : ∀ l ∈ literals, inIntRange l = true) (hcap : literals.length ≤ 100)
    (hjunk : junkOK junk = true) (hrest : ∀ c ∈ rest, c ≠ '\n' ∧ c ≠ '\x00') :
    readClauses numClauses ((brokenBody literals junk rest ++ ['\n']) ::
        body.map (fun x => lineBody x ++ ['\n'])) [] =
      some ((literals :: clausesIn body).take numClauses.toNat) := by
  rw [readClauses]
  by_cases hlt : (0 : Int) < numClauses
  · have hlt2 : ((([] : List (List Int)).length : Nat) : Int) < numClauses := by simpa using hlt
    simp only [hlt2, decide_True, Bool.not_true, Bool.false_eq_true, if_false]
    obtain ⟨l, ls, rfl⟩ : ∃ l ls, literals = l :: ls := by
      cases literals with
      | nil => exact absurd rfl hne
      | cons l ls => exact ⟨l, ls, rfl⟩
    obtain ⟨hj1, hj2, hj3⟩ := junkOK_spec hjunk
    have hcs : cString (brokenBody (l :: ls) junk rest ++ ['\n']) =
        brokenBody (l :: ls) junk rest ++ ['\n'] := by
      apply cString_eq_self
      intro c hc
      rcases List.mem_append.1 hc with hc | hc
      · exact (brokenBody_chars _ _ _ hjunk hrest c hc).2
      · simp only [List.mem_singleton] at hc
        subst hc
        decide
    obtain ⟨ch, chtl, e, k1, k2, k3, -⟩ := intToText_head l (hnz l (List.mem_cons_self _ _))
    have hcur : cur (brokenBody (l :: ls) junk rest ++ ['\n']) = ch := by
      simp [brokenBody, e, cur]
    have g1 : (ch == 'c') = false := by simp [k1]
    have g2 : (ch == '%') = false := by simp [k2]
    have g3 : (ch == '0') = false := by simp [k3]
    simp only [hcs, hcur, g1, g2, g3, Bool.or_self, Bool.false_eq_true, if_false]
    have htok : strtokAll (brokenBody (l :: ls) junk rest ++ ['\n']) [] =
        (l :: ls).map intToText ++ junk :: strtokAll (rest ++ ['\n']) [] := by
      unfold brokenBody
      rw [List.append_assoc, strtokAll_literals]
      congr 1
      rw [List.append_assoc, List.cons_append]
      have := strtokAll_token junk (rest ++ ['\n']) ' ' (by decide)
        (fun c hc => (hj2 c hc).1) [] (by simpa using hj1)
      simpa using this
    rw [htok, readLiterals_stop junk _ hj3 (l :: ls) hnz hr [] (by simpa using hcap)]
    simp only [List.nil_append, List.length_cons, gt_iff_lt, Nat.zero_lt_succ, if_true]
    rw [readClauses_text numClauses body hbody [l :: ls]]
    have hk : numClauses.toNat = (numClauses.toNat - [l :: ls].length) + 1 := by
      simp only [List.length_cons, List.length_nil]
      omega
    rw [hk, List.take_succ_cons]
    simp
  · have hlt2 : ¬ ((([] : List (List Int)).length : Nat) : Int) < numClauses := by simpa using hlt
    simp only [hlt2, decide_False, Bool.not_false, if_true]
    have hk : numClauses.toNat = 0 := by omega
    rw [hk]
    simp

theorem readClauses_zero (lines : List (List Char)) : readClauses 0 lines [] = some [] := by
  cases lines <;> simp [readClauses]

theorem readDIMACS_broken (pre body : List TextLine) (numVars numClauses : Int)
    (literals : List Int) (junk rest : List Char)
    (hnv : inIntRange numVars = true) (hnc : inIntRange numClauses = true)
    (hpre : ∀ x ∈ pre, lineOK x = true) (hcom : clausesIn pre = [])
    (hhead : (headerLine numVars numClauses).length ≤ 1023)
    (hbody : ∀ x ∈ body, lineOK x = true)
    (hne : literals ≠ []) (hnz : ∀ l ∈ literals, l ≠ 0)
    (hr : ∀ l ∈ literals, inIntRange l = true) (hcap : literals.length ≤ 100)
    (hjunk : junkOK junk = true) (hrest : ∀ c ∈ rest, c ≠ '\n' ∧ c ≠ '\x00')
    (hlen : (brokenBody literals junk rest).length + 1 ≤ 1023) :
    readDIMACS (textOf pre ++ (headerLine numVars numClauses ++
        (brokenBody literals junk rest ++ '\n' :: textOf body))) =
      ReadResult.formula
        ⟨(literals :: clausesIn body).take numClauses.toNat, numClauses, numVars⟩ := by
  have hlines : fgetsLines 1024 (textOf pre ++ (headerLine numVars numClauses ++
        (brokenBody literals junk rest ++ '\n' :: textOf body))) [] =
      pre.map (fun x => lineBody x ++ ['\n']) ++
        (headerLine numVars numClauses :: (brokenBody literals junk rest ++ ['\n']) ::
          body.map (fun x => lineBody x ++ ['\n'])) := by
    rw [fgetsLines_text _ pre hpre]
    rw [headerLine_eq] at hhead ⊢
    rw [List.append_assoc, List.singleton_append,
      fgetsLines_line _ _ (fun x hx => (headerBody_chars _ _ x hx).1) []
        (by simp only [List.length_append, List.length_cons, List.length_nil] at hhead ⊢
            omega),
      fgetsLines_line _ _ (fun x hx => (brokenBody_chars _ _ _ hjunk hrest x hx).1) []
        (by simpa using hlen)]
    have hb := fgetsLines_text [] body hbody
    simp only [List.append_nil] at hb
    rw [hb]
    simp [fgetsLines]
  have c3 : cur (headerLine numVars numClauses) = 'p' := rfl
  have hhdr : readHeader (headerLine numVars numClauses ::
        (brokenBody literals junk rest ++ ['\n']) ::
        body.map (fun x => lineBody x ++ ['\n'])) =
      some ((numVars, numClauses), (brokenBody literals junk rest ++ ['\n']) ::
        body.map (fun x => lineBody x ++ ['\n'])) := by
    rw [readHeader]
    simp [cString_headerLine, c3, scanHeader_headerLine numVars numClauses hnv hnc]
  simp only [readDIMACS, hlines, readHeader_comments _ pre hpre hcom, hhdr]
  rw [readClauses_broken numClauses body hbody literals junk rest hne hnz hr hcap hjunk hrest]

theorem readDIMACS_badHeader (pre : List TextLine) (hdr rest : List Char)
    (hpre : ∀ x ∈ pre, lineOK x = true) (hcom : clausesIn pre = [])
    (hp : cur hdr = 'p') (hchars : ∀ c ∈ hdr, c ≠ '\n' ∧ c ≠ '\x00')
    (hlen : hdr.length + 1 ≤ 1023)
    (hbad : ((hdr ++ ['\n']).tail.dropWhile isSpace).take 3 ≠ ['c', 'n', 'f']) :
    readDIMACS (textOf pre ++ (hdr ++ '\n' :: rest)) = ReadResult.formula ⟨[], 0, 0⟩ := by
  have hlines : fgetsLines 1024 (textOf pre ++ (hdr ++ '\n' :: rest)) [] =
      pre.map (fun x => lineBody x ++ ['\n']) ++
        ((hdr ++ ['\n']) :: fgetsLines 1024 rest []) := by
    rw [fgetsLines_text _ pre hpre,
      fgetsLines_line _ _ (fun x hx => (hchars x hx).1) [] (by simpa using hlen)]
    simp
  have hcs : cString (hdr ++ ['\n']) = hdr ++ ['\n'] := by
    apply cString_eq_self
    intro c hc
    rcases List.mem_append.1 hc with hc | hc
    · exact (hchars c hc).2
    · simp only [List.mem_singleton] at hc
      subst hc
      decide
  have hcur : cur (hdr ++ ['\n']) = 'p' := by
    rw [cur_append_of_ne hdr _ (by rw [hp]; decide), hp]
  have hscan : scanHeader (hdr ++ ['\n']) = (0, 0) := by
    have hb : (((hdr ++ ['\n']).tail.dropWhile isSpace).take 3 == ['c', 'n', 'f']) = false := by
      simpa using hbad
    simp only [scanHeader, hcur, beq_self_eq_true, if_true, hb, Bool.false_eq_true, if_false]
  have hhdr : readHeader ((hdr ++ ['\n']) :: fgetsLines 1024 rest []) =
      some ((0, 0), fgetsLines 1024 rest []) := by
    rw [readHeader]
    have g : ('p' == 'c') = false := by decide
    simp only [hcs, hcur, g, Bool.false_eq_true, if_false, beq_self_eq_true, if_true, hscan]
  simp only [readDIMACS, hlines, readHeader_comments _ pre hpre hcom, hhdr, readClauses_zero]

/-- Counterexample for C20. A text with a token that is not a number in a clause
line and a text whose header line reads `p dnf 2 1` are each decoded to a
formula. -/
theorem readDIMACS_accepts_malformed :
    readDIMACS "p cnf 2 1\n1 x 2 0\n".toList = ReadResult.formula ⟨[[1]], 1, 2⟩ ∧
    readDIMACS "p dnf 2 1\n1 2 0\n".toList = ReadResult.formula ⟨[], 0, 0⟩ := by
  decide

/-- C20 (as amended). `readDIMACS` does not check the text. When the first line
after the header holds nonzero literals and then a token that `atoi` maps to 0,
the clause ends before that token, the rest of the line is dropped and the
following lines are read as usual: for a text that is otherwise as in C19 the
result is a formula with the counts of the header and its first `numClauses`
clauses. When the first line that begins with `p` does not go on with `cnf`, the
result has no clause and both counts 0. -/
theorem readDIMACS_no_validation :
    (∀ (pre body : List TextLine) (numVars numClauses : Int) (literals : List Int)
      (junk rest : List Char),
      inIntRange numVars = true → inIntRange numClauses = true → 0 ≤ numClauses →
      numClauses ≤ (((literals :: clausesIn body).length : Nat) : Int) →
      (headerLine numVars numClauses).length ≤ 1023 →
      (∀ x ∈ pre, lineOK x = true) → clausesIn pre = [] →
      (∀ x ∈ body, lineOK x = true) →
      literals ≠ [] → (∀ l ∈ literals, l ≠ 0) → (∀ l ∈ literals, inIntRange l = true) →
      literals.length ≤ 100 →
      junkOK junk = true → (∀ c ∈ rest, c ≠ '\n' ∧ c ≠ '\x00') →
      (brokenBody literals junk rest).length + 1 ≤ 1023 →
      readDIMACS (textOf pre ++ (headerLine numVars numClauses ++
          (brokenBody literals junk rest ++ '\n' :: textOf body))) =
        ReadResult.formula
          ⟨(literals :: clausesIn body).take numClauses.toNat, numClauses, numVars⟩ ∧
      (((((literals :: clausesIn body).take numClauses.toNat).length : Nat) : Int) =
        numClauses)) ∧
    (∀ (pre : List TextLine) (hdr rest : List Char),
      (∀ x ∈ pre, lineOK x = true) → clausesIn pre = [] →
      cur hdr = 'p' → (∀ c ∈ hdr, c ≠ '\n' ∧ c ≠ '\x00') → hdr.length + 1 ≤ 1023 →
      ((hdr ++ ['\n']).tail.dropWhile isSpace).take 3 ≠ ['c', 'n', 'f'] →
      readDIMACS (textOf pre ++ (hdr ++ '\n' :: rest)) = ReadResult.formula ⟨[], 0, 0⟩) := by
  refine ⟨?_, ?_⟩
  · intro pre body numVars numClauses literals junk rest hnv hnc h0 hcount hhead hpre hcom
      hbody hne hnz hr hcap hjunk hrest hlen
    refine ⟨readDIMACS_broken pre body numVars numClauses literals junk rest hnv hnc hpre hcom
      hhead hbody hne hnz hr hcap hjunk hrest hlen, ?_⟩
    rw [List.length_take]
    omega
  · intro pre hdr rest hpre hcom hp hchars hlen hbad
    exact readDIMACS_badHeader pre hdr rest hpre hcom hp hchars hlen hbad

/-- Witness for C20: the two parts at the texts `c note`, `p cnf 2 2`,
`1 x 2 0`, `-2 0` and `p dnf 2 1`, `1 2 0`. -/
theorem readDIMACS_no_validation_witness :
    (textOf [TextLine.comment "c note".toList] ++ (headerLine 2 2 ++
          (brokenBody [1] ['x'] "2 0".toList ++ '\n' :: textOf [TextLine.clause [-2]])) =
        "c note\np cnf 2 2\n1 x 2 0\n-2 0\n".toList ∧
      readDIMACS (textOf [TextLine.comment "c note".toList] ++ (headerLine 2 2 ++
          (brokenBody [1] ['x'] "2 0".toList ++ '\n' :: textOf [TextLine.clause [-2]]))) =
        ReadResult.formula
          ⟨([1] :: clausesIn [TextLine.clause [-2]]).take (2 : Int).toNat, 2, 2⟩ ∧
      ((((([1] : List Int) :: clausesIn [TextLine.clause [-2]]).take (2 : Int).toNat).length
        : Nat) : Int) = 2) ∧
    (textOf [] ++ ("p dnf 2 1".toList ++ '\n' :: "1 2 0\n".toList) =
        "p dnf 2 1\n1 2 0\n".toList ∧
      readDIMACS (textOf [] ++ ("p dnf 2 1".toList ++ '\n' :: "1 2 0\n".toList)) =
        ReadResult.formula ⟨[], 0, 0⟩) :=
  ⟨⟨by decide, readDIMACS_no_validation.1 [TextLine.comment "c note".toList]
      [TextLine.clause [-2]] 2 2 [1] ['x'] "2 0".toList (by decide) (by decide) (by decide)
      (by decide) (by decide) (by decide) (by decide) (by decide) (by decide) (by decide)
      (by decide) (by decide) (by decide) (by decide) (by decide)⟩,
    ⟨by decide, readDIMACS_no_validation.2 [] "p dnf 2 1".toList "1 2 0\n".toList (by decide)
      (by decide) (by decide) (by decide) (by decide) (by decide)⟩⟩

/-! ## The arity invariant along the pipeline -/

theorem wellFormed_moveNegationsInward : ∀ (n : Nat) (t r : Tree),
    wellFormed t = true → moveNegationsInward n t = some r → wellFormed r = true := by
  intro n
  induction n with
  | zero => intro t r _ h; simp [moveNegationsInward] at h
  | succ n ih =>
    intro t r hwf h
    have hbin : ∀ (v : Char) (l rt : Tree), isOperator v = true → v ≠ '~' →
        wellFormed (node v l rt) = true →
        moveNegationsInward (n + 1) (node v l rt) = some r → wellFormed r = true := by
      intro v l rt hop hn hw hm
      obtain ⟨hw1, hw2⟩ := wellFormed_of_binary hop hn hw
      have hv : (v != '~') = true := by simp [hn]
      simp only [moveNegationsInward, hv, if_true] at hm
      cases ha : moveNegationsInward n l with
      | none => simp [ha] at hm
      | some a =>
        cases hb : moveNegationsInward n rt with
        | none => simp [ha, hb] at hm
        | some b =>
          simp only [ha, hb, Option.some.injEq] at hm
          subst hm
          have h1 := ih _ a hw1 ha
          have h2 := ih _ b hw2 hb
          have hn2 : (v == '~') = false := by simp [hn]
          simp [wellFormed, hop, hn2, h1, h2]
    cases t with
    | nil => simp [wellFormed] at hwf
    | node v l rt =>
      rcases char_cases v with rfl | rfl | rfl | rfl | hop
      · simp [wellFormed, isOperator, isNil_iff] at hwf
        obtain ⟨hwl, rfl⟩ := hwf
        cases l with
        | nil => simp [wellFormed] at hwl
        | node lv ll lr =>
          rcases char_cases lv with rfl | rfl | rfl | rfl | hop
          · simp [wellFormed, isOperator, isNil_iff] at hwl
            simp [moveNegationsInward, hasValue, leftOf] at h
            exact ih ll r hwl.1 h
          · simp [wellFormed, isOperator] at hwl
            simp [moveNegationsInward, hasValue, leftOf, rightOf] at h
            cases ha : moveNegationsInward n (node '~' ll nil) with
            | none => simp [ha] at h
            | some a =>
              cases hb : moveNegationsInward n (node '~' lr nil) with
              | none => simp [ha, hb] at h
              | some b =>
                simp [ha, hb] at h
                subst h
                have h1 := ih _ a (by simp [wellFormed, isOperator, hwl.1]) ha
                have h2 := ih _ b (by simp [wellFormed, isOperator, hwl.2]) hb
                simp [wellFormed, isOperator, h1, h2]
          · simp [wellFormed, isOperator] at hwl
            simp [moveNegationsInward, hasValue, leftOf, rightOf] at h
            cases ha : moveNegationsInward n (node '~' ll nil) with
            | none => simp [ha] at h
            | some a =>
              cases hb : moveNegationsInward n (node '~' lr nil) with
              | none => simp [ha, hb] at h
              | some b =>
                simp [ha, hb] at h
                subst h
                have h1 := ih _ a (by simp [wellFormed, isOperator, hwl.1]) ha
                have h2 := ih _ b (by simp [wellFormed, isOperator, hwl.2]) hb
                simp [wellFormed, isOperator, h1, h2]
          · simp [moveNegationsInward, hasValue] at h
            subst h
            simp [wellFormed, isOperator] at hwl
            simp [wellFormed, isOperator, hwl]
          · obtain ⟨h1, h2, h3, h4⟩ := not_operator_ne hop
            simp [wellFormed, hop, isNil_iff] at hwl
            obtain ⟨rfl, rfl⟩ := hwl
            simp [moveNegationsInward, hasValue, h1, h2, h3] at h
            subst h
            have ht : isOperator '~' = true := by decide
            simp [wellFormed, ht, hop]
      · exact hbin '+' l rt (by decide) (by decide) hwf h
      · exact hbin '*' l rt (by decide) (by decide) hwf h
      · exact hbin '>' l rt (by decide) (by decide) hwf h
      · obtain ⟨h1, h2, h3, h4⟩ := not_operator_ne hop
        simp [wellFormed, hop, isNil_iff] at hwf
        obtain ⟨rfl, rfl⟩ := hwf
        simp [moveNegationsInward, h1] at h
        cases n with
        | zero => simp [moveNegationsInward] at h
        | succ m =>
          simp [moveNegationsInward] at h
          subst h
          simp [wellFormed, hop]

/-- C24. The arity invariant is preserved by each pass: for every well-formed
tree, the tree returned by `eliminateImplications` is well-formed, and
`moveNegationsInward` and `distributeOrOverAnd` each return a tree, and every
tree they return is well-formed. -/
theorem passes_preserve_wellFormed (t : Tree) (hwf : wellFormed t = true) :
    wellFormed (eliminateImplications t) = true ∧
    ((∃ n r, moveNegationsInward n t = some r) ∧
      ∀ n r, moveNegationsInward n t = some r → wellFormed r = true) ∧
    ((∃ n r, distributeOrOverAnd n t = some r) ∧
      ∀ n r, distributeOrOverAnd n t = some r → wellFormed r = true) := by
  refine ⟨wellFormed_eliminateImplications t hwf, ⟨?_, ?_⟩, ⟨?_, ?_⟩⟩
  · obtain ⟨r, hr⟩ := Option.isSome_iff_exists.1
      (moveNegationsInward_isSome (size t + 1) t (Nat.lt_succ_self _))
    exact ⟨_, r, hr⟩
  · intro n r h
    exact wellFormed_moveNegationsInward n t r hwf h
  · obtain ⟨r, hr, -⟩ := distributeOrOverAnd_total (weight t) t (le_refl _)
    exact ⟨_, r, hr⟩
  · intro n r h
    exact wellFormed_distributeOrOverAnd n t r hwf h

/-- Witness for C24: the tree of `(~(p>q)) + (r*s)`, with its three results. -/
theorem passes_preserve_wellFormed_witness :
    wellFormed (node '+' (node '~' (node '>' (createNode 'p') (createNode 'q')) nil)
      (node '*' (createNode 'r') (createNode 's'))) = true ∧
    (wellFormed (eliminateImplications (node '+' (node '~' (node '>' (createNode 'p')
        (createNode 'q')) nil) (node '*' (createNode 'r') (createNode 's')))) = true ∧
    ((∃ n r, moveNegationsInward n (node '+' (node '~' (node '>' (createNode 'p')
        (createNode 'q')) nil) (node '*' (createNode 'r') (createNode 's'))) = some r) ∧
      ∀ n r, moveNegationsInward n (node '+' (node '~' (node '>' (createNode 'p')
        (createNode 'q')) nil) (node '*' (createNode 'r') (createNode 's'))) = some r →
        wellFormed r = true) ∧
    ((∃ n r, distributeOrOverAnd n (node '+' (node '~' (node '>' (createNode 'p')
        (createNode 'q')) nil) (node '*' (createNode 'r') (createNode 's'))) = some r) ∧
      ∀ n r, distributeOrOverAnd n (node '+' (node '~' (node '>' (createNode 'p')
        (createNode 'q')) nil) (node '*' (createNode 'r') (createNode 's'))) = some r →
        wellFormed r = true)) ∧
    distributeOrOverAnd 6 (node '+' (node '~' (node '>' (createNode 'p') (createNode 'q')) nil)
      (node '*' (createNode 'r') (createNode 's'))) =
      some (node '*'
        (node '+' (node '~' (node '>' (createNode 'p') (createNode 'q')) nil) (createNode 'r'))
        (node '+' (node '~' (node '>' (createNode 'p') (createNode 'q')) nil)
          (createNode 's'))) :=
  ⟨by decide, passes_preserve_wellFormed _ (by decide), by decide⟩

/-! ## Termination of the pipeline -/

/-- C25. `convertToCNF` terminates on every tree: `eliminateImplications` is a
structural recursion, `moveNegationsInward` returns with any recursion budget
above the size of the tree, `distributeOrOverAnd` with any budget from the
weight of the tree on, and `convertToCNF` returns for some budget and then for
every larger one, with the same result. -/
theorem convertToCNF_terminates (t : Tree) :
    (∀ n, size t < n → ∃ r, moveNegationsInward n t = some r) ∧
    (∀ n, weight t ≤ n → ∃ r, distributeOrOverAnd n t = some r) ∧
    ∃ n r, ∀ m, n ≤ m → convertToCNF m t = some r := by
  refine ⟨?_, ?_, ?_⟩
  · intro n hn
    exact Option.isSome_iff_exists.1 (moveNegationsInward_isSome n t hn)
  · intro n hn
    obtain ⟨r, hr, -⟩ := distributeOrOverAnd_total n t hn
    exact ⟨r, hr⟩
  · cases t with
    | nil => exact ⟨0, nil, fun m _ => rfl⟩
    | node v l rt =>
      obtain ⟨r2, h2⟩ := Option.isSome_iff_exists.1
        (moveNegationsInward_isSome (size (eliminateImplications (node v l rt)) + 1) _
          (Nat.lt_succ_self _))
      obtain ⟨r3, h3, -⟩ := distributeOrOverAnd_total (weight r2) r2 (le_refl _)
      refine ⟨max (size (eliminateImplications (node v l rt)) + 1) (weight r2), r3, ?_⟩
      intro m hm
      have a := moveNegationsInward_mono_le _ m _ _
        (le_trans (le_max_left _ _) hm) h2
      have b := distributeOrOverAnd_mono_le _ m _ _
        (le_trans (le_max_right _ _) hm) h3
      simp only [convertToCNF, a, b]

/-- Witness for C25: the tree of `~((p*q)+r)`, with budgets 7 and 58. -/
theorem convertToCNF_terminates_witness :
    size (node '~' (node '+' (node '*' (createNode 'p') (createNode 'q')) (createNode 'r'))
      nil) < 7 ∧
    (∃ r, moveNegationsInward 7 (node '~' (node '+' (node '*' (createNode 'p')
      (createNode 'q')) (createNode 'r')) nil) = some r) ∧
    weight (node '~' (node '+' (node '*' (createNode 'p') (createNode 'q')) (createNode 'r'))
      nil) ≤ 58 ∧
    (∃ r, distributeOrOverAnd 58 (node '~' (node '+' (node '*' (createNode 'p')
      (createNode 'q')) (createNode 'r')) nil) = some r) ∧
    convertToCNF 7 (node '~' (node '+' (node '*' (createNode 'p') (createNode 'q'))
      (createNode 'r')) nil) =
      some (node '*' (node '+' (node '~' (createNode 'p') nil) (node '~' (createNode 'q') nil))
        (node '~' (createNode 'r') nil)) :=
  ⟨by decide,
    (convertToCNF_terminates (node '~' (node '+' (node '*' (createNode 'p') (createNode 'q'))
      (createNode 'r')) nil)).1 7 (by decide),
    by decide,
    (convertToCNF_terminates (node '~' (node '+' (node '*' (createNode 'p') (createNode 'q'))
      (createNode 'r')) nil)).2.1 58 (by decide),
    by decide⟩

/-! ## Idempotence of the conversion -/

theorem eliminateImplications_id : ∀ (t : Tree), noImplies t = true →
    eliminateImplications t = t := by
  intro t
  induction t with
  | nil => intro _; rfl
  | node v l r ihl ihr =>
    intro h
    simp only [noImplies, Bool.and_eq_true, bne_iff_ne, ne_eq] at h
    have hv : (v == '>') = false := by simp [h.1.1]
    simp only [eliminateImplications, hv, Bool.false_eq_true, if_false, ihl h.1.2, ihr h.2]

theorem moveNegationsInward_id : ∀ (n : Nat) (t : Tree), negOnVars t = true → size t < n →
    moveNegationsInward n t = some t := by
  intro n
  induction n with
  | zero => intro t _ h; omega
  | succ n ih =>
    intro t hneg hsz
    cases t with
    | nil => rfl
    | node v l r =>
      simp only [size] at hsz
      simp only [negOnVars, Bool.and_eq_true, Bool.or_eq_true, bne_iff_ne, ne_eq] at hneg
      obtain ⟨⟨h1, h2⟩, h3⟩ := hneg
      by_cases hv : v = '~'
      · subst hv
        have hl : isVarLeaf l = true := by
          rcases h1 with h1 | h1
          · exact absurd rfl h1
          · exact h1
        obtain ⟨w, hw, rfl⟩ := (isVarLeaf_iff l).1 hl
        obtain ⟨n1, n2, n3, -⟩ := not_operator_ne hw
        simp [moveNegationsInward, hasValue, n1, n2, n3]
      · have hb : (v != '~') = true := by simp [hv]
        simp only [moveNegationsInward, hb, if_true, ih l h2 (by omega), ih r h3 (by omega)]

theorem hasValue_star_of_noAnd {t : Tree} (h : noAnd t = true) : hasValue '*' t = false := by
  cases t with
  | nil => rfl
  | node v l r =>
    simp only [noAnd, Bool.and_eq_true, bne_iff_ne, ne_eq] at h
    simp [hasValue, h.1.1]

theorem distributeOrOverAnd_id : ∀ (n : Nat) (t : Tree), noAndBelowOrNot t = true →
    size t < n → distributeOrOverAnd n t = some t := by
  intro n
  induction n with
  | zero => intro t _ h; omega
  | succ n ih =>
    intro t hno hsz
    cases t with
    | nil => rfl
    | node v l r =>
      simp only [size] at hsz
      simp only [noAndBelowOrNot, Bool.and_eq_true, Bool.or_eq_true, bne_iff_ne,
        ne_eq] at hno
      obtain ⟨⟨h1, h2⟩, h3⟩ := hno
      simp only [distributeOrOverAnd, ih l h2 (by omega), ih r h3 (by omega)]
      by_cases hv : v = '+'
      · subst hv
        rcases h1 with h1 | h1
        · exact absurd rfl h1.1
        · simp [hasValue_star_of_noAnd h1.1, hasValue_star_of_noAnd h1.2]
      · have hb : (v == '+') = false := by simp [hv]
        simp [hb]

theorem convertToCNF_of_isCNF (c : Tree) (hc : isCNF c = true) (n : Nat) (hn : size c < n) :
    convertToCNF n c = some c := by
  obtain ⟨w, a2, a3, a4⟩ := isCNF_spec c hc
  rw [convertToCNF_node_eq n c w, eliminateImplications_id c a2,
    moveNegationsInward_id n c a3 hn]
  exact distributeOrOverAnd_id n c a4 hn

theorem convertToCNF_mono_le (n m : Nat) (t r : Tree) (hnm : n ≤ m)
    (h : convertToCNF n t = some r) : convertToCNF m t = some r := by
  cases t with
  | nil => simpa [convertToCNF] using h
  | node v l rt =>
    simp only [convertToCNF] at h ⊢
    cases h2 : moveNegationsInward n (eliminateImplications (node v l rt)) with
    | none => simp [h2] at h
    | some r2 =>
      simp only [h2] at h
      simp only [moveNegationsInward_mono_le n m _ _ hnm h2]
      exact distributeOrOverAnd_mono_le n m _ _ hnm h

/-- C27. `convertToCNF` is idempotent: for every well-formed tree it returns a
result, and for a result `c` and every recursion budget above the size of `c`
each of the three passes returns `c` unchanged, so that `convertToCNF` applied
to `c` returns `c` again; it never returns anything else. -/
theorem convertToCNF_idempotent (t : Tree) (hwf : wellFormed t = true) :
    (∃ n c, convertToCNF n t = some c) ∧
    ∀ n c, convertToCNF n t = some c →
      (∀ m, size c < m →
        eliminateImplications c = c ∧ moveNegationsInward m c = some c ∧
        distributeOrOverAnd m c = some c ∧ convertToCNF m c = some c) ∧
      ∀ m r, convertToCNF m c = some r → r = c := by
  refine ⟨convertToCNF_total t hwf, ?_⟩
  intro n c h
  obtain ⟨r2, h2, h3⟩ := convertToCNF_some hwf h
  obtain ⟨w2, i2, v2⟩ := moveNegationsInward_shape n _ r2
    (wellFormed_eliminateImplications t hwf) (noImplies_eliminateImplications t) h2
  have hc := isCNF_distributeOrOverAnd n r2 c w2 i2 v2 h3
  obtain ⟨-, a2, a3, a4⟩ := isCNF_spec c hc
  refine ⟨fun m hm => ⟨eliminateImplications_id c a2, moveNegationsInward_id m c a3 hm,
    distributeOrOverAnd_id m c a4 hm, convertToCNF_of_isCNF c hc m hm⟩, ?_⟩
  intro m r hr
  have a := convertToCNF_mono_le m (max m (size c + 1)) c r (le_max_left _ _) hr
  have b := convertToCNF_of_isCNF c hc (max m (size c + 1)) (by
    have := le_max_right m (size c + 1)
    omega)
  rw [a] at b
  exact Option.some.inj b

/-- Witness for C27: the tree of `((p>q)*(~(r+s)))`, whose conversion
`(((~p)+q)*((~r)*(~s)))` is returned unchanged by a second conversion. -/
theorem convertToCNF_idempotent_witness :
    wellFormed (node '*' (node '>' (createNode 'p') (createNode 'q'))
      (node '~' (node '+' (createNode 'r') (createNode 's')) nil)) = true ∧
    convertToCNF 8 (node '*' (node '>' (createNode 'p') (createNode 'q'))
      (node '~' (node '+' (createNode 'r') (createNode 's')) nil)) =
      some (node '*' (node '+' (node '~' (createNode 'p') nil) (createNode 'q'))
        (node '*' (node '~' (createNode 'r') nil) (node '~' (createNode 's') nil))) ∧
    ((∃ n c, convertToCNF n (node '*' (node '>' (createNode 'p') (createNode 'q'))
      (node '~' (node '+' (createNode 'r') (createNode 's')) nil)) = some c) ∧
    ∀ n c, convertToCNF n (node '*' (node '>' (createNode 'p') (createNode 'q'))
        (node '~' (node '+' (createNode 'r') (createNode 's')) nil)) = some c →
      (∀ m, size c < m →
        eliminateImplications c = c ∧ moveNegationsInward m c = some c ∧
        distributeOrOverAnd m c = some c ∧ convertToCNF m c = some c) ∧
      ∀ m r, convertToCNF m c = some r → r = c) :=
  ⟨by decide, by decide, convertToCNF_idempotent _ (by decide)⟩

/-! ## The infix parser on arbitrary text -/

theorem skipChar_length (c : Char) (s : List Char) : (skipChar c s).length ≤ s.length := by
  unfold skipChar
  split
  · simp
  · exact le_refl _

theorem length_of_not_atEnd {s : List Char} (h : atEnd s = false) :
    s.tail.length + 1 = s.length := by
  cases s with
  | nil => simp [atEnd, cur] at h
  | cons c tl => simp

theorem parse_total : ∀ (n : Nat),
    (∀ s : List Char,
      (2 * s.length + 3 ≤ n ∨
        (1 ≤ n ∧ (atEnd s = true ∨ (cur s ≠ '(' ∧ cur s ≠ '~')))) →
      ∃ t rest, parseOperand n s = some (t, rest) ∧ rest.length ≤ s.length) ∧
    (∀ s : List Char, 2 * s.length + 2 ≤ n →
      ∃ t rest, parseExpression n s = some (t, rest) ∧ rest.length ≤ s.length) := by
  intro n
  induction n with
  | zero =>
    constructor
    · intro s h
      rcases h with h | h <;> omega
    · intro s h; omega
  | succ n ih =>
    obtain ⟨ihO, ihE⟩ := ih
    constructor
    · intro s h
      rw [parseOperand]
      by_cases h1 : atEnd s = true
      · simp only [h1, if_true]
        exact ⟨nil, s, rfl, le_refl _⟩
      · simp only [h1, Bool.false_eq_true, if_false]
        have hlen := length_of_not_atEnd (by simpa using h1)
        have hgroup : cur s = '(' ∨ cur s = '~' → 2 * s.length + 2 ≤ n := by
          intro hc
          rcases h with h | ⟨-, h | h⟩
          · omega
          · exact absurd h h1
          · rcases hc with hc | hc
            · exact absurd hc h.1
            · exact absurd hc h.2
        by_cases h2 : cur s = '('
        · simp only [h2, beq_self_eq_true, if_true]
          exact ihE s (hgroup (Or.inl h2))
        · have h2b : (cur s == '(') = false := by simp [h2]
          simp only [h2b, Bool.false_eq_true, if_false]
          by_cases h3 : cur s = '~'
          · simp only [h3, beq_self_eq_true, if_true]
            exact ihE s (hgroup (Or.inr h3))
          · have h3b : (cur s == '~') = false := by simp [h3]
            simp only [h3b, Bool.false_eq_true, if_false]
            exact ⟨_, _, rfl, by omega⟩
    · intro s h
      rw [parseExpression]
      have hs1 := skipChar_length '(' s
      by_cases hneg : (!atEnd (skipChar '(' s) && cur (skipChar '(' s) == '~') = true
      · simp only [hneg, if_true]
        simp only [Bool.and_eq_true, Bool.not_eq_true', beq_iff_eq] at hneg
        have hlen := length_of_not_atEnd hneg.1
        obtain ⟨sub, s2, e, hl⟩ := ihE (skipChar '(' s).tail (by omega)
        simp only [e]
        exact ⟨_, _, rfl, by
          have := skipChar_length ')' s2
          omega⟩
      · simp only [hneg, Bool.false_eq_true, if_false]
        have hop : 2 * (skipChar '(' s).length + 3 ≤ n ∨
            (1 ≤ n ∧ (atEnd (skipChar '(' s) = true ∨
              (cur (skipChar '(' s) ≠ '(' ∧ cur (skipChar '(' s) ≠ '~'))) := by
          by_cases hskip : (!atEnd s && cur s == '(') = true
          · left
            have e : skipChar '(' s = s.tail := by simp [skipChar, hskip]
            simp only [Bool.and_eq_true, Bool.not_eq_true', beq_iff_eq] at hskip
            have := length_of_not_atEnd hskip.1
            rw [e]
            omega
          · right
            have e : skipChar '(' s = s := by simp [skipChar, hskip]
            rw [e] at hneg ⊢
            refine ⟨by omega, ?_⟩
            by_cases ha : atEnd s = true
            · exact Or.inl ha
            · right
              simp only [ha, Bool.not_false, Bool.true_and, beq_iff_eq] at hskip hneg
              exact ⟨hskip, hneg⟩
        obtain ⟨left, s2, e, hl⟩ := ihO (skipChar '(' s) hop
        simp only [e]
        by_cases hbin : (!atEnd s2 && isBinaryOperator (cur s2)) = true
        · simp only [hbin, if_true]
          simp only [Bool.and_eq_true, Bool.not_eq_true'] at hbin
          have hlen := length_of_not_atEnd hbin.1
          obtain ⟨right, s3, e3, hl3⟩ := ihO s2.tail (Or.inl (by omega))
          simp only [e3]
          exact ⟨_, _, rfl, by
            have := skipChar_length ')' s3
            omega⟩
        · simp only [hbin, Bool.false_eq_true, if_false]
          exact ⟨_, _, rfl, by
            have := skipChar_length ')' s2
            omega⟩

theorem buildParseTree_total (s : List Char) (n : Nat) (hn : 2 * s.length + 2 ≤ n) :
    ∃ t, buildParseTree n s = some t := by
  obtain ⟨t, rest, e, -⟩ := (parse_total n).2 s hn
  exact ⟨t, by simp [buildParseTree, e]⟩

theorem parse_no_nul : ∀ (n : Nat),
    (∀ s t rest, parseOperand n s = some (t, rest) → '\x00' ∉ preorder t) ∧
    (∀ s t rest, parseExpression n s = some (t, rest) → '\x00' ∉ preorder t) := by
  intro n
  induction n with
  | zero =>
    constructor
    · intro s t rest h; simp [parseOperand] at h
    · intro s t rest h; simp [parseExpression] at h
  | succ n ih =>
    obtain ⟨ihO, ihE⟩ := ih
    constructor
    · intro s t rest h
      rw [parseOperand] at h
      by_cases h1 : atEnd s = true
      · simp only [h1, if_true, Option.some.injEq, Prod.mk.injEq] at h
        rw [← h.1]
        simp [preorder]
      · simp only [h1, Bool.false_eq_true, if_false] at h
        by_cases h2 : (cur s == '(') = true
        · simp only [h2, if_true] at h
          exact ihE _ _ _ h
        · simp only [h2, Bool.false_eq_true, if_false] at h
          by_cases h3 : (cur s == '~') = true
          · simp only [h3, if_true] at h
            exact ihE _ _ _ h
          · simp only [h3, Bool.false_eq_true, if_false, Option.some.injEq,
              Prod.mk.injEq] at h
            rw [← h.1]
            have hc : cur s ≠ '\x00' := by simpa [atEnd] using h1
            simp [preorder, createNode, hc.symm]
    · intro s t rest h
      rw [parseExpression] at h
      by_cases h1 : (!atEnd (skipChar '(' s) && cur (skipChar '(' s) == '~') = true
      · simp only [h1, if_true] at h
        cases h2 : parseExpression n (skipChar '(' s).tail with
        | none => simp [h2] at h
        | some y =>
          obtain ⟨sub, s2⟩ := y
          simp only [h2, Option.some.injEq, Prod.mk.injEq] at h
          rw [← h.1]
          have := ihE _ _ _ h2
          simp [preorder, this]
      · simp only [h1, Bool.false_eq_true, if_false] at h
        cases h2 : parseOperand n (skipChar '(' s) with
        | none => simp [h2] at h
        | some y =>
          obtain ⟨left, s2⟩ := y
          simp only [h2] at h
          have hl := ihO _ _ _ h2
          by_cases h3 : (!atEnd s2 && isBinaryOperator (cur s2)) = true
          · simp only [h3, if_true] at h
            cases h4 : parseOperand n s2.tail with
            | none => simp [h4] at h
            | some z =>
              obtain ⟨right, s3⟩ := z
              simp only [h4, Option.some.injEq, Prod.mk.injEq] at h
              rw [← h.1]
              have hr := ihO _ _ _ h4
              simp only [Bool.and_eq_true, Bool.not_eq_true'] at h3
              have hc : cur s2 ≠ '\x00' := by
                have := h3.1
                simpa [atEnd] using this
              simp [preorder, hl, hr, hc.symm]
          · simp only [h3, Bool.false_eq_true, if_false, Option.some.injEq,
              Prod.mk.injEq] at h
            rw [← h.1]
            exact hl

theorem treeToPrefix_preorder : ∀ (t : Tree),
    treeToPrefix t [] = (preorder t).flatMap (fun v => [v, ' ']) := by
  intro t
  induction t with
  | nil => rfl
  | node v l r ihl ihr =>
    rw [treeToPrefix_node, ihl, ihr]
    simp [preorder]

theorem flatMap_eq_join (x : Char) : ∀ (xs : List Char),
    (x :: xs).flatMap (fun v => [v, ' ']) =
      joinWithSpaces ((x :: xs).map (fun v => [v])) ++ [' '] := by
  intro xs
  induction xs generalizing x with
  | nil => rfl
  | cons y ys ih =>
    have e : (x :: y :: ys).flatMap (fun v => [v, ' ']) =
        x :: ' ' :: (y :: ys).flatMap (fun v => [v, ' ']) := by
      simp
    rw [e, ih y]
    simp [joinWithSpaces]

theorem trim_flatMap_eq_join (xs : List Char) :
    trimTrailingSpace (xs.flatMap (fun v => [v, ' '])) =
      joinWithSpaces (xs.map (fun v => [v])) := by
  cases xs with
  | nil => rfl
  | cons x tl => rw [flatMap_eq_join, trimTrailingSpace_append_space]

theorem join_chars (xs : List Char) (h : '\x00' ∉ xs) :
    ∀ c ∈ joinWithSpaces (xs.map (fun v => [v])), c ≠ '\x00' := by
  intro c hc
  cases xs with
  | nil => simp [joinWithSpaces] at hc
  | cons x tl =>
    have hmem : c ∈ (x :: tl).flatMap (fun v => [v, ' ']) := by
      rw [flatMap_eq_join]
      exact List.mem_append_left _ hc
    simp only [List.mem_flatMap, List.mem_cons, List.mem_singleton, List.not_mem_nil,
      or_false] at hmem
    obtain ⟨v, hv, hcv⟩ := hmem
    rcases hcv with rfl | rfl
    · intro e
      rw [e] at hv
      exact h (by simpa using hv)
    · decide

theorem infixToPrefix_eq {n : Nat} {s : List Char} {t : Tree}
    (h : buildParseTree n s = some t) :
    infixToPrefix n s = some (joinWithSpaces ((preorder t).map (fun v => [v]))) := by
  have hnul : '\x00' ∉ preorder t := by
    unfold buildParseTree at h
    cases e : parseExpression n s with
    | none => simp [e] at h
    | some x =>
      obtain ⟨t2, rest⟩ := x
      simp only [e, Option.map_some', Option.some.injEq] at h
      subst h
      exact (parse_no_nul n).2 s t2 rest e
  simp only [infixToPrefix, h, treeToPrefix_preorder, trim_flatMap_eq_join]
  rw [cString_eq_self _ (join_chars _ hnul)]

/-- C21. For every input text, `infixToPrefix` returns a result as soon as the
recursion budget is at least twice the length of the text plus two, and every
result is the preorder listing of the nodes of the tree that `buildParseTree`
returns for the text, one character per node, separated by single spaces; it is
the empty text when the tree is empty. -/
theorem infixToPrefix_preorder (s : List Char) :
    (∀ n, 2 * s.length + 2 ≤ n → ∃ r, infixToPrefix n s = some r) ∧
    ∀ n r, infixToPrefix n s = some r →
      ∃ t, buildParseTree n s = some t ∧
        r = joinWithSpaces ((preorder t).map (fun v => [v])) ∧ (t = nil → r = []) := by
  constructor
  · intro n hn
    obtain ⟨t, ht⟩ := buildParseTree_total s n hn
    exact ⟨_, infixToPrefix_eq ht⟩
  · intro n r h
    cases ht : buildParseTree n s with
    | none => simp [infixToPrefix, ht] at h
    | some t =>
      rw [infixToPrefix_eq ht] at h
      have e := (Option.some.inj h).symm
      refine ⟨t, rfl, e, ?_⟩
      intro hnil
      rw [e, hnil]
      rfl

/-- Witness for C21: `(p+q)` gives `+ p q`, and the empty text gives the empty
text. -/
theorem infixToPrefix_preorder_witness :
    2 * "(p+q)".toList.length + 2 ≤ 12 ∧
    (∃ r, infixToPrefix 12 "(p+q)".toList = some r) ∧
    infixToPrefix 12 "(p+q)".toList = some "+ p q".toList ∧
    buildParseTree 12 "(p+q)".toList = some (node '+' (createNode 'p') (createNode 'q')) ∧
    infixToPrefix 12 [] = some [] ∧
    infixToPrefix 40 "((p>q)*(~r))".toList = some "* > p q ~ r".toList :=
  ⟨by decide, (infixToPrefix_preorder "(p+q)".toList).1 12 (by decide), by decide, by decide,
    by decide, by decide⟩

/-! ## A missing operand -/

/-- Counterexample for C23. At `)` and at a binary operator `parseOperand`
returns a leaf holding that character: `(p+)` is parsed to `+` with the right
child `)`, `(p+*q)` to `+` with the childless right child `*`, and `+q` to the
childless node `+`. -/
theorem parseOperand_fabricates_leaf :
    parseOperand 1 ")".toList = some (node ')' nil nil, []) ∧
    parseOperand 1 "+q".toList = some (node '+' nil nil, ['q']) ∧
    buildParseTree 10 "(p+)".toList =
      some (node '+' (node 'p' nil nil) (node ')' nil nil)) ∧
    buildParseTree 10 "(p+*q)".toList =
      some (node '+' (node 'p' nil nil) (node '*' nil nil)) ∧
    buildParseTree 10 "+q".toList = some (node '+' nil nil) := by
  decide

/-- C23 (as amended). The operand that `parseOperand` produces is absent at the
end of the input; at every other character except `(` and `~`, a binary
operator and `)` included, it is a leaf holding that character, and the
character is consumed. So after a variable and a binary operator the right
child is absent at the end of the input, the leaf `)` before `)` and a childless
operator node before a binary operator. -/
theorem parseOperand_absent_only_at_end (n : Nat) (s : List Char) (v op : Char) :
    (atEnd s = true → parseOperand (n + 1) s = some (nil, s)) ∧
    (atEnd s = false → cur s ≠ '(' → cur s ≠ '~' →
      parseOperand (n + 1) s = some (node (cur s) nil nil, s.tail)) ∧
    (isOperator v = false → v ≠ '(' → v ≠ '\x00' → isBinaryOperator op = true →
      buildParseTree (n + 2) [v, op] = some (node op (node v nil nil) nil) ∧
      buildParseTree (n + 2) [v, op, ')'] =
        some (node op (node v nil nil) (node ')' nil nil)) ∧
      buildParseTree (n + 2) [v, op, op] =
        some (node op (node v nil nil) (node op nil nil))) := by
  refine ⟨?_, ?_, ?_⟩
  · intro h
    simp [parseOperand, h]
  · intro h h1 h2
    simp [parseOperand, h, h1, h2, createNode]
  · intro hv h1 h0 hop
    obtain ⟨n1, -, -, -⟩ := not_operator_ne hv
    have o0 : op ≠ '\x00' := by
      intro e; rw [e] at hop; exact absurd hop (by decide)
    have o1 : op ≠ '(' := by
      intro e; rw [e] at hop; exact absurd hop (by decide)
    have o2 : op ≠ '~' := by
      intro e; rw [e] at hop; exact absurd hop (by decide)
    have hs : ∀ rest, skipChar '(' (v :: rest) = v :: rest :=
      fun rest => skipChar_of_ne _ _ (by simpa [cur] using h1)
    have hneg : ∀ rest, (!atEnd (v :: rest) && cur (v :: rest) == '~') = false := by
      intro rest; simp [cur, n1]
    have hleaf : ∀ rest, parseOperand (n + 1) (v :: rest) = some (node v nil nil, rest) :=
      fun rest => parse_leaf_operand hv h0 h1 n rest
    have hbin : ∀ rest, (!atEnd (op :: rest) && isBinaryOperator (cur (op :: rest))) = true := by
      intro rest; simp [atEnd, cur, o0, hop]
    refine ⟨?_, ?_, ?_⟩
    · simp only [buildParseTree]
      rw [parseExpression]
      simp only [hs, hneg, Bool.false_eq_true, if_false, hleaf, hbin, if_true, List.tail_cons]
      simp [parseOperand, atEnd, cur]
    · simp only [buildParseTree]
      rw [parseExpression]
      simp only [hs, hneg, Bool.false_eq_true, if_false, hleaf, hbin, if_true, List.tail_cons]
      simp [parseOperand, atEnd, cur, createNode]
    · simp only [buildParseTree]
      rw [parseExpression]
      simp only [hs, hneg, Bool.false_eq_true, if_false, hleaf, hbin, if_true, List.tail_cons]
      simp [parseOperand, atEnd, cur, createNode, o0, o1, o2]

/-- Witness for C23: the texts `p+`, `p+)` and `p++`, and the operand positions
at the end of the input and at `)`. -/
theorem parseOperand_absent_only_at_end_witness :
    (atEnd ([] : List Char) = true ∧ parseOperand 1 [] = some (nil, [])) ∧
    ((atEnd ")x".toList = false ∧ cur ")x".toList ≠ '(' ∧ cur ")x".toList ≠ '~') ∧
      parseOperand 1 ")x".toList = some (node (cur ")x".toList) nil nil, ")x".toList.tail)) ∧
    ((isOperator 'p' = false ∧ 'p' ≠ '(' ∧ 'p' ≠ '\x00' ∧ isBinaryOperator '+' = true) ∧
      buildParseTree 2 ['p', '+'] = some (node '+' (node 'p' nil nil) nil) ∧
      buildParseTree 2 ['p', '+', ')'] =
        some (node '+' (node 'p' nil nil) (node ')' nil nil)) ∧
      buildParseTree 2 ['p', '+', '+'] =
        some (node '+' (node 'p' nil nil) (node '+' nil nil))) :=
  ⟨⟨by decide, (parseOperand_absent_only_at_end 0 [] 'p' '+').1 (by decide)⟩,
    ⟨⟨by decide, by decide, by decide⟩,
      (parseOperand_absent_only_at_end 0 ")x".toList 'p' '+').2.1 (by decide) (by decide)
        (by decide)⟩,
    ⟨⟨by decide, by decide, by decide, by decide⟩,
      (parseOperand_absent_only_at_end 0 [] 'p' '+').2.2 (by decide) (by decide) (by decide)
        (by decide)⟩⟩

/-! ## Missing closing parentheses -/

theorem inorderTraversal_head_ne_close : ∀ (t : Tree), wellFormed t = true →
    (∀ v ∈ varsOf t, v ≠ '(' ∧ v ≠ ')' ∧ v ≠ '\x00') →
    ∃ c tl, inorderTraversal t [] = c :: tl ∧ c ≠ ')' := by
  intro t hwf hvars
  cases t with
  | nil => simp [wellFormed] at hwf
  | node v l r =>
    by_cases hn : v = '~'
    · subst hn
      simp [wellFormed, isOperator, isNil_iff] at hwf
      obtain ⟨-, rfl⟩ := hwf
      exact ⟨'(', _, inorderTraversal_not l, by decide⟩
    · by_cases hop : isOperator v = true
      · exact ⟨'(', _, inorderTraversal_binary hop hn l r, by decide⟩
      · simp only [Bool.not_eq_true] at hop
        simp [wellFormed, hop, isNil_iff] at hwf
        obtain ⟨rfl, rfl⟩ := hwf
        have hv := hvars v (by simp [varsOf, hop])
        exact ⟨v, [], inorderTraversal_leaf hop, hv.2.1⟩

theorem split_before_closing (B : List Char) (k : Nat) (c : Char) (tl : List Char)
    (hB : B = c :: tl) (hc : c ≠ ')') : ∀ (A u : List Char),
    u ++ List.replicate k ')' = A ++ B →
    ∃ ur, u = A ++ ur ∧ ur ++ List.replicate k ')' = B := by
  intro A
  induction A with
  | nil => intro u h; exact ⟨u, rfl, by simpa using h⟩
  | cons a A2 ih =>
    intro u h
    cases u with
    | nil =>
      have hmem : c ∈ List.replicate k ')' := by
        simp only [List.nil_append] at h
        rw [h, hB]
        simp
      exact absurd (List.eq_of_mem_replicate hmem) hc
    | cons d u2 =>
      simp only [List.cons_append, List.cons.injEq] at h
      obtain ⟨ur, e1, e2⟩ := ih u2 h.2
      exact ⟨ur, by rw [h.1, e1]; rfl, e2⟩

theorem ParenDrop_nil {b : List Char} (h : ParenDrop [] b) : b = [] :=
  h.eq_of_ne (by decide)

theorem parse_truncated : ∀ (t : Tree), wellFormed t = true →
    (∀ v ∈ varsOf t, v ≠ '(' ∧ v ≠ ')' ∧ v ≠ '\x00') →
    ∀ (u : List Char) (k : Nat), u ++ List.replicate k ')' = inorderTraversal t [] →
    (∀ n, 2 * size t ≤ n → parseExpression n u = some (t, [])) ∧
    (∀ n, 2 * size t + 1 ≤ n → parseOperand n u = some (t, [])) := by
  intro t
  induction t with
  | nil => intro h; simp [wellFormed] at h
  | node v l r ihl ihr =>
    intro hwf hvars u k hu
    have hfull : u = inorderTraversal (node v l r) [] →
        (∀ n, 2 * size (node v l r) ≤ n → parseExpression n u = some (node v l r, [])) ∧
        (∀ n, 2 * size (node v l r) + 1 ≤ n →
          parseOperand n u = some (node v l r, [])) := by
      intro e
      obtain ⟨pe, po⟩ := parse_inorder (node v l r) hwf hvars
      constructor
      · intro n hn
        obtain ⟨r2, h2, pd⟩ := pe n [] hn (Or.inr (by simp [cur, isBinaryOperator]))
        rw [ParenDrop_nil pd, List.append_nil] at h2
        rw [e]; exact h2
      · intro n hn
        obtain ⟨r2, h2, pd⟩ := po n [] hn
        rw [ParenDrop_nil pd, List.append_nil] at h2
        rw [e]; exact h2
    cases k with
    | zero => exact hfull (by simpa using hu)
    | succ k =>
      rw [List.replicate_succ', ← List.append_assoc] at hu
      simp only [varsOf, List.mem_append] at hvars
      by_cases hn : v = '~'
      · subst hn
        simp [wellFormed, isOperator, isNil_iff] at hwf
        obtain ⟨hwl, rfl⟩ := hwf
        rw [inorderTraversal_not] at hu
        have hu2 : u ++ List.replicate k ')' = '(' :: '~' :: inorderTraversal l [] := by
          have : u ++ List.replicate k ')' ++ [')'] =
              ('(' :: '~' :: inorderTraversal l []) ++ [')'] := by simpa using hu
          exact List.append_cancel_right this
        obtain ⟨c, tl, hc, hc1⟩ := inorderTraversal_head_ne_close l hwl
          (fun w hw => hvars w (Or.inl (Or.inr hw)))
        obtain ⟨ur, e1, e2⟩ := split_before_closing (inorderTraversal l []) k c tl hc hc1
          ['(', '~'] u (by simpa using hu2)
        obtain ⟨el, -⟩ := ihl hwl (fun w hw => hvars w (Or.inl (Or.inr hw))) ur k e2
        have hE : ∀ n, 2 * size (node '~' l nil) ≤ n →
            parseExpression n u = some (node '~' l nil, []) := by
          intro n hfuel
          simp only [size] at hfuel
          obtain ⟨m, rfl⟩ : ∃ m, n = m + 1 := ⟨n - 1, by omega⟩
          have := parse_not_expression m ur [] l (el m (by omega))
          rw [e1]
          simpa [skipChar, atEnd, cur] using this
        refine ⟨hE, ?_⟩
        intro n hfuel
        obtain ⟨m, rfl⟩ : ∃ m, n = m + 1 := ⟨n - 1, by omega⟩
        have h2 := hE m (by omega)
        rw [e1] at h2 ⊢
        exact parse_group_operand m _ _ h2
      · by_cases hop : isOperator v = true
        · obtain ⟨hw1, hw2⟩ := wellFormed_of_binary hop hn hwf
          obtain ⟨-, -, -, m4⟩ := operator_ne_misc hop
          rw [inorderTraversal_binary hop hn] at hu
          have hu2 : u ++ List.replicate k ')' =
              ('(' :: (inorderTraversal l [] ++ [v])) ++ inorderTraversal r [] := by
            have : u ++ List.replicate k ')' ++ [')'] =
                (('(' :: (inorderTraversal l [] ++ [v])) ++ inorderTraversal r []) ++ [')'] := by
              simpa using hu
            exact List.append_cancel_right this
          obtain ⟨c, tl, hc, hc1⟩ := inorderTraversal_head_ne_close r hw2
            (fun w hw => hvars w (Or.inr hw))
          obtain ⟨ur, e1, e2⟩ := split_before_closing (inorderTraversal r []) k c tl hc hc1
            _ u hu2
          obtain ⟨-, ol⟩ := parse_inorder l hw1 (fun w hw => hvars w (Or.inl (Or.inr hw)))
          obtain ⟨-, or⟩ := ihr hw2 (fun w hw => hvars w (Or.inr hw)) ur k e2
          obtain ⟨cl, tll, hcl, hcl1⟩ := inorderTraversal_head l hw1
            (fun w hw => hvars w (Or.inl (Or.inr hw)))
          have hE : ∀ n, 2 * size (node v l r) ≤ n →
              parseExpression n u = some (node v l r, []) := by
            intro n hfuel
            simp only [size] at hfuel
            obtain ⟨m, rfl⟩ : ∃ m, n = m + 1 := ⟨n - 1, by omega⟩
            obtain ⟨r1, h1, pd1⟩ := ol m (v :: ur) (by omega)
            have e3 := pd1.eq_of_ne (by simpa [cur] using m4)
            subst e3
            have h3 := or m (by omega)
            have := parse_binary_expression m hop hn _ _ [] cl tll hcl hcl1 l r h1 h3
            rw [e1]
            simpa [skipChar, atEnd, cur] using this
          refine ⟨hE, ?_⟩
          intro n hfuel
          obtain ⟨m, rfl⟩ : ∃ m, n = m + 1 := ⟨n - 1, by omega⟩
          have h2 := hE m (by omega)
          rw [e1] at h2 ⊢
          exact parse_group_operand m _ _ h2
        · simp only [Bool.not_eq_true] at hop
          simp [wellFormed, hop, isNil_iff] at hwf
          obtain ⟨rfl, rfl⟩ := hwf
          obtain ⟨-, g2, -⟩ := hvars v (Or.inl (Or.inl (by simp [hop])))
          rw [inorderTraversal_leaf hop] at hu
          cases u with
          | nil =>
            cases k with
            | zero => simp at hu; exact absurd hu.symm g2
            | succ k => simp [List.replicate_succ] at hu
          | cons d u2 => simp at hu

/-- C22. Missing closing parentheses are tolerated: for every well-formed tree
whose variable symbols are none of `(`, `)`, NUL (nor operators), and every text
`u` that is the fully parenthesized text of the tree without some number `k` of
its trailing `)`, `buildParseTree` returns the tree itself for `u`, as it does
for the complete text, as soon as the recursion budget is at least twice the
size of the tree, and never returns anything else for `u`. -/
theorem missing_close_tolerated (t : Tree) (hwf : wellFormed t = true)
    (hvars : ∀ v ∈ varsOf t, v ≠ '(' ∧ v ≠ ')' ∧ v ≠ '\x00') (u : List Char) (k : Nat)
    (hu : u ++ List.replicate k ')' = inorderTraversal t []) (n : Nat) :
    (2 * size t ≤ n →
      buildParseTree n u = some t ∧ buildParseTree n (inorderTraversal t []) = some t) ∧
    (∀ r, buildParseTree n u = some r → r = t) := by
  have cut : ∀ m, 2 * size t ≤ m → buildParseTree m u = some t := by
    intro m hm
    simp [buildParseTree, (parse_truncated t hwf hvars u k hu).1 m hm]
  have full : ∀ m, 2 * size t ≤ m → buildParseTree m (inorderTraversal t []) = some t := by
    intro m hm
    have h0 : inorderTraversal t [] ++ List.replicate 0 ')' = inorderTraversal t [] := by simp
    simp [buildParseTree, (parse_truncated t hwf hvars _ 0 h0).1 m hm]
  exact ⟨fun hn => ⟨cut n hn, full n hn⟩,
    fun r hr => buildParseTree_unique hr (cut (2 * size t) (le_refl _))⟩

/-- Witness for C22: the text `((p+q)*(~r))` without its last two `)`. -/
theorem missing_close_tolerated_witness :
    (wellFormed (node '*' (node '+' (createNode 'p') (createNode 'q'))
        (node '~' (createNode 'r') nil)) = true ∧
      (∀ v ∈ varsOf (node '*' (node '+' (createNode 'p') (createNode 'q'))
        (node '~' (createNode 'r') nil)), v ≠ '(' ∧ v ≠ ')' ∧ v ≠ '\x00') ∧
      "((p+q)*(~r".toList ++ List.replicate 2 ')' =
        inorderTraversal (node '*' (node '+' (createNode 'p') (createNode 'q'))
          (node '~' (createNode 'r') nil)) []) ∧
    ((2 * size (node '*' (node '+' (createNode 'p') (createNode 'q'))
        (node '~' (createNode 'r') nil)) ≤ 12 →
      buildParseTree 12 "((p+q)*(~r".toList =
        some (node '*' (node '+' (createNode 'p') (createNode 'q'))
          (node '~' (createNode 'r') nil)) ∧
      buildParseTree 12 (inorderTraversal (node '*' (node '+' (createNode 'p')
          (createNode 'q')) (node '~' (createNode 'r') nil)) []) =
        some (node '*' (node '+' (createNode 'p') (createNode 'q'))
          (node '~' (createNode 'r') nil))) ∧
    (∀ r, buildParseTree 12 "((p+q)*(~r".toList = some r →
      r = node '*' (node '+' (createNode 'p') (createNode 'q'))
        (node '~' (createNode 'r') nil))) ∧
    buildParseTree 12 "((p+q)*(~r)".toList =
      some (node '*' (node '+' (createNode 'p') (createNode 'q'))
        (node '~' (createNode 'r') nil)) :=
  ⟨⟨by decide, by decide, by decide⟩,
    missing_close_tolerated _ (by decide) (by decide) "((p+q)*(~r".toList 2 (by decide) 12,
    by decide⟩

/-! ## The clause-set view agrees with the tree view -/

theorem holds_cnf (val : Char → Bool) : ∀ (t : Tree), isCNF t = true →
    holds val t = (clausesOf t).all (holds val) := by
  intro t
  induction t with
  | nil => intro h; simp [isCNF] at h
  | node v l r ihl ihr =>
    intro h
    by_cases hs : v = '*'
    · subst hs
      simp only [isCNF, beq_self_eq_true, if_true, Bool.and_eq_true] at h
      have e1 : ('*' == '~') = false := by decide
      have e2 : ('*' == '+') = false := by decide
      simp only [holds, e1, e2, Bool.false_eq_true, if_false, beq_self_eq_true, if_true,
        clausesOf, List.all_append, ihl h.1, ihr h.2]
    · have hs2 : (v == '*') = false := by simp [hs]
      simp [clausesOf, hs2]

theorem holds_clause (val : Char → Bool) : ∀ (c : Tree), isClause c = true →
    holds val c = (litsOf c).any (litHolds val) := by
  intro c
  induction c with
  | nil => intro h; simp [isClause] at h
  | node v l r ihl ihr =>
    intro h
    by_cases hp : v = '+'
    · subst hp
      simp only [isClause, beq_self_eq_true, if_true, Bool.and_eq_true] at h
      have e1 : ('+' == '~') = false := by decide
      simp only [holds, e1, Bool.false_eq_true, if_false, beq_self_eq_true, if_true, litsOf,
        List.any_append, ihl h.1, ihr h.2]
    · have hp2 : (v == '+') = false := by simp [hp]
      simp only [isClause, hp2, Bool.false_eq_true, if_false, isLiteral, Bool.or_eq_true,
        Bool.and_eq_true] at h
      rcases h with h | ⟨⟨ha, hb⟩, hc⟩
      · obtain ⟨w, hw, e⟩ := (isVarLeaf_iff _).1 h
        cases e
        obtain ⟨n1, n2, n3, n4⟩ := not_operator_ne hw
        simp [holds, litsOf, litHolds, hw, n1, n2, n3, n4]
      · simp only [hasValue_node, beq_iff_eq] at ha
        subst ha
        simp only [leftOf_node, rightOf_node, isNil_iff] at hb hc
        subst hc
        obtain ⟨w, hw, rfl⟩ := (isVarLeaf_iff _).1 hb
        obtain ⟨n1, n2, n3, n4⟩ := not_operator_ne hw
        simp [holds, litsOf, litHolds, hw, valueOf, isNil, n1, n2, n3, n4]

theorem holds_cnf_iff (val : Char → Bool) (t : Tree) (hc : isCNF t = true) :
    holds val t = true ↔ ∀ c ∈ clausesOf t, ∃ x ∈ litsOf c, litHolds val x = true := by
  rw [holds_cnf val t hc, List.all_eq_true]
  constructor
  · intro h c hcm
    have := h c hcm
    rw [holds_clause val c ((clausesOf_spec t hc).2 c hcm).1, List.any_eq_true] at this
    exact this
  · intro h c hcm
    rw [holds_clause val c ((clausesOf_spec t hc).2 c hcm).1, List.any_eq_true]
    exact h c hcm

theorem literal_agrees (m : VarMap) (A : Assignment) (a : List Int) (x : Char × Bool)
    (i : Int) (hi : lookupIntVar x.1 m = some i) (h1 : 1 ≤ i)
    (ha : a.getD i.toNat 0 = getTruthValue x.1 A)
    (h01 : getTruthValue x.1 A = 0 ∨ getTruthValue x.1 A = 1) :
    ((0 < encodeLit m x ∧ a.getD (encodeLit m x).natAbs 0 ≠ 0) ∨
      (encodeLit m x < 0 ∧ a.getD (encodeLit m x).natAbs 0 = 0)) ↔
    litHolds (fun v => getTruthValue v A == 1) x = true := by
  obtain ⟨s, b⟩ := x
  simp only at hi ha h01
  have hn1 : (-i).natAbs = i.toNat := by omega
  have hn2 : i.natAbs = i.toNat := by omega
  cases b with
  | true =>
    simp only [encodeLit, hi, Option.getD_some, if_true, hn1, ha, litHolds,
      Bool.not_eq_true', beq_eq_false_iff_ne, ne_eq]
    constructor
    · rintro (⟨h, -⟩ | ⟨-, h⟩)
      · omega
      · rw [h]; decide
    · intro h
      right
      refine ⟨by omega, ?_⟩
      rcases h01 with h0 | h0
      · exact h0
      · exact absurd h0 h
  | false =>
    simp only [encodeLit, hi, Option.getD_some, Bool.false_eq_true, if_false, hn2, ha,
      litHolds, beq_iff_eq]
    constructor
    · rintro (⟨-, h⟩ | ⟨h, -⟩)
      · rcases h01 with h0 | h0
        · exact absurd h0 h
        · exact h0
      · omega
    · intro h
      left
      refine ⟨by omega, ?_⟩
      rw [h]; decide

theorem evaluateDIMACS_of_tree (t : Tree) (A : Assignment) (a : List Int) (m : VarMap)
    (cls : List (List Int)) (hcnf : isCNF t = true) (hA : assignsAll A t = true)
    (s1 : m.map Prod.snd = idsFrom1 m.length)
    (hcls : cls = (clausesOf t).map (fun c => (litsOf c).map (encodeLit m)))
    (hdef : ∀ c ∈ clausesOf t, ∀ x ∈ litsOf c, ∃ i, lookupIntVar x.1 m = some i ∧ 1 ≤ i)
    (hlen : a.length = m.length + 1)
    (ha : ∀ id : Nat, 1 ≤ id → id ≤ m.length →
      a.getD id 0 = getTruthValue (getCharVar (id : Int) m) A) :
    ∃ b, evaluateDIMACS ⟨cls, ((clausesOf t).length : Int), (m.length : Int)⟩ a = some b ∧
      (b = true ↔ evaluateFormula t A = 1) := by
  obtain ⟨hwf, -, -, -⟩ := isCNF_spec t hcnf
  have hvals := assignsAll_iff_forall A t hA
  have hnd : (m.map Prod.snd).Nodup := s1 ▸ idsFrom1_nodup m.length
  -- what is known of every literal occurrence
  have hlit : ∀ c ∈ clausesOf t, ∀ x ∈ litsOf c, ∃ i, lookupIntVar x.1 m = some i ∧ 1 ≤ i ∧
      i ≤ (m.length : Int) ∧ a.getD i.toNat 0 = getTruthValue x.1 A ∧
      (getTruthValue x.1 A = 0 ∨ getTruthValue x.1 A = 1) := by
    intro c hc x hx
    obtain ⟨i, hi, hi1⟩ := hdef c hc x hx
    have hmem := lookupIntVar_mem x.1 m i hi
    obtain ⟨-, r2⟩ := table_range m s1 (x.1, i) hmem
    simp only at r2
    have hget := ha i.toNat (by omega) (by omega)
    have hcast : ((i.toNat : Nat) : Int) = i := by omega
    rw [hcast, getCharVar_of_mem x.1 i m hnd hmem] at hget
    refine ⟨i, hi, hi1, r2, hget, ?_⟩
    apply hvals
    have hsub := ((clausesOf_spec t hcnf).2 c hc).2.2
    exact hsub _ (litsOf_subset_varsOf c x.1 x.2 (by simpa using hx))
  have hrange : ∀ c ∈ cls, ∀ l ∈ c, l.natAbs < a.length := by
    intro c hc l hl
    rw [hcls] at hc
    obtain ⟨c0, hc0, rfl⟩ := List.mem_map.1 hc
    obtain ⟨x, hx, rfl⟩ := List.mem_map.1 hl
    obtain ⟨i, hi, hi1, hi2, -, -⟩ := hlit c0 hc0 x hx
    unfold encodeLit
    rw [hi]
    simp only [Option.getD_some]
    split <;> omega
  obtain ⟨b, hb, hiff⟩ := evaluateClauses_spec a cls hrange
  have hcount : cls.length = (clausesOf t).length := by rw [hcls, List.length_map]
  refine ⟨b, ?_, ?_⟩
  · simp only [evaluateDIMACS, Int.toNat_ofNat]
    rw [← hcount]
    exact hb
  · rw [hiff, evaluateFormula_eq_holds A t hwf hA]
    have hsplit : (if holds (fun v => getTruthValue v A == 1) t = true then (1 : Int) else 0) = 1 ↔
        holds (fun v => getTruthValue v A == 1) t = true := by
      split <;> simp_all
    rw [hsplit, holds_cnf_iff _ t hcnf, hcls]
    constructor
    · intro h c0 hc0
      obtain ⟨l, hl, hsat⟩ := h _ (List.mem_map_of_mem _ hc0)
      obtain ⟨x, hx, rfl⟩ := List.mem_map.1 hl
      obtain ⟨i, hi, hi1, -, hget, h01⟩ := hlit c0 hc0 x hx
      exact ⟨x, hx, (literal_agrees m A a x i hi hi1 hget h01).1 hsat⟩
    · intro h c hc
      obtain ⟨c0, hc0, rfl⟩ := List.mem_map.1 hc
      obtain ⟨x, hx, hsat⟩ := h c0 hc0
      obtain ⟨i, hi, hi1, -, hget, h01⟩ := hlit c0 hc0 x hx
      exact ⟨encodeLit m x, List.mem_map_of_mem _ hx,
        (literal_agrees m A a x i hi hi1 hget h01).2 hsat⟩

set_option maxRecDepth 100000 in
/-- Counterexample for C26. The tree `manySymbolsCNF` is well-formed and
CNF-shaped, `convertToCNF` returns it unchanged, it has 3 clauses of at most 50
literals each, and 101 distinct variable symbols: `treeToDIMACS` writes the
record of the last symbol past the end of the table `varMap[100]`, so there is
no clause set to evaluate. -/
theorem treeToDIMACS_overflows_symbol_table :
    wellFormed manySymbolsCNF = true ∧ isCNF manySymbolsCNF = true ∧
    (clausesOf manySymbolsCNF).map (fun c => (litsOf c).length) = [50, 50, 1] ∧
    (firstSeen (varsOf manySymbolsCNF)).length = 101 ∧
    convertToCNF 210 manySymbolsCNF = some manySymbolsCNF ∧
    (treeToDIMACS manySymbolsCNF []).isNone = true := by
  refine ⟨by decide, by decide, by decide, by decide, by decide, by decide⟩

/-- C26 (as amended). For every CNF-shaped tree (in particular every result of
`convertToCNF` on a well-formed tree) with at most 100 clauses, at most 50
literals in each clause and at most 100 distinct variable symbols, and every
assignment `A` that gives each of its variables 0 or 1, `treeToDIMACS` returns a
clause set and a table, and for every array `a` with
`a[id] = A(getCharVar(id))` for the numbers `1 .. numVars` of the table,
`evaluateDIMACS` returns true on the clause set exactly when `evaluateFormula`
returns 1 on the tree. -/
theorem clause_set_agrees_with_tree (t : Tree) (before : VarMap) (A : Assignment)
    (a : List Int) (hcnf : isCNF t = true)
    (hcl : (clausesOf t).length ≤ 100)
    (hlit : ∀ c ∈ clausesOf t, (litsOf c).length ≤ 50)
    (hvar : (firstSeen (varsOf t)).length ≤ 100)
    (hA : assignsAll A t = true) :
    ∃ f m, treeToDIMACS t before = some (f, m) ∧
      (a.length = m.length + 1 →
        (∀ id : Nat, 1 ≤ id → id ≤ m.length →
          a.getD id 0 = getTruthValue (getCharVar (id : Int) m) A) →
        ∃ b, evaluateDIMACS f a = some b ∧ (b = true ↔ evaluateFormula t A = 1)) := by
  have hsym := symbolsOf_clausesOf t hcnf
  have hlen : (firstSeenFrom (([] : VarMap).map Prod.fst) (symbolsOf (clausesOf t))).length
      ≤ 100 := by
    rw [hsym]; exact hvar
  obtain ⟨cls, m, e, -, s1, -, -, hcls, hdef⟩ :=
    convertClauses_spec (clausesOf t) [] rfl List.nodup_nil hlit hlen
  refine ⟨⟨cls, ((clausesOf t).length : Int), (m.length : Int)⟩, m, ?_, ?_⟩
  · simp [treeToDIMACS, extractClauses_within t hcl, e]
  · intro hal ha
    exact evaluateDIMACS_of_tree t A a m cls hcnf hA s1 hcls hdef hal ha

/-- Witness for C26: the CNF `(((~p)+q)*(~r))` of `((p>q)*(~r))` under
`p = 1`, `q = 1`, `r = 0`, with the array `a = [0, 1, 1, 0]`. -/
theorem clause_set_agrees_with_tree_witness :
    convertToCNF 6 (node '*' (node '>' (createNode 'p') (createNode 'q'))
      (node '~' (createNode 'r') nil)) =
      some (node '*' (node '+' (node '~' (createNode 'p') nil) (createNode 'q'))
        (node '~' (createNode 'r') nil)) ∧
    (isCNF (node '*' (node '+' (node '~' (createNode 'p') nil) (createNode 'q'))
        (node '~' (createNode 'r') nil)) = true ∧
      (clausesOf (node '*' (node '+' (node '~' (createNode 'p') nil) (createNode 'q'))
        (node '~' (createNode 'r') nil))).length ≤ 100 ∧
      (∀ c ∈ clausesOf (node '*' (node '+' (node '~' (createNode 'p') nil) (createNode 'q'))
        (node '~' (createNode 'r') nil)), (litsOf c).length ≤ 50) ∧
      (firstSeen (varsOf (node '*' (node '+' (node '~' (createNode 'p') nil)
        (createNode 'q')) (node '~' (createNode 'r') nil)))).length ≤ 100 ∧
      assignsAll [('p', 1), ('q', 1), ('r', 0)]
        (node '*' (node '+' (node '~' (createNode 'p') nil) (createNode 'q'))
          (node '~' (createNode 'r') nil)) = true) ∧
    treeToDIMACS (node '*' (node '+' (node '~' (createNode 'p') nil) (createNode 'q'))
        (node '~' (createNode 'r') nil)) [] =
      some (⟨[[-1, 2], [-3]], 2, 3⟩, [('p', 1), ('q', 2), ('r', 3)]) ∧
    evaluateDIMACS ⟨[[-1, 2], [-3]], 2, 3⟩ [0, 1, 1, 0] = some true ∧
    evaluateFormula (node '*' (node '+' (node '~' (createNode 'p') nil) (createNode 'q'))
      (node '~' (createNode 'r') nil)) [('p', 1), ('q', 1), ('r', 0)] = 1 ∧
    evaluateDIMACS ⟨[[-1, 2], [-3]], 2, 3⟩ [0, 1, 0, 0] = some false ∧
    evaluateFormula (node '*' (node '+' (node '~' (createNode 'p') nil) (createNode 'q'))
      (node '~' (createNode 'r') nil)) [('p', 1), ('q', 0), ('r', 0)] = 0 ∧
    ∃ f m, treeToDIMACS (node '*' (node '+' (node '~' (createNode 'p') nil) (createNode 'q'))
        (node '~' (createNode 'r') nil)) [] = some (f, m) ∧
      (([0, 1, 1, 0] : List Int).length = m.length + 1 →
        (∀ id : Nat, 1 ≤ id → id ≤ m.length →
          ([0, 1, 1, 0] : List Int).getD id 0 =
            getTruthValue (getCharVar (id : Int) m) [('p', 1), ('q', 1), ('r', 0)]) →
        ∃ b, evaluateDIMACS f [0, 1, 1, 0] = some b ∧
          (b = true ↔ evaluateFormula (node '*' (node '+' (node '~' (createNode 'p') nil)
            (createNode 'q')) (node '~' (createNode 'r') nil))
            [('p', 1), ('q', 1), ('r', 0)] = 1)) :=
  ⟨by decide, ⟨by decide, by decide, by decide, by decide, by decide⟩, by decide, by decide,
    by decide, by decide, by decide,
    clause_set_agrees_with_tree _ [] [('p', 1), ('q', 1), ('r', 0)] [0, 1, 1, 0] (by decide)
      (by decide) (by decide) (by decide) (by decide)⟩

/-! ## The validity check within the capacities of its arrays -/

theorem firstSeenFrom_length_le (syms : List Char) : ∀ (seen : List Char),
    (firstSeenFrom seen syms).length ≤ seen.length + syms.length := by
  induction syms with
  | nil => intro seen; simp [firstSeenFrom]
  | cons s rest ih =>
    intro seen
    rw [firstSeenFrom]
    by_cases h : s ∈ seen
    · simp only [h, if_true, List.length_cons]
      have := ih seen
      omega
    · simp only [h, if_false, List.length_cons]
      have := ih (seen ++ [s])
      simp only [List.length_append, List.length_cons, List.length_nil] at this
      omega

theorem extractLiterals_fresh_total (c : Tree) (h : (litsOf c).length ≤ 50) :
    ∃ m lits, extractLiterals 50 c ([], []) = some (m, lits) := by
  have hsym := firstSeenFrom_length_le ((litsOf c).map Prod.fst) []
  simp only [List.length_nil, List.length_map, Nat.zero_add] at hsym
  obtain ⟨st2, e, -⟩ := extractLiterals_runs 50 c ([], []) rfl List.nodup_nil
    (by simpa using h) (by simp only [List.map_nil]; omega)
  exact ⟨st2.1, st2.2, e⟩

theorem checkClauses_total : ∀ (cs : List Tree), (∀ c ∈ cs, (litsOf c).length ≤ 50) →
    ∃ b, checkClauses cs = some b := by
  intro cs
  induction cs with
  | nil => intro _; exact ⟨true, rfl⟩
  | cons c rest ih =>
    intro h
    obtain ⟨m, lits, e⟩ := extractLiterals_fresh_total c (h c (List.mem_cons_self _ _))
    rw [checkClauses]
    simp only [e]
    by_cases hf : foundComplementary lits = true
    · simp only [hf, if_true]
      exact ih (fun x hx => h x (List.mem_cons_of_mem _ hx))
    · simp only [hf, Bool.false_eq_true, if_false]
      exact ⟨false, rfl⟩

theorem isValidCNF_total (t : Tree) (hlit : ∀ c ∈ clausesOf t, (litsOf c).length ≤ 50) :
    ∃ b, isValidCNF t = some b := by
  cases t with
  | nil => exact ⟨false, rfl⟩
  | node v l r =>
    simp only [isValidCNF]
    split
    · exact ⟨false, rfl⟩
    · apply checkClauses_total
      intro c hc
      rw [extractClauses_eq _ [] 100 (by simp), List.nil_append] at hc
      exact hlit c (List.mem_of_mem_take hc)

/-- C4, amended. For every tree with at most 100 clauses, each of at most 50
literals, the literals of every clause are extracted, `isValidCNF` returns a
result, and it returns true if and only if the tree has at least one clause and
every clause contains some literal `L` together with `-L` among the literals
extracted from it. -/
theorem isValidCNF_true_iff (t : Tree) (hcap : (clausesOf t).length ≤ 100)
    (hlit : ∀ c ∈ clausesOf t, (litsOf c).length ≤ 50) :
    (∀ c ∈ clausesOf t, ∃ m lits, extractLiterals 50 c ([], []) = some (m, lits)) ∧
    (∃ b, isValidCNF t = some b) ∧
    (isValidCNF t = some true ↔
      clausesOf t ≠ [] ∧
      ∀ c ∈ clausesOf t, ∀ m lits, extractLiterals 50 c ([], []) = some (m, lits) →
        ∃ L, L ∈ lits ∧ -L ∈ lits) := by
  have htot : ∀ c ∈ clausesOf t, ∃ m lits, extractLiterals 50 c ([], []) = some (m, lits) :=
    fun c hc => extractLiterals_fresh_total c (hlit c hc)
  refine ⟨htot, isValidCNF_total t hlit, ?_⟩
  rw [isValidCNF_true_iff_extract t hcap]
  constructor
  · rintro ⟨hne, h⟩
    refine ⟨hne, ?_⟩
    intro c hc m lits e
    obtain ⟨m2, lits2, e2, hp⟩ := h c hc
    rw [e] at e2
    obtain ⟨-, rfl⟩ := Prod.mk.inj (Option.some.inj e2)
    exact hp
  · rintro ⟨hne, h⟩
    refine ⟨hne, ?_⟩
    intro c hc
    obtain ⟨m, lits, e⟩ := htot c hc
    exact ⟨m, lits, e, h c hc m lits e⟩

/-- Witness for C4: the CNF of `(p+(~p))` is reported valid. -/
theorem isValidCNF_true_iff_witness :
    ((clausesOf (node '+' (createNode 'p') (node '~' (createNode 'p') nil))).length ≤ 100 ∧
      ∀ c ∈ clausesOf (node '+' (createNode 'p') (node '~' (createNode 'p') nil)),
        (litsOf c).length ≤ 50) ∧
    ((∀ c ∈ clausesOf (node '+' (createNode 'p') (node '~' (createNode 'p') nil)),
        ∃ m lits, extractLiterals 50 c ([], []) = some (m, lits)) ∧
      (∃ b, isValidCNF (node '+' (createNode 'p') (node '~' (createNode 'p') nil)) = some b) ∧
      (isValidCNF (node '+' (createNode 'p') (node '~' (createNode 'p') nil)) = some true ↔
        clausesOf (node '+' (createNode 'p') (node '~' (createNode 'p') nil)) ≠ [] ∧
        ∀ c ∈ clausesOf (node '+' (createNode 'p') (node '~' (createNode 'p') nil)),
          ∀ m lits, extractLiterals 50 c ([], []) = some (m, lits) →
            ∃ L, L ∈ lits ∧ -L ∈ lits)) ∧
    convertToCNF 5 (node '+' (createNode 'p') (node '~' (createNode 'p') nil)) =
      some (node '+' (createNode 'p') (node '~' (createNode 'p') nil)) ∧
    isValidCNF (node '+' (createNode 'p') (node '~' (createNode 'p') nil)) = some true ∧
    extractLiterals 50 (node '+' (createNode 'p') (node '~' (createNode 'p') nil)) ([], []) =
      some ([('p', 1)], [1, -1]) :=
  ⟨⟨by decide, by decide⟩, isValidCNF_true_iff _ (by decide) (by decide), by decide, by decide,
    by decide⟩

/-! ## Completeness of the complementary-pair check within the literal capacity -/

/-- C5, counterexample. No CNF-shaped tree is true under every total assignment
of its variables and yet rejected by `isValidCNF`; and when every clause holds at
most 50 literals, so that the array `literals[50]` is not overrun, `isValidCNF`
returns true for every CNF-shaped tree that is true under every total
assignment of its variables. -/
theorem no_valid_cnf_is_rejected :
    (¬ ∃ t : Tree, isCNF t = true ∧
      (∀ A : Assignment, assignsAll A t = true → evaluateFormula t A ≠ 0) ∧
      isValidCNF t = some false) ∧
    ¬ ∃ t : Tree, isCNF t = true ∧ (∀ c ∈ clausesOf t, (litsOf c).length ≤ 50) ∧
      (∀ A : Assignment, assignsAll A t = true → evaluateFormula t A ≠ 0) ∧
      isValidCNF t ≠ some true := by
  constructor
  · rintro ⟨t, hc, hall, hv⟩
    obtain ⟨c, -, hA, h0⟩ := isValidCNF_false_falsifiable t hc hv
    exact hall _ hA h0
  · rintro ⟨t, hc, hlit, hall, hv⟩
    obtain ⟨b, hb⟩ := isValidCNF_total t hlit
    cases b with
    | true => exact hv hb
    | false =>
      obtain ⟨c, -, hA, h0⟩ := isValidCNF_false_falsifiable t hc hb
      exact hall _ hA h0

/-- C5, amended. Within the literal capacity the check is complete on
CNF-shaped trees: for every CNF-shaped tree in which every clause holds at most
50 literals, `isValidCNF` returns a result, and when the result is false some
total 0/1 assignment of its variables makes the tree evaluate to 0. -/
theorem isValidCNF_complete_on_cnf (t : Tree) (hc : isCNF t = true)
    (hlit : ∀ c ∈ clausesOf t, (litsOf c).length ≤ 50) :
    ∃ b, isValidCNF t = some b ∧
      (b = false → ∃ A : Assignment, assignsAll A t = true ∧ evaluateFormula t A = 0) := by
  obtain ⟨b, hb⟩ := isValidCNF_total t hlit
  refine ⟨b, hb, ?_⟩
  intro hf
  subst hf
  obtain ⟨c, -, hA, h0⟩ := isValidCNF_false_falsifiable t hc hb
  exact ⟨_, hA, h0⟩

/-- Witness for C5: the single clause `(p+q)` is rejected, and it is 0 under
`p = 0`, `q = 0`. -/
theorem isValidCNF_complete_on_cnf_witness :
    (isCNF (node '+' (createNode 'p') (createNode 'q')) = true ∧
      ∀ c ∈ clausesOf (node '+' (createNode 'p') (createNode 'q')), (litsOf c).length ≤ 50) ∧
    isValidCNF (node '+' (createNode 'p') (createNode 'q')) = some false ∧
    evaluateFormula (node '+' (createNode 'p') (createNode 'q')) [('p', 0), ('q', 0)] = 0 ∧
    ∃ b, isValidCNF (node '+' (createNode 'p') (createNode 'q')) = some b ∧
      (b = false → ∃ A : Assignment,
        assignsAll A (node '+' (createNode 'p') (createNode 'q')) = true ∧
        evaluateFormula (node '+' (createNode 'p') (createNode 'q')) A = 0) :=
  ⟨⟨by decide, by decide⟩, by decide, by decide,
    isValidCNF_complete_on_cnf _ (by decide) (by decide)⟩

end LogicSSPP
